import Mathlib

/-!
Shallow embedding of the `ez-bencoding` decoder core (the `src/decode` module
tree: tokenizer, token record, navigation layer, JSON string escaping), with
theorems checking the specification's claims against it.

Byte buffers are modelled as `List Nat` (each element a byte value < 256),
machine integers as `Int`/`Nat` with the source's overflow checks made
explicit, and Rust panics (failed `assert!`, out-of-bounds indexing, the
infinite loop reachable from a zero skip-distance) as a distinguished
`PRes.panicked` outcome.
-/

namespace Bdec

/-- Outcome of a computation that can panic (Rust `panic!` / failed `assert!` /
out-of-bounds index). `panicked` also models divergence of the child-index
walk when a skip-distance is zero. -/
inductive PRes (α : Type) where
  | ok (a : α)
  | panicked
deriving DecidableEq

def PRes.bind {α β : Type} : PRes α → (α → PRes β) → PRes β
  | .ok a, f => f a
  | .panicked, _ => .panicked

def PRes.map {α β : Type} (f : α → β) : PRes α → PRes β
  | .ok a => .ok (f a)
  | .panicked => .panicked

/-- `BdecodeTokenType` from `src/token.rs`: the 3-bit token kind.
`none` is the uninitialized/default kind and never appears in a valid
token stream. -/
inductive TokType where
  | none
  | dict
  | list
  | str
  | int
  | end_
deriving DecidableEq

/-- Error kinds from `src/error.rs`. `expectedColon` carries the two payloads
used at its only call site in `src/decode.rs` (`str_start` and `end`).
`overflow` carries the formatted message the source builds. -/
inductive BdecodeError where
  | expectedDigit (pos : Nat)
  | expectedColon (strStart : Nat) (endPos : Nat)
  | unexpectedEof (pos : Nat)
  | expectedValue (pos : Nat)
  | depthExceeded (limit : Nat)
  | limitExceeded (n : Nat)
  | overflow (msg : String)
deriving DecidableEq

/-- Limits from `src/decode/commons.rs`. -/
def BUFFER_MAX_OFFSET : Nat := 2 ^ 29 - 1

def MAX_NEXT_ITEM : Nat := 2 ^ 29 - 1

def MAX_HEADER_SIZE : Nat := 7

def DEFAULT_DEPTH_LIMIT : Nat := 100

def DEFAULT_TOKEN_LIMIT : Int := 1000000

/-- `BdecodeToken` from `src/token.rs`: a 64-bit bit-packed record with a
29-bit `offset`, 3-bit `kind`, 29-bit `nextItem` and 3-bit `headerSize`.
The bitfield setters truncate to the field width, modelled by the `%`
operations in the constructors below. -/
structure BToken where
  offset : Nat
  kind : TokType
  nextItem : Nat
  headerSize : Nat
deriving DecidableEq

def BToken.newAll (offset : Nat) (kind : TokType) (nextItem : Nat) (headerSize : Nat) : BToken :=
  ⟨offset % 2 ^ 29, kind, nextItem % 2 ^ 29, headerSize % 2 ^ 3⟩

def BToken.newDict (offset : Nat) (nextItem : Nat) : BToken :=
  BToken.newAll offset .dict nextItem 0

def BToken.newList (offset : Nat) (nextItem : Nat) : BToken :=
  BToken.newAll offset .list nextItem 0

def BToken.newInt (offset : Nat) : BToken :=
  BToken.newAll offset .int 1 0

def BToken.newEnd (offset : Nat) : BToken :=
  BToken.newAll offset .end_ 1 0

def BToken.newStr (offset : Nat) (headSize : Nat) : BToken :=
  BToken.newAll offset .str 1 headSize

/-- `set_next_item` (bitfield setter: truncates to 29 bits). -/
def BToken.setNextItem (t : BToken) (n : Nat) : BToken :=
  { t with nextItem := n % 2 ^ 29 }

/-- `StackFrame` from `src/decode/stack_frame.rs`: a 32-bit record with a
31-bit `token` index and 1-bit dict-parity `state`. -/
structure StackFrame where
  token : Nat
  state : Nat
deriving DecidableEq

def StackFrame.new (token : Nat) : StackFrame :=
  ⟨token % 2 ^ 31, 0⟩

/-- `set_state(!state)`: Rust bitwise-nots the `u8` and the 1-bit field keeps
only the low bit, so the state flips between 0 and 1. -/
def StackFrame.flipState (f : StackFrame) : StackFrame :=
  { f with state := 1 - f.state }

def isAsciiDigit (b : Nat) : Bool :=
  48 ≤ b && b ≤ 57

/-- `&buffer[a..b]` (callers guard the bounds; out of bounds is a panic at the
call site). -/
def sliceBytes (buffer : List Nat) (a b : Nat) : List Nat :=
  (buffer.take b).drop a

/-- `String::from_utf8_lossy` on a byte slice; the source only reaches this on
ASCII bytes, where the lossy conversion is the identity byte-to-char map. -/
def strOfBytes (l : List Nat) : String :=
  ⟨l.map Char.ofNat⟩

def i64Max : Int := 9223372036854775807

/-- The loop of `parse_uint` (`src/decode/utils.rs`): scan decimal digits from
`start`, stopping at the delimiter byte or the end of the buffer, with the
source's two explicit `i64` overflow checks. The structural `fuel` argument
stands for `buffer.length - start`, which decreases by one per iteration;
`fuel = 0` means `start ≥ buffer.length`, where the `while` condition fails. -/
def parseUintF (buffer : List Nat) (delimiter : Nat) :
    Nat → Nat → Int → Except BdecodeError (Nat × Int)
  | 0, start, val => .ok (start, val)
  | fuel + 1, start, val =>
    match buffer.get? start with
    | Option.none => .ok (start, val)
    | Option.some t =>
      if t = delimiter then .ok (start, val)
      else if ¬ isAsciiDigit t then .error (.expectedDigit start)
      else if val > i64Max / 10 then .error (.overflow (toString (val * 10)))
      else
        let val10 := val * 10
        let digit : Int := (t : Int) - 48
        if val10 > i64Max - digit then .error (.overflow (toString (val10 + digit)))
        else parseUintF buffer delimiter fuel (start + 1) (val10 + digit)

/-- `parse_uint` from `src/decode/utils.rs`. Returns the position where the
scan stopped together with the accumulated value (the source threads the
value through an `&mut i64`). -/
def parseUint (buffer : List Nat) (start : Nat) (delimiter : Nat) (val : Int) :
    Except BdecodeError (Nat × Int) :=
  parseUintF buffer delimiter (buffer.length - start) start val

/-- The digit-scanning loop of `check_integer` (`src/decode/utils.rs`): walk
until the byte `'e'`, counting digits, failing on a non-digit and when the
buffer ends. `fuel` stands for `buffer.length - start` as in `parseUintF`;
the source loop re-checks `start >= end` after each increment, so `fuel = 0`
(entry with `start ≥ buffer.length`) cannot be reached from `checkInteger`,
which errors on that case before the loop. -/
def chkIntLoop (buffer : List Nat) :
    Nat → Nat → Nat → Except BdecodeError (Nat × Nat)
  | 0, start, _ => .error (.unexpectedEof start)
  | fuel + 1, start, digits =>
    match buffer.get? start with
    | Option.none => .error (.unexpectedEof start)
    | Option.some t =>
      if t = 101 then .ok (start, digits)
      else if ¬ isAsciiDigit t then .error (.expectedDigit start)
      else if start + 1 ≥ buffer.length then .error (.unexpectedEof (start + 1))
      else chkIntLoop buffer fuel (start + 1) (digits + 1)

/-- `check_integer` from `src/decode/utils.rs`: validate the body of an
`i...e` integer token starting right after the `'i'`, honoring one optional
leading `'-'`; fail `Overflow` when more than 20 digits were scanned.
Returns the position of the closing `'e'`. -/
def checkInteger (buffer : List Nat) (start : Nat) : Except BdecodeError Nat :=
  let originStart := start
  if buffer.isEmpty then .error (.unexpectedEof 0)
  else if start ≥ buffer.length then .error (.unexpectedEof start)
  else
    let start1 := if buffer.get? start = Option.some 45 then start + 1 else start
    if buffer.get? start = Option.some 45 ∧ start1 = buffer.length then
      .error (.unexpectedEof start1)
    else
      match chkIntLoop buffer (buffer.length - start1) start1 0 with
      | .error e => .error e
      | .ok (pos, digits) =>
        if digits > 20 then
          .error (.overflow (strOfBytes (sliceBytes buffer originStart pos)))
        else .ok pos

/-- The dict-expecting-key pre-check of the tokenizer main loop
(`src/decode.rs`, the `current_frame_ptr` read): when the innermost open
container is a dict whose parity expects a key, the next byte must be a digit
or `'e'`. The raw pointer read always sees the live top-of-stack frame, so it
is modelled as a read of the stack head. -/
def dictKeyCheckFails (tokens : List BToken) (stack : List StackFrame) (t : Nat) : Bool :=
  match stack with
  | [] => false
  | f :: _ =>
    ((tokens.get? f.token).map BToken.kind = Option.some TokType.dict)
      && f.state = 0 && ¬ isAsciiDigit t && t ≠ 101

/-- The end-of-iteration parity flip (`src/decode.rs`, `current_frame_ptr`
write). The write targets the frame that was on top of the stack before the
just-processed token was dispatched; when that token popped a frame the write
lands in a dead slot (the source writes past the shrunken `Vec`, with no
observable effect since any later push fully overwrites the slot), so only
the live cases are modelled: for a push the old top sits directly below the
new top, otherwise it is still the top. -/
def flipFrame (tokens : List BToken) : List StackFrame → List StackFrame
  | [] => []
  | f :: rest =>
    if (tokens.get? f.token).map BToken.kind = Option.some TokType.dict then
      f.flipState :: rest
    else f :: rest

/-- One-shot state for the tokenizer loop output: the token list and the
cursor position where the loop stopped. -/
abbrev TkOut := List BToken × Nat

/-- The main tokenizer loop of `BdecodeNode::parse` (`src/decode.rs`,
`while start <= end`). `fuel` is the remaining token budget (`token_limit`):
the source decrements it at each iteration and fails once it goes negative,
which bounds the recursion. The stack is kept head-is-top. -/
def tokenizeLoop (buffer : List Nat) (depthLimit : Nat) :
    Nat → Nat → List BToken → List StackFrame → Except BdecodeError TkOut
  | 0, start, tokens, stack =>
    if start > buffer.length then .ok (tokens, start)
    else if stack.length ≥ depthLimit then .error (.depthExceeded depthLimit)
    else .error (.limitExceeded DEFAULT_TOKEN_LIMIT.toNat)
  | fuel + 1, start, tokens, stack =>
    if start > buffer.length then .ok (tokens, start)
    else if stack.length ≥ depthLimit then .error (.depthExceeded depthLimit)
    else
        match buffer.get? start with
        | Option.none => .error (.unexpectedEof start)
        | Option.some t =>
          if dictKeyCheckFails tokens stack t then .error (.expectedDigit start)
          else if t = 100 then
            -- 'd'
            let tokens1 := tokens ++ [BToken.newDict start 0]
            let stack1 := flipFrame tokens1 stack
            let stack2 := StackFrame.new tokens.length :: stack1
            tokenizeLoop buffer depthLimit fuel (start + 1) tokens1 stack2
          else if t = 108 then
            -- 'l'
            let tokens1 := tokens ++ [BToken.newList start 0]
            let stack1 := flipFrame tokens1 stack
            let stack2 := StackFrame.new tokens.length :: stack1
            tokenizeLoop buffer depthLimit fuel (start + 1) tokens1 stack2
          else if t = 105 then
            -- 'i'
            match checkInteger buffer (start + 1) with
            | .error e => .error e
            | .ok ePos =>
              let tokens1 := tokens ++ [BToken.newInt start]
              let stack1 := flipFrame tokens1 stack
              if stack1 = [] then .ok (tokens1, ePos + 1)
              else tokenizeLoop buffer depthLimit fuel (ePos + 1) tokens1 stack1
          else if t = 101 then
            -- 'e' (the source checks is_empty, reads stack.last(), then pops)
            match stack.head? with
            | Option.none => .error (.unexpectedEof start)
            | Option.some top =>
              if ((tokens.get? top.token).map BToken.kind = Option.some TokType.dict)
                  ∧ top.state = 1 then
                .error (.expectedValue start)
              else
                let tokens1 := tokens ++ [BToken.newEnd start]
                let nextItem := tokens1.length - top.token
                if nextItem > MAX_NEXT_ITEM then .error (.limitExceeded MAX_NEXT_ITEM)
                else
                  let tokens2 := match tokens1.get? top.token with
                    | Option.some tk => tokens1.set top.token (tk.setNextItem nextItem)
                    | Option.none => tokens1
                  -- pop; the parity flip targets the popped slot, now dead
                  if stack.tail = [] then .ok (tokens2, start + 1)
                  else tokenizeLoop buffer depthLimit fuel (start + 1) tokens2 stack.tail
          else
            -- string
            if ¬ isAsciiDigit t then .error (.expectedDigit start)
            else
              let len0 : Int := (t : Int) - 48
              let strStart := start
              if start + 1 ≥ buffer.length then .error (.unexpectedEof (start + 1))
              else
                match parseUint buffer (start + 1) 58 len0 with
                | .error e => .error e
                | .ok (colonPos, len) =>
                  if colonPos = buffer.length then
                    .error (.expectedColon strStart buffer.length)
                  else
                    let buffSize : Int := ((buffer.length : Int)) - colonPos - 1
                    if len > buffSize then .error (.unexpectedEof colonPos)
                    else if colonPos + 1 > buffer.length then
                      -- the source re-checks `start > end` after skipping the ':'
                      .error (.unexpectedEof (colonPos + 1))
                    else
                      let headerSize := colonPos - strStart
                      if headerSize > MAX_HEADER_SIZE then
                        .error (.limitExceeded MAX_HEADER_SIZE)
                      else
                        let tokens1 := tokens ++ [BToken.newStr strStart headerSize]
                        let stack1 := flipFrame tokens1 stack
                        let start1 := colonPos + 1 + len.toNat
                        if stack1 = [] then .ok (tokens1, start1)
                        else tokenizeLoop buffer depthLimit fuel start1 tokens1 stack1

/-- `BdecodeNode::parse` (`src/decode.rs`) up to the node construction:
the up-front limit and emptiness checks, the main loop, and the synthetic
terminating `End` token pushed at the final cursor. Returns the token array
and the final cursor. -/
def tokenize (buffer : List Nat) (depthLimit : Option Nat) (tokenLimit : Option Int) :
    Except BdecodeError TkOut :=
  let depthLimit := depthLimit.getD DEFAULT_DEPTH_LIMIT
  let tokenLimit := tokenLimit.getD DEFAULT_TOKEN_LIMIT
  if buffer.length > BUFFER_MAX_OFFSET then .error (.limitExceeded buffer.length)
  else if buffer.length = 0 then .error (.unexpectedEof 0)
  else
    match tokenizeLoop buffer depthLimit tokenLimit.toNat 0 [] [] with
    | .error e => .error e
    | .ok (tokens, finalPos) => .ok (tokens ++ [BToken.newEnd finalPos], finalPos)

/-- The skip-walk of `gen_item_indexes` (`src/decode/utils.rs`): follow
`next_item` distances from the first child until an `End` token. The source
loop indexes `tokens[begin]` without a bounds check and does not terminate if
a `next_item` is zero; both are modelled as `panicked` (the fuel
`tokens.length` is enough for every walk whose skip-distances are positive,
which holds for every token array the tokenizer produces). -/
def genLoop (tokens : List BToken) (isDict : Bool) :
    Nat → Nat → List Nat → Nat → PRes (List Nat × Nat)
  | 0, _, _, _ => .panicked
  | fuel + 1, b, idxs, count =>
    match tokens.get? b with
    | Option.none => .panicked
    | Option.some t =>
      if t.kind = TokType.end_ then .ok (idxs, count)
      else
        let idxs1 := if isDict then (if count % 2 = 0 then idxs ++ [b] else idxs)
                     else idxs ++ [b]
        genLoop tokens isDict fuel (b + t.nextItem) idxs1 (count + 1)

/-- `gen_item_indexes` from `src/decode/utils.rs`: the token indexes of a
container's direct children (keys only, for dicts) plus the child count. -/
def genItemIndexes (tokens : List BToken) (startTokenIdx : Nat) :
    PRes (List Nat × Nat) :=
  if startTokenIdx ≥ tokens.length then .panicked
  else if tokens.length < 2 then .ok ([], 0)
  else
    match (tokens.get? startTokenIdx).map BToken.kind with
    | Option.some TokType.dict =>
      (genLoop tokens true tokens.length (startTokenIdx + 1) [] 0).map
        (fun r => (r.1, r.2 / 2))
    | Option.some TokType.list =>
      genLoop tokens false tokens.length (startTokenIdx + 1) [] 0
    | _ => .ok ([], 0)

/-- The `BdecodeNode` enum (`src/decode.rs`): a typed view over the shared
buffer, token array and a token index; container views additionally cache the
child token indexes and the child count. -/
inductive BdecodeNode where
  | dict (buffer : List Nat) (tokens : List BToken) (tokenIndex : Nat)
      (itemIndexes : List Nat) (len : Nat)
  | list (buffer : List Nat) (tokens : List BToken) (tokenIndex : Nat)
      (itemIndexes : List Nat) (len : Nat)
  | str (buffer : List Nat) (tokens : List BToken) (tokenIndex : Nat)
  | int (buffer : List Nat) (tokens : List BToken) (tokenIndex : Nat)
  | end_ (buffer : List Nat) (tokens : List BToken) (tokenIndex : Nat)
deriving DecidableEq

/-- `BdecodeNode::new` (`src/decode.rs`): classify by the token's kind,
eagerly building the child indexes for containers. Indexing `tokens` out of
bounds panics; a `None`-kind token has no arm in the source match (the decode
tree's token type is not in the repository snapshot, and per the spec `None`
never appears in a valid token stream), modelled as a panic. -/
def BdecodeNode.new (tokenIdx : Nat) (tokens : List BToken) (buffer : List Nat) :
    PRes BdecodeNode :=
  match tokens.get? tokenIdx with
  | Option.none => .panicked
  | Option.some t =>
    match t.kind with
    | TokType.str => .ok (.str buffer tokens tokenIdx)
    | TokType.int => .ok (.int buffer tokens tokenIdx)
    | TokType.list =>
      (genItemIndexes tokens tokenIdx).map fun r => .list buffer tokens tokenIdx r.1 r.2
    | TokType.dict =>
      (genItemIndexes tokens tokenIdx).map fun r => .dict buffer tokens tokenIdx r.1 r.2
    | TokType.end_ => .ok (.end_ buffer tokens tokenIdx)
    | TokType.none => .panicked

/-- `Int::value` (`src/decode/int.rs`): decode the decimal between `'i'` and
`'e'`. The `negative` flag is set when the byte after `'i'` is `'-'`, and
`parse_uint` is then called at that same position. Failed `assert!`s and
out-of-bounds reads are panics. -/
def intValue (buffer : List Nat) (tokens : List BToken) (tokenIdx : Nat) :
    PRes (Except BdecodeError Int) :=
  match tokens.get? tokenIdx with
  | Option.none => .panicked
  | Option.some t =>
    if t.kind ≠ TokType.int then .panicked
    else
      match tokens.get? (tokenIdx + 1) with
      | Option.none => .panicked
      | Option.some nt =>
        let size := nt.offset - t.offset
        let start := t.offset + 1
        match buffer.get? start with
        | Option.none => .panicked
        | Option.some c =>
          let negative := c = 45
          match parseUint buffer start 101 0 with
          | .error e => .ok (.error e)
          | .ok (ePos, val) =>
            if ePos < start + size then
              .ok (.ok (if negative then -val else val))
            else .panicked

/-- `Str::value` (`src/decode/str.rs`): the borrowed payload slice
`buffer[offset + header_size + 1 .. next_token.offset]`. -/
def strValue (buffer : List Nat) (tokens : List BToken) (tokenIdx : Nat) :
    PRes (List Nat) :=
  match tokens.get? tokenIdx with
  | Option.none => .panicked
  | Option.some t =>
    if t.kind ≠ TokType.str then .panicked
    else
      match tokens.get? (tokenIdx + 1) with
      | Option.none => .panicked
      | Option.some nt =>
        let a := t.offset + (t.headerSize + 1)
        let b := nt.offset
        if a ≤ b ∧ b ≤ buffer.length then .ok (sliceBytes buffer a b)
        else .panicked

/-- `BdecodeNode::as_int` (`src/decode.rs`): panics unless the node is an
`Int`. -/
def BdecodeNode.asInt : BdecodeNode → PRes (Except BdecodeError Int)
  | .int buffer tokens tokenIdx => intValue buffer tokens tokenIdx
  | _ => .panicked

/-- `BdecodeNode::as_str` (`src/decode.rs`): panics unless the node is a
`Str`. -/
def BdecodeNode.asStr : BdecodeNode → PRes (List Nat)
  | .str buffer tokens tokenIdx => strValue buffer tokens tokenIdx
  | _ => .panicked

/-- The scan of `Dict::find` (`src/decode/dict.rs`): walk the cached key
indexes in order; for each, `assert!` the token is a `Str`, compare the key's
payload slice with the searched key, and on equality return the node built at
`key_index + key.next_item`. Out-of-bounds token or buffer accesses are
panics. -/
def dictFindLoop (buffer : List Nat) (tokens : List BToken) (key : List Nat) :
    List Nat → PRes (Option BdecodeNode)
  | [] => .ok Option.none
  | i :: rest =>
    match tokens.get? i with
    | Option.none => .panicked
    | Option.some tok =>
      if tok.kind ≠ TokType.str then .panicked
      else
        match tokens.get? (i + 1) with
        | Option.none => .panicked
        | Option.some nt =>
          let nextOffset := nt.offset
          let start := tok.offset + tok.headerSize + 1
          if start ≤ nextOffset ∧ nextOffset ≤ buffer.length then
            if sliceBytes buffer start nextOffset = key then
              (BdecodeNode.new (i + tok.nextItem) tokens buffer).map Option.some
            else dictFindLoop buffer tokens key rest
          else .panicked

/-- `Dict::find` (`src/decode/dict.rs`). The `assert!` on the dict's own
token kind is kept. -/
def dictFind (buffer : List Nat) (tokens : List BToken) (tokenIdx : Nat)
    (itemIndexes : List Nat) (key : List Nat) : PRes (Option BdecodeNode) :=
  if (tokens.get? tokenIdx).map BToken.kind ≠ Option.some TokType.dict then .panicked
  else dictFindLoop buffer tokens key itemIndexes

/-- `Dict::find_as_str` (`src/decode/dict.rs`): `find` then `as_str` on the
found node (which panics when the node is not a string). -/
def dictFindAsStr (buffer : List Nat) (tokens : List BToken) (tokenIdx : Nat)
    (itemIndexes : List Nat) (key : List Nat) : PRes (Option (List Nat)) :=
  match dictFind buffer tokens tokenIdx itemIndexes key with
  | .panicked => .panicked
  | .ok Option.none => .ok Option.none
  | .ok (Option.some n) => n.asStr.map Option.some

/-- `Dict::find_as_int` (`src/decode/dict.rs`): `find` then `as_int().ok()`
on the found node (`as_int` panics when the node is not an `Int`; a decode
error is silently turned into `None`). -/
def dictFindAsInt (buffer : List Nat) (tokens : List BToken) (tokenIdx : Nat)
    (itemIndexes : List Nat) (key : List Nat) : PRes (Option Int) :=
  match dictFind buffer tokens tokenIdx itemIndexes key with
  | .panicked => .panicked
  | .ok Option.none => .ok Option.none
  | .ok (Option.some n) =>
    match n.asInt with
    | .panicked => .panicked
    | .ok (.ok v) => .ok (Option.some v)
    | .ok (.error _) => .ok Option.none

/-- `List::item` (`src/decode/list.rs`): `assert!` the token kind, panic when
the index is out of range, then build the child view at the cached token
index. -/
def listItem (buffer : List Nat) (tokens : List BToken) (tokenIdx : Nat)
    (itemIndexes : List Nat) (len : Nat) (index : Nat) : PRes BdecodeNode :=
  if (tokens.get? tokenIdx).map BToken.kind ≠ Option.some TokType.list then .panicked
  else if index ≥ len then .panicked
  else
    match itemIndexes.get? index with
    | Option.none => .panicked
    | Option.some ti => BdecodeNode.new ti tokens buffer

/-- The `for i in 0..len` collection loop of `Dict::find_as_list`
(`src/decode/dict.rs`). -/
def listItemsFrom (buffer : List Nat) (tokens : List BToken) (tokenIdx : Nat)
    (itemIndexes : List Nat) (len : Nat) : Nat → PRes (List BdecodeNode)
  | 0 => .ok []
  | remaining + 1 =>
    match listItem buffer tokens tokenIdx itemIndexes len (len - (remaining + 1)) with
    | .panicked => .panicked
    | .ok n =>
      (listItemsFrom buffer tokens tokenIdx itemIndexes len remaining).map
        fun ns => n :: ns

/-- `Dict::find_as_list` (`src/decode/dict.rs`): `find`, then collect every
element when the found node is a `List`, `None` otherwise. -/
def dictFindAsList (buffer : List Nat) (tokens : List BToken) (tokenIdx : Nat)
    (itemIndexes : List Nat) (key : List Nat) : PRes (Option (List BdecodeNode)) :=
  match dictFind buffer tokens tokenIdx itemIndexes key with
  | .panicked => .panicked
  | .ok Option.none => .ok Option.none
  | .ok (Option.some n) =>
    match n with
    | .list b2 t2 i2 idxs2 len2 =>
      (listItemsFrom b2 t2 i2 idxs2 len2 len2).map Option.some
    | _ => .ok Option.none

/-- `Dict::item` (`src/decode/dict.rs`): the `(key, value)` views at a child
position; the value sits at `key_index + key.next_item`. -/
def dictItem (buffer : List Nat) (tokens : List BToken) (tokenIdx : Nat)
    (itemIndexes : List Nat) (len : Nat) (index : Nat) :
    PRes (BdecodeNode × BdecodeNode) :=
  if (tokens.get? tokenIdx).map BToken.kind ≠ Option.some TokType.dict then .panicked
  else if index ≥ len then .panicked
  else
    match itemIndexes.get? index with
    | Option.none => .panicked
    | Option.some keyTokenIdx =>
      if keyTokenIdx ≥ tokens.length then .panicked
      else
        match BdecodeNode.new keyTokenIdx tokens buffer with
        | .panicked => .panicked
        | .ok keyNode =>
          match tokens.get? keyTokenIdx with
          | Option.none => .panicked
          | Option.some keyToken =>
            (BdecodeNode.new (keyTokenIdx + keyToken.nextItem) tokens buffer).map
              fun valNode => (keyNode, valNode)

/-- The `for i in 0..len` pair-collection loop of `Dict::find_as_dict`
(`src/decode/dict.rs`); the `HashMap` is modelled as the association list of
`(key.as_str(), value)` pairs in insertion order. -/
def dictPairsFrom (buffer : List Nat) (tokens : List BToken) (tokenIdx : Nat)
    (itemIndexes : List Nat) (len : Nat) :
    Nat → PRes (List (List Nat × BdecodeNode))
  | 0 => .ok []
  | remaining + 1 =>
    match dictItem buffer tokens tokenIdx itemIndexes len (len - (remaining + 1)) with
    | .panicked => .panicked
    | .ok (keyNode, valNode) =>
      match keyNode.asStr with
      | .panicked => .panicked
      | .ok keyBytes =>
        (dictPairsFrom buffer tokens tokenIdx itemIndexes len remaining).map
          fun ps => (keyBytes, valNode) :: ps

/-- `Dict::find_as_dict` (`src/decode/dict.rs`): `find`, then collect every
`(key, value)` pair when the found node is a `Dict`, `None` otherwise. -/
def dictFindAsDict (buffer : List Nat) (tokens : List BToken) (tokenIdx : Nat)
    (itemIndexes : List Nat) (key : List Nat) :
    PRes (Option (List (List Nat × BdecodeNode))) :=
  match dictFind buffer tokens tokenIdx itemIndexes key with
  | .panicked => .panicked
  | .ok Option.none => .ok Option.none
  | .ok (Option.some n) =>
    match n with
    | .dict b2 t2 i2 idxs2 len2 =>
      (dictPairsFrom b2 t2 i2 idxs2 len2 len2).map Option.some
    | _ => .ok Option.none

/-- `BdecodeNode::dict_find` (`src/decode.rs`): panics unless the node is a
`Dict`. -/
def BdecodeNode.dictFind : BdecodeNode → List Nat → PRes (Option BdecodeNode)
  | .dict buffer tokens tokenIdx itemIndexes _, key =>
    Bdec.dictFind buffer tokens tokenIdx itemIndexes key
  | _, _ => .panicked

/-- `BdecodeNode::dict_find_as_str` (`src/decode.rs`). -/
def BdecodeNode.dictFindAsStr : BdecodeNode → List Nat → PRes (Option (List Nat))
  | .dict buffer tokens tokenIdx itemIndexes _, key =>
    Bdec.dictFindAsStr buffer tokens tokenIdx itemIndexes key
  | _, _ => .panicked

/-- `BdecodeNode::dict_find_as_int` (`src/decode.rs`). -/
def BdecodeNode.dictFindAsInt : BdecodeNode → List Nat → PRes (Option Int)
  | .dict buffer tokens tokenIdx itemIndexes _, key =>
    Bdec.dictFindAsInt buffer tokens tokenIdx itemIndexes key
  | _, _ => .panicked

/-- `BdecodeNode::dict_find_as_list` (`src/decode.rs`). -/
def BdecodeNode.dictFindAsList : BdecodeNode → List Nat → PRes (Option (List BdecodeNode))
  | .dict buffer tokens tokenIdx itemIndexes _, key =>
    Bdec.dictFindAsList buffer tokens tokenIdx itemIndexes key
  | _, _ => .panicked

/-- `BdecodeNode::dict_find_as_dict` (`src/decode.rs`). -/
def BdecodeNode.dictFindAsDict :
    BdecodeNode → List Nat → PRes (Option (List (List Nat × BdecodeNode)))
  | .dict buffer tokens tokenIdx itemIndexes _, key =>
    Bdec.dictFindAsDict buffer tokens tokenIdx itemIndexes key
  | _, _ => .panicked

/-- `BdecodeNode::parse` (`src/decode.rs`): tokenize, then build the root
node view at token index 0. A tokenization error is the `Except` error; a
panic during node construction dominates. -/
def BdecodeNode.parse (buffer : List Nat) (depthLimit : Option Nat)
    (tokenLimit : Option Int) : PRes (Except BdecodeError BdecodeNode) :=
  match tokenize buffer depthLimit tokenLimit with
  | .error e => .ok (.error e)
  | .ok (tokens, _) =>
    (BdecodeNode.new 0 tokens buffer).map .ok

/-- `BdecodeNode::parse_buffer` (`src/decode.rs`). -/
def BdecodeNode.parseBuffer (buffer : List Nat) : PRes (Except BdecodeError BdecodeNode) :=
  BdecodeNode.parse buffer Option.none Option.none

/-- One lowercase hexadecimal digit, as produced by Rust's `{:02x}`
formatting. -/
def hexDigitChar (n : Nat) : Char :=
  if n < 10 then Char.ofNat (48 + n) else Char.ofNat (87 + n)

/-- The `format!` calls of `escape_char`: `\xHH` with two lowercase hex
digits of the byte. -/
def hexEscape (b : Nat) : String :=
  ⟨['\\', 'x', hexDigitChar (b / 16 % 16), hexDigitChar (b % 16)]⟩

/-- `u8::is_ascii_graphic`: printable ASCII other than space,
`0x21 ..= 0x7e`. -/
def isAsciiGraphic (b : Nat) : Bool :=
  33 ≤ b && b ≤ 126

/-- `escape_char` from `src/decode/utils.rs`. -/
def escapeChar (b : Nat) : String :=
  if b = 32 then " "
  else if b = 34 then hexEscape b
  else if isAsciiGraphic b then String.singleton (Char.ofNat b)
  else hexEscape b

/-- `escape_string` from `src/decode/utils.rs`: concatenate the per-byte
escapes. -/
def escapeString (bytes : List Nat) : String :=
  bytes.foldl (fun result c => result ++ escapeChar c) ""

/-- `Str::to_json_with_style` (`src/decode/str.rs`): the escaped payload
wrapped in double quotes (the style argument is ignored). -/
def strToJsonWithStyle (buffer : List Nat) (tokens : List BToken) (tokenIdx : Nat) :
    PRes String :=
  (strValue buffer tokens tokenIdx).map fun v => "\"" ++ escapeString v ++ "\""

/-- The variant tag of a node view, for stating kind-mismatch facts. -/
def BdecodeNode.kindOf : BdecodeNode → TokType
  | .dict _ _ _ _ _ => TokType.dict
  | .list _ _ _ _ _ => TokType.list
  | .str _ _ _ => TokType.str
  | .int _ _ _ => TokType.int
  | .end_ _ _ _ => TokType.end_

instance {ε α : Type} [DecidableEq ε] [DecidableEq α] : DecidableEq (Except ε α) := fun x y =>
  match x, y with
  | .ok a, .ok b => if h : a = b then isTrue (by rw [h]) else isFalse (by simp [h])
  | .error a, .error b => if h : a = b then isTrue (by rw [h]) else isFalse (by simp [h])
  | .ok _, .error _ => isFalse (by simp)
  | .error _, .ok _ => isFalse (by simp)

/-!
## C1

The claim states that for every `n ∈ [−10^18, 10^18]` the buffer
`"i" ++ decimal(n) ++ "e"` parses and `as_int()` returns `n`, with one
optional leading `'-'` honored so negative integers decode to their negative
value. The tokenizer does accept negative integers, but `Int::value`
(`src/decode/int.rs`) only *reads* the `'-'` to set its `negative` flag and
then calls `parse_uint` at the position of the `'-'` itself, which rejects
the `'-'` byte with `ExpectedDigit`, so `as_int()` errors on every negative
integer and the `negative` branch returning `-val` is unreachable. The code
contradicts its own intent (the dead `negative`/`-val` machinery) and the
spec; nonnegative integers in range decode correctly.
-/

/-- C1: evaluating the code at the failing input. The buffer `"i-1e"`
(bytes `[105, 45, 49, 101]`) parses into an `Int` node, but `as_int()` on it
returns `Err(ExpectedDigit(1))` — the position of the `'-'` — instead of
`-1`; on the nonnegative inputs `"i19e"` and `"i1000000000000000000e"`
(`10^18`) `as_int()` does return the decimal value. -/
theorem c1_as_int_negative_fails :
    BdecodeNode.parse [105, 45, 49, 101] Option.none Option.none =
      .ok (.ok (.int [105, 45, 49, 101] [BToken.newInt 0, BToken.newEnd 4] 0)) ∧
    (BdecodeNode.int [105, 45, 49, 101] [BToken.newInt 0, BToken.newEnd 4] 0).asInt =
      .ok (.error (.expectedDigit 1)) ∧
    (BdecodeNode.parse [105, 49, 57, 101] Option.none Option.none).map
      (Except.map BdecodeNode.asInt) = .ok (.ok (.ok (.ok 19))) ∧
    (BdecodeNode.parse
        [105, 49, 48, 48, 48, 48, 48, 48, 48, 48, 48, 48, 48, 48, 48, 48, 48, 48, 48, 48, 101]
        Option.none Option.none).map (Except.map BdecodeNode.asInt) =
      .ok (.ok (.ok (.ok 1000000000000000000))) := by
  refine ⟨by rfl, by rfl, by rfl, by rfl⟩

/-!
## C2

The claim states that all four `dict_find_as_*` accessors return `None` both
on a missing key and on a kind mismatch, without panicking. That is true for
`dict_find_as_list` and `dict_find_as_dict`, which pattern-match the found
node, but `dict_find_as_str` and `dict_find_as_int` (`src/decode/dict.rs`)
call `as_str()`/`as_int()` on the found node, and those panic on any kind
mismatch (`src/decode.rs`). The missing-key and int-overflow parts of the
claim hold.
-/

/-- C2 counterexample: in the dict `"d1:alee"` = `{"a": []}` the key `"a"`
(byte `[97]`) is present with a list value, and `dict_find_as_int` (and
likewise `dict_find_as_str`) panics on the kind mismatch instead of
returning `None` as the claim states. -/
theorem c2_find_as_int_mismatch_panics :
    BdecodeNode.parse [100, 49, 58, 97, 108, 101, 101] Option.none Option.none =
      .ok (.ok (.dict [100, 49, 58, 97, 108, 101, 101]
        [BToken.newDict 0 5, BToken.newStr 1 1, BToken.newList 4 2,
         BToken.newEnd 5, BToken.newEnd 6, BToken.newEnd 7] 0 [1] 1)) ∧
    (BdecodeNode.dict [100, 49, 58, 97, 108, 101, 101]
        [BToken.newDict 0 5, BToken.newStr 1 1, BToken.newList 4 2,
         BToken.newEnd 5, BToken.newEnd 6, BToken.newEnd 7] 0 [1] 1).dictFindAsInt
      [97] = .panicked ∧
    (BdecodeNode.dict [100, 49, 58, 97, 108, 101, 101]
        [BToken.newDict 0 5, BToken.newStr 1 1, BToken.newList 4 2,
         BToken.newEnd 5, BToken.newEnd 6, BToken.newEnd 7] 0 [1] 1).dictFindAsStr
      [97] = .panicked := by
  refine ⟨by rfl, by rfl, by rfl⟩

/-- C2 amended: for every dict node and key, all four `dict_find_as_*`
return `None` when the key is missing; when the found value's kind does not
match, `dict_find_as_list` and `dict_find_as_dict` return `None` but
`dict_find_as_str` and `dict_find_as_int` panic; and `dict_find_as_int`
returns `None` when the integer value is present but its decoding fails
(in particular on overflow), and its decoded value otherwise. -/
theorem c2_amended_find_as_behavior (b : List Nat) (toks : List BToken)
    (ti len : Nat) (idxs key : List Nat) (r : Option BdecodeNode)
    (h : (BdecodeNode.dict b toks ti idxs len).dictFind key = .ok r) :
    (r = Option.none →
      (BdecodeNode.dict b toks ti idxs len).dictFindAsStr key = .ok Option.none ∧
      (BdecodeNode.dict b toks ti idxs len).dictFindAsInt key = .ok Option.none ∧
      (BdecodeNode.dict b toks ti idxs len).dictFindAsList key = .ok Option.none ∧
      (BdecodeNode.dict b toks ti idxs len).dictFindAsDict key = .ok Option.none) ∧
    (∀ n, r = Option.some n →
      (n.kindOf ≠ TokType.str →
        (BdecodeNode.dict b toks ti idxs len).dictFindAsStr key = .panicked) ∧
      (n.kindOf ≠ TokType.int →
        (BdecodeNode.dict b toks ti idxs len).dictFindAsInt key = .panicked) ∧
      (n.kindOf ≠ TokType.list →
        (BdecodeNode.dict b toks ti idxs len).dictFindAsList key = .ok Option.none) ∧
      (n.kindOf ≠ TokType.dict →
        (BdecodeNode.dict b toks ti idxs len).dictFindAsDict key = .ok Option.none) ∧
      (∀ e, n.asInt = .ok (.error e) →
        (BdecodeNode.dict b toks ti idxs len).dictFindAsInt key = .ok Option.none) ∧
      (∀ v, n.asInt = .ok (.ok v) →
        (BdecodeNode.dict b toks ti idxs len).dictFindAsInt key = .ok (Option.some v))) := by
  have hfind : Bdec.dictFind b toks ti idxs key = .ok r := h
  constructor
  · rintro rfl
    refine ⟨?_, ?_, ?_, ?_⟩ <;>
      simp [BdecodeNode.dictFindAsStr, BdecodeNode.dictFindAsInt,
        BdecodeNode.dictFindAsList, BdecodeNode.dictFindAsDict,
        Bdec.dictFindAsStr, Bdec.dictFindAsInt, Bdec.dictFindAsList,
        Bdec.dictFindAsDict, hfind]
  · rintro n rfl
    refine ⟨?_, ?_, ?_, ?_, ?_, ?_⟩
    · intro hk
      cases n <;> simp [BdecodeNode.kindOf] at hk ⊢ <;>
        simp [BdecodeNode.dictFindAsStr, Bdec.dictFindAsStr, hfind,
          BdecodeNode.asStr, PRes.map]
    · intro hk
      cases n <;> simp [BdecodeNode.kindOf] at hk ⊢ <;>
        simp [BdecodeNode.dictFindAsInt, Bdec.dictFindAsInt, hfind,
          BdecodeNode.asInt]
    · intro hk
      cases n <;> simp [BdecodeNode.kindOf] at hk ⊢ <;>
        simp [BdecodeNode.dictFindAsList, Bdec.dictFindAsList, hfind]
    · intro hk
      cases n <;> simp [BdecodeNode.kindOf] at hk ⊢ <;>
        simp [BdecodeNode.dictFindAsDict, Bdec.dictFindAsDict, hfind]
    · intro e he
      simp [BdecodeNode.dictFindAsInt, Bdec.dictFindAsInt, hfind, he]
    · intro v hv
      simp [BdecodeNode.dictFindAsInt, Bdec.dictFindAsInt, hfind, hv]

/-- C2 witness: the amended theorem applied to the dict `"d1:a1:be"` =
`{"a": "b"}` (value kind `Str`, so `dict_find_as_int` panics while the
list/dict variants return `None`), and to `"d1:ai9...9e"` with twenty nines
(present integer whose decoding overflows, so `dict_find_as_int` returns
`None`). -/
theorem c2_amended_find_as_behavior_witness :
    (BdecodeNode.dict [100, 49, 58, 97, 49, 58, 98, 101]
        [BToken.newDict 0 4, BToken.newStr 1 1, BToken.newStr 4 1,
         BToken.newEnd 7, BToken.newEnd 8] 0 [1] 1).dictFindAsInt [97] = .panicked ∧
    (BdecodeNode.dict [100, 49, 58, 97, 49, 58, 98, 101]
        [BToken.newDict 0 4, BToken.newStr 1 1, BToken.newStr 4 1,
         BToken.newEnd 7, BToken.newEnd 8] 0 [1] 1).dictFindAsList [97] =
      .ok Option.none ∧
    (BdecodeNode.dict
        [100, 49, 58, 97, 105, 57, 57, 57, 57, 57, 57, 57, 57, 57, 57, 57, 57,
         57, 57, 57, 57, 57, 57, 57, 57, 101, 101]
        [BToken.newDict 0 4, BToken.newStr 1 1, BToken.newInt 4,
         BToken.newEnd 26, BToken.newEnd 27] 0 [1] 1).dictFindAsInt [97] =
      .ok Option.none := by
  have h1 := c2_amended_find_as_behavior [100, 49, 58, 97, 49, 58, 98, 101]
    [BToken.newDict 0 4, BToken.newStr 1 1, BToken.newStr 4 1,
     BToken.newEnd 7, BToken.newEnd 8] 0 1 [1] [97]
    (Option.some (.str [100, 49, 58, 97, 49, 58, 98, 101]
      [BToken.newDict 0 4, BToken.newStr 1 1, BToken.newStr 4 1,
       BToken.newEnd 7, BToken.newEnd 8] 2)) (by rfl)
  have h2 := c2_amended_find_as_behavior
    [100, 49, 58, 97, 105, 57, 57, 57, 57, 57, 57, 57, 57, 57, 57, 57, 57,
     57, 57, 57, 57, 57, 57, 57, 57, 101, 101]
    [BToken.newDict 0 4, BToken.newStr 1 1, BToken.newInt 4,
     BToken.newEnd 26, BToken.newEnd 27] 0 1 [1] [97]
    (Option.some (.int
      [100, 49, 58, 97, 105, 57, 57, 57, 57, 57, 57, 57, 57, 57, 57, 57, 57,
       57, 57, 57, 57, 57, 57, 57, 57, 101, 101]
      [BToken.newDict 0 4, BToken.newStr 1 1, BToken.newInt 4,
       BToken.newEnd 26, BToken.newEnd 27] 2)) (by rfl)
  refine ⟨(h1.2 _ rfl).2.1 (by decide), (h1.2 _ rfl).2.2.1 (by decide),
    (h2.2 _ rfl).2.2.2.2.1 (.overflow "9999999999999999990") (by rfl)⟩

/-!
## C9
-/

/-- Claim-side semantics of one hexadecimal digit character: the value it
denotes (lowercase letters, as Rust's `{:02x}` produces). -/
def hexCharVal (c : Char) : Option Nat :=
  if 48 ≤ c.toNat ∧ c.toNat ≤ 57 then Option.some (c.toNat - 48)
  else if 97 ≤ c.toNat ∧ c.toNat ≤ 102 then Option.some (c.toNat - 87)
  else Option.none

/-- Claim-side byte-by-byte rendering of a string payload: the concatenation
of the per-byte escapes, written as plain structural recursion. -/
def escapeStringSpec : List Nat → String
  | [] => ""
  | c :: rest => escapeChar c ++ escapeStringSpec rest

theorem hexDigitChar_val {n : Nat} (h : n < 16) :
    hexCharVal (hexDigitChar n) = Option.some n := by
  interval_cases n <;> decide

theorem escapeString_acc (bytes : List Nat) :
    ∀ acc : String,
      List.foldl (fun result c => result ++ escapeChar c) acc bytes =
        acc ++ escapeStringSpec bytes := by
  induction bytes with
  | nil => intro acc; simp [escapeStringSpec]
  | cons c rest ih =>
    intro acc
    simp only [List.foldl_cons, escapeStringSpec, ih]
    apply String.ext
    simp

/-- C9: in the JSON rendering of a string node the output is delimited by
`'"'`, and each payload byte maps as the claim states: a space stays a
literal space, `'"'` becomes `\x22`, any other non-ASCII-graphic byte
becomes `\xHH` with two hex digits denoting `b / 16` and `b % 16`, and every
other ASCII-graphic byte is emitted as itself. -/
theorem c9_string_json_escaping (b : Nat) (hb : b < 256) :
    (b = 32 → escapeChar b = " ") ∧
    (b = 34 → escapeChar b = "\\x22") ∧
    (isAsciiGraphic b = true → b ≠ 34 →
      escapeChar b = String.singleton (Char.ofNat b)) ∧
    (isAsciiGraphic b = false → b ≠ 32 → ∃ c1 c2,
      escapeChar b = ⟨['\\', 'x', c1, c2]⟩ ∧
      hexCharVal c1 = Option.some (b / 16) ∧
      hexCharVal c2 = Option.some (b % 16)) ∧
    (∀ bytes, escapeString bytes = escapeStringSpec bytes) ∧
    (∀ buffer tokens tokenIdx v, strValue buffer tokens tokenIdx = .ok v →
      strToJsonWithStyle buffer tokens tokenIdx =
        .ok ("\"" ++ escapeString v ++ "\"")) := by
  refine ⟨?_, ?_, ?_, ?_, ?_, ?_⟩
  · rintro rfl; rfl
  · rintro rfl; rfl
  · intro hg h34
    have h32 : b ≠ 32 := by
      intro h; subst h; simp [isAsciiGraphic] at hg
    simp [escapeChar, h32, h34, hg]
  · intro hg h32
    have h34 : b ≠ 34 := by
      intro h; subst h; simp [isAsciiGraphic] at hg
    refine ⟨hexDigitChar (b / 16 % 16), hexDigitChar (b % 16), ?_, ?_, ?_⟩
    · simp [escapeChar, h32, h34, hg, hexEscape]
    · have : b / 16 % 16 = b / 16 := Nat.mod_eq_of_lt (by omega)
      rw [this, hexDigitChar_val (by omega)]
    · exact hexDigitChar_val (Nat.mod_lt _ (by norm_num))
  · intro bytes
    simpa using escapeString_acc bytes ""
  · intro buffer tokens tokenIdx v hv
    simp [strToJsonWithStyle, hv, PRes.map]

/-- C9 witness: the per-byte cases at `b = 32`, `34`, `97` and `7`, and the
rendering of the parsed string node for `"2:k1"`. -/
theorem c9_string_json_escaping_witness :
    escapeChar 32 = " " ∧ escapeChar 34 = "\\x22" ∧
    escapeChar 97 = String.singleton (Char.ofNat 97) ∧
    (∃ c1 c2, escapeChar 7 = ⟨['\\', 'x', c1, c2]⟩ ∧
      hexCharVal c1 = Option.some (7 / 16) ∧
      hexCharVal c2 = Option.some (7 % 16)) ∧
    strToJsonWithStyle [50, 58, 107, 49] [BToken.newStr 0 1, BToken.newEnd 4] 0 =
      .ok ("\"" ++ escapeString [107, 49] ++ "\"") := by
  refine ⟨(c9_string_json_escaping 32 (by norm_num)).1 rfl,
    (c9_string_json_escaping 34 (by norm_num)).2.1 rfl,
    (c9_string_json_escaping 97 (by norm_num)).2.2.1 (by decide) (by decide),
    (c9_string_json_escaping 7 (by norm_num)).2.2.2.1 (by decide) (by decide),
    (c9_string_json_escaping 0 (by norm_num)).2.2.2.2.2 _ _ _ [107, 49] (by rfl)⟩

/-!
## C10
-/

/-- Claim-side shorthand: the payload slice of the string token at index
`i`, as `Dict::find` compares it. -/
def keySliceAt (b : List Nat) (toks : List BToken) (i : Nat) : List Nat :=
  match toks.get? i, toks.get? (i + 1) with
  | Option.some tok, Option.some nt =>
    sliceBytes b (tok.offset + tok.headerSize + 1) nt.offset
  | _, _ => []

/-- Claim-side shorthand: the skip-distance of the token at index `i`. -/
def nextItemAt (toks : List BToken) (i : Nat) : Nat :=
  ((toks.get? i).map BToken.nextItem).getD 0

/-- A child-index walk parked on a non-`End` token with skip-distance zero
never succeeds (the source loops forever; the model exhausts its fuel). -/
theorem genLoop_stuck (toks : List BToken) (isDict : Bool) (b : Nat)
    (t : BToken) (ht : toks.get? b = Option.some t) (hk : t.kind ≠ TokType.end_)
    (hn : t.nextItem = 0) :
    ∀ (fuel : Nat) (idxs : List Nat) (count : Nat),
      genLoop toks isDict fuel b idxs count = .panicked := by
  intro fuel
  induction fuel with
  | zero => intro idxs count; rfl
  | succ fuel ih =>
    intro idxs count
    simp only [genLoop, ht, hk, if_neg hk, hn, Nat.add_zero]
    exact ih _ _

/-- On success, the child-index walk emits strictly increasing token
indexes. -/
theorem genLoop_chain (toks : List BToken) (isDict : Bool) :
    ∀ (fuel b : Nat) (idxs : List Nat) (count : Nat) (out : List Nat × Nat),
      genLoop toks isDict fuel b idxs count = .ok out →
      List.Chain' (· < ·) idxs → (∀ x ∈ idxs, x < b) →
      List.Chain' (· < ·) out.1 := by
  intro fuel
  induction fuel with
  | zero => intro b idxs count out h; exact absurd h (by simp [genLoop])
  | succ fuel ih =>
    intro b idxs count out h hchain hlt
    rw [genLoop] at h
    match hget : toks.get? b with
    | Option.none => simp only [hget] at h; simp at h
    | Option.some t =>
      simp only [hget] at h
      by_cases hend : t.kind = TokType.end_
      · rw [if_pos hend] at h
        cases h
        exact hchain
      · rw [if_neg hend] at h
        rcases Nat.eq_zero_or_pos t.nextItem with hn | hn
        · rw [genLoop_stuck toks isDict (b + t.nextItem)
            t (by rw [hn]; simpa using hget) hend hn] at h
          simp at h
        · set idxs1 := if isDict then (if count % 2 = 0 then idxs ++ [b] else idxs)
            else idxs ++ [b] with hidxs1
          have hchain1 : List.Chain' (· < ·) idxs1 := by
            have happ : List.Chain' (· < ·) (idxs ++ [b]) := by
              rw [List.chain'_append]
              refine ⟨hchain, List.chain'_singleton b, ?_⟩
              intro x hx y hy
              simp at hy
              subst hy
              obtain ⟨hne, hx'⟩ := List.mem_getLast?_eq_getLast hx
              rw [hx']
              exact hlt _ (List.getLast_mem hne)
            rw [hidxs1]
            split
            · split
              · exact happ
              · exact hchain
            · exact happ
          have hlt1 : ∀ x ∈ idxs1, x < b + t.nextItem := by
            have hmem : ∀ x ∈ idxs1, x ∈ idxs ++ [b] := by
              rw [hidxs1]
              split
              · split
                · intro x hx; exact hx
                · intro x hx; exact List.mem_append_left _ hx
              · intro x hx; exact hx
            intro x hx
            rcases List.mem_append.mp (hmem x hx) with hx' | hx'
            · exact lt_of_lt_of_le (hlt x hx') (Nat.le_add_right _ _)
            · simp at hx'; subst hx'; omega
          exact ih _ _ _ _ h hchain1 hlt1

/-- `Dict::find`'s scan is `List.find?` over the cached key indexes: it
returns the value node following the first index whose key slice equals the
searched key. -/
theorem dictFindLoop_first_match (b : List Nat) (toks : List BToken)
    (key : List Nat) :
    ∀ idxs : List Nat,
      (∀ i ∈ idxs, ∃ tok nt, toks.get? i = Option.some tok ∧
        tok.kind = TokType.str ∧ toks.get? (i + 1) = Option.some nt ∧
        tok.offset + tok.headerSize + 1 ≤ nt.offset ∧ nt.offset ≤ b.length) →
      dictFindLoop b toks key idxs =
        match idxs.find? (fun i => decide (keySliceAt b toks i = key)) with
        | Option.none => .ok Option.none
        | Option.some i =>
          (BdecodeNode.new (i + nextItemAt toks i) toks b).map Option.some := by
  intro idxs
  induction idxs with
  | nil => intro _; rfl
  | cons i rest ih =>
    intro hvalid
    obtain ⟨tok, nt, hget, hkind, hget1, hle, hlen⟩ := hvalid i (by simp)
    have hslice : keySliceAt b toks i =
        sliceBytes b (tok.offset + tok.headerSize + 1) nt.offset := by
      simp only [keySliceAt, hget, hget1]
    have hnotstr : ¬ (tok.kind ≠ TokType.str) := by simp [hkind]
    rw [dictFindLoop]
    simp only [hget, hget1, if_neg hnotstr, if_pos (And.intro hle hlen)]
    have hni : nextItemAt toks i = tok.nextItem := by
      unfold nextItemAt; rw [hget]; rfl
    by_cases heq : sliceBytes b (tok.offset + tok.headerSize + 1) nt.offset = key
    · rw [if_pos heq, List.find?_cons_of_pos _ (by simp [hslice, heq])]
      simp [hni]
    · rw [if_neg heq, List.find?_cons_of_neg _ (by simp [hslice, heq])]
      exact ih (fun j hj => hvalid j (by simp [hj]))

/-- C10: the child-index walk caches key indexes in increasing token-index
order, and `dict_find` scans them in that order and returns the value
associated with the first byte-equal key, so for duplicate keys the first
occurrence in document order wins. -/
theorem c10_dict_find_first_occurrence :
    (∀ (toks : List BToken) (s : Nat) (idxs : List Nat) (n : Nat),
      genItemIndexes toks s = .ok (idxs, n) → List.Chain' (· < ·) idxs) ∧
    (∀ (b : List Nat) (toks : List BToken) (ti len : Nat) (idxs key : List Nat),
      (toks.get? ti).map BToken.kind = Option.some TokType.dict →
      (∀ i ∈ idxs, ∃ tok nt, toks.get? i = Option.some tok ∧
        tok.kind = TokType.str ∧ toks.get? (i + 1) = Option.some nt ∧
        tok.offset + tok.headerSize + 1 ≤ nt.offset ∧ nt.offset ≤ b.length) →
      (BdecodeNode.dict b toks ti idxs len).dictFind key =
        match idxs.find? (fun i => decide (keySliceAt b toks i = key)) with
        | Option.none => .ok Option.none
        | Option.some i =>
          (BdecodeNode.new (i + nextItemAt toks i) toks b).map Option.some) := by
  constructor
  · intro toks s idxs n h
    rw [genItemIndexes] at h
    split at h
    · exact absurd h (by simp)
    · split at h
      · cases h; exact List.chain'_nil
      · split at h
        · match hg : genLoop toks true toks.length (s + 1) [] 0 with
          | .panicked => rw [hg] at h; exact absurd h (by simp [PRes.map])
          | .ok out =>
            rw [hg] at h
            simp only [PRes.map] at h
            cases h
            exact genLoop_chain toks true _ _ _ _ _ hg List.chain'_nil (by simp)
        · match hg : genLoop toks false toks.length (s + 1) [] 0 with
          | .panicked => rw [hg] at h; exact absurd h (by simp)
          | .ok out =>
            rw [hg] at h
            cases h
            exact genLoop_chain toks false _ _ _ _ _ hg List.chain'_nil (by simp)
        · cases h; exact List.chain'_nil
  · intro b toks ti len idxs key hdict hvalid
    show Bdec.dictFind b toks ti idxs key = _
    rw [Bdec.dictFind, if_neg (not_ne_iff.mpr hdict)]
    exact dictFindLoop_first_match b toks key idxs hvalid

/-- C10 witness: in `"d1:ai1e1:ai2ee"` the key `"a"` occurs twice; the
cached key indexes `[1, 3]` are increasing and `dict_find` returns the value
of the first occurrence (the integer token at index 2, which decodes to 1,
not 2). -/
theorem c10_dict_find_first_occurrence_witness :
    (BdecodeNode.dict [100, 49, 58, 97, 105, 49, 101, 49, 58, 97, 105, 50, 101, 101]
        [BToken.newDict 0 6, BToken.newStr 1 1, BToken.newInt 4,
         BToken.newStr 7 1, BToken.newInt 10, BToken.newEnd 13, BToken.newEnd 14]
        0 [1, 3] 2).dictFind [97] =
      .ok (Option.some (.int
        [100, 49, 58, 97, 105, 49, 101, 49, 58, 97, 105, 50, 101, 101]
        [BToken.newDict 0 6, BToken.newStr 1 1, BToken.newInt 4,
         BToken.newStr 7 1, BToken.newInt 10, BToken.newEnd 13, BToken.newEnd 14]
        2)) ∧
    List.Chain' (· < ·) [1, 3] := by
  constructor
  · rw [c10_dict_find_first_occurrence.2
      [100, 49, 58, 97, 105, 49, 101, 49, 58, 97, 105, 50, 101, 101]
      [BToken.newDict 0 6, BToken.newStr 1 1, BToken.newInt 4,
       BToken.newStr 7 1, BToken.newInt 10, BToken.newEnd 13, BToken.newEnd 14]
      0 2 [1, 3] [97] (by rfl) ?_]
    · rfl
    · intro i hi
      rcases List.mem_cons.mp hi with h1 | hi
      · subst h1
        exact ⟨BToken.newStr 1 1, BToken.newInt 4, rfl, rfl, rfl,
          by norm_num [BToken.newStr, BToken.newInt, BToken.newAll],
          by norm_num [BToken.newInt, BToken.newAll]⟩
      · rcases List.mem_cons.mp hi with h1 | hi
        · subst h1
          exact ⟨BToken.newStr 7 1, BToken.newInt 10, rfl, rfl, rfl,
            by norm_num [BToken.newStr, BToken.newInt, BToken.newAll],
            by norm_num [BToken.newInt, BToken.newAll]⟩
        · exact absurd hi (by simp)
  · exact List.chain'_pair.mpr (by norm_num)

/-!
## C8
-/

/-- The `check_integer` scan over a run of `m` digit bytes followed by the
byte `'e'`: it stops at the `'e'` having counted `m` more digits. -/
theorem chkIntLoop_scan (B : List Nat) :
    ∀ (m st digits : Nat),
      (∀ j, j < m → ∃ d, B.get? (st + j) = Option.some d ∧ isAsciiDigit d) →
      B.get? (st + m) = Option.some 101 →
      chkIntLoop B (B.length - st) st digits = .ok (st + m, digits + m) := by
  intro m
  induction m with
  | zero =>
    intro st digits _ he
    have hlt : st < B.length := by
      by_contra hc
      rw [List.get?_eq_none.mpr (by omega)] at he
      cases he
    obtain ⟨k, hk⟩ : ∃ k, B.length - st = k + 1 := ⟨B.length - st - 1, by omega⟩
    simp only [Nat.add_zero] at he
    rw [hk, chkIntLoop, he]
    simp
  | succ m ih =>
    intro st digits hds he
    obtain ⟨d, hd, hdig⟩ := hds 0 (by omega)
    simp only [Nat.add_zero] at hd
    have hdlt : st + m + 1 < B.length := by
      by_contra hc
      rw [List.get?_eq_none.mpr (by omega)] at he
      cases he
    have hlt : st < B.length := by omega
    obtain ⟨k, hk⟩ : ∃ k, B.length - st = k + 1 := ⟨B.length - st - 1, by omega⟩
    have hne : d ≠ 101 := by
      simp only [isAsciiDigit, Bool.and_eq_true, decide_eq_true_eq] at hdig
      omega
    have hrec := ih (st + 1) (digits + 1)
      (fun j hj => by
        have := hds (j + 1) (by omega)
        simpa [Nat.add_assoc, Nat.add_comm 1 j] using this)
      (by simpa [Nat.add_assoc, Nat.add_comm 1 m] using he)
    rw [hk, chkIntLoop]
    simp only [hd]
    rw [if_neg (show ¬ (d = 101) from hne),
      if_neg (show ¬ (¬ isAsciiDigit d = true) by simp [hdig]),
      if_neg (show ¬ (st + 1 ≥ B.length) by omega),
      show k = B.length - (st + 1) by omega, hrec,
      show st + 1 + m = st + (m + 1) by omega,
      show digits + 1 + m = digits + (m + 1) by omega]

/-- `check_integer` on an integer body `sign ++ digits ++ "e" ++ rest`
placed after the `'i'` at offset 0: accepted (returning the position of the
`'e'`) exactly when the digit run has at most 20 digits, `Overflow` with the
scanned text otherwise. -/
theorem checkInteger_run (sign ds rest : List Nat)
    (hsign : sign = [] ∨ sign = [45])
    (hds : ∀ d ∈ ds, isAsciiDigit d) :
    checkInteger (105 :: (sign ++ ds ++ 101 :: rest)) 1 =
      if ds.length > 20 then .error (.overflow (strOfBytes (sign ++ ds)))
      else .ok (1 + sign.length + ds.length) := by
  rcases hsign with rfl | rfl
  · -- no leading '-'
    set B := 105 :: ([] ++ ds ++ 101 :: rest) with hB
    have hBsh : B = 105 :: (ds ++ 101 :: rest) := by simp [hB]
    have hlen : B.length = 2 + ds.length + rest.length := by
      rw [hBsh]; simp; omega
    have hne45 : ¬ B.get? 1 = Option.some 45 := by
      rw [hBsh]
      rcases ds with _ | ⟨d0, ds'⟩
      · simp
      · have hd := hds d0 (by simp)
        simp only [isAsciiDigit, Bool.and_eq_true, decide_eq_true_eq] at hd
        simp only [List.cons_append, List.get?_cons_succ, List.get?_cons_zero]
        intro hc; cases hc; omega
    have hscan : chkIntLoop B (B.length - 1) 1 0 =
        .ok (1 + ds.length, 0 + ds.length) := by
      refine chkIntLoop_scan B ds.length 1 0 ?_ ?_
      · intro j hj
        refine ⟨ds.get ⟨j, hj⟩, ?_, hds _ (List.get_mem ds j hj)⟩
        rw [hBsh, show 1 + j = j + 1 by omega, List.get?_cons_succ,
          List.get?_append hj, List.get?_eq_get hj]
      · rw [hBsh, show 1 + ds.length = ds.length + 1 by omega, List.get?_cons_succ,
          List.get?_append_right (by omega), Nat.sub_self, List.get?_cons_zero]
    have hemp : ¬ B.isEmpty = true := by rw [hBsh]; simp
    have hge : ¬ (1 : Nat) ≥ B.length := by rw [hlen]; omega
    have hand : ¬ (B.get? 1 = Option.some 45 ∧ (1 : Nat) = B.length) :=
      fun hc => hne45 hc.1
    rw [checkInteger]
    simp only [if_neg hemp, if_neg hge, if_neg hne45, if_neg hand, hscan,
      Nat.zero_add]
    have hslice : sliceBytes B 1 (1 + ds.length) = ds := by
      rw [hBsh, sliceBytes, show 1 + ds.length = ds.length + 1 by omega,
        List.take_succ_cons, List.drop_one, List.tail_cons, List.take_left]
    rw [hslice]
    simp
  · -- leading '-'
    set B := 105 :: ([45] ++ ds ++ 101 :: rest) with hB
    have hBsh : B = 105 :: 45 :: (ds ++ 101 :: rest) := by simp [hB]
    have hlen : B.length = 3 + ds.length + rest.length := by
      rw [hBsh]; simp; omega
    have h45 : B.get? 1 = Option.some 45 := by rw [hBsh]; rfl
    have hscan : chkIntLoop B (B.length - 2) 2 0 =
        .ok (2 + ds.length, 0 + ds.length) := by
      refine chkIntLoop_scan B ds.length 2 0 ?_ ?_
      · intro j hj
        refine ⟨ds.get ⟨j, hj⟩, ?_, hds _ (List.get_mem ds j hj)⟩
        rw [hBsh, show 2 + j = j + 1 + 1 by omega, List.get?_cons_succ,
          List.get?_cons_succ, List.get?_append hj, List.get?_eq_get hj]
      · rw [hBsh, show 2 + ds.length = ds.length + 1 + 1 by omega,
          List.get?_cons_succ, List.get?_cons_succ,
          List.get?_append_right (by omega), Nat.sub_self, List.get?_cons_zero]
    have hemp : ¬ B.isEmpty = true := by rw [hBsh]; simp
    have hge : ¬ (1 : Nat) ≥ B.length := by rw [hlen]; omega
    have hand : ¬ (B.get? 1 = Option.some 45 ∧ (1 + 1 : Nat) = B.length) := by
      rw [hlen]; rintro ⟨-, hc⟩; omega
    rw [checkInteger]
    simp only [if_pos h45, if_neg hemp, if_neg hge, if_neg hand, hscan,
      Nat.zero_add]
    have hslice : sliceBytes B 1 (2 + ds.length) = 45 :: ds := by
      rw [hBsh, sliceBytes, show 2 + ds.length = (ds.length + 1) + 1 by omega,
        List.take_succ_cons, List.take_succ_cons, List.drop_one, List.tail_cons,
        List.take_left]
    rw [hslice]
    have : (1 : Nat) + 1 + ds.length = 2 + ds.length := by omega
    simp [this]

/-- First iteration of the tokenizer main loop on a buffer whose first byte
is `'i'`, starting from the initial (empty) state: the whole run reduces to
`check_integer` and, on success, a single `Int` token (the loop breaks at
once because the stack is still empty). -/
theorem tokenizeLoop_int_start (B : List Nat) (dl fuel : Nat)
    (h0 : B.get? 0 = Option.some 105) (hdl : 0 < dl) :
    tokenizeLoop B dl (fuel + 1) 0 [] [] =
      match checkInteger B 1 with
      | .error e => .error e
      | .ok ePos => .ok ([BToken.newInt 0], ePos + 1) := by
  have hBlen : ¬ (0 : Nat) > B.length := by omega
  rw [tokenizeLoop]
  rw [if_neg hBlen, if_neg (by simp; omega : ¬ ([] : List StackFrame).length ≥ dl)]
  simp only [h0]
  norm_num [dictKeyCheckFails, flipFrame]

/-- C8: tokenizing `"i" ++ sign ++ digits ++ "e"` (with anything after the
`'e'`) fails with `Overflow` exactly when the digit run exceeds 20
characters; with at most 20 digits the token is accepted regardless of the
numeric magnitude — the value is never range-checked during tokenization.
The `Overflow` payload is the scanned `sign ++ digits` text. -/
theorem c8_integer_digit_cap (sign ds rest : List Nat)
    (hsign : sign = [] ∨ sign = [45])
    (hds : ∀ d ∈ ds, isAsciiDigit d)
    (hlen : (105 :: (sign ++ ds ++ 101 :: rest)).length ≤ BUFFER_MAX_OFFSET) :
    tokenize (105 :: (sign ++ ds ++ 101 :: rest)) Option.none Option.none =
      if ds.length > 20 then .error (.overflow (strOfBytes (sign ++ ds)))
      else .ok ([BToken.newInt 0, BToken.newEnd (2 + sign.length + ds.length)],
        2 + sign.length + ds.length) := by
  have hchk := checkInteger_run sign ds rest hsign hds
  set B := 105 :: (sign ++ ds ++ 101 :: rest) with hB
  rw [tokenize]
  simp only [Option.getD_none]
  rw [if_neg (by omega : ¬ B.length > BUFFER_MAX_OFFSET),
    if_neg (by rw [hB]; simp : ¬ B.length = 0),
    show DEFAULT_TOKEN_LIMIT.toNat = 999999 + 1 by rfl,
    tokenizeLoop_int_start B DEFAULT_DEPTH_LIMIT 999999 (by rw [hB]; rfl)
      (by norm_num [DEFAULT_DEPTH_LIMIT]), hchk]
  by_cases hm : ds.length > 20
  · rw [if_pos hm, if_pos hm]
  · rw [if_neg hm, if_neg hm]
    have : 1 + sign.length + ds.length + 1 = 2 + sign.length + ds.length := by omega
    simp [this]

/-- C8 witness: the theorem applied to a 21-nine run (rejected with
`Overflow` although it is a syntactically well-formed integer token) and to
a 20-nine run (accepted even though `99999999999999999999 > i64::MAX`). -/
theorem c8_integer_digit_cap_witness :
    tokenize (105 :: ([] ++ [57, 57, 57, 57, 57, 57, 57, 57, 57, 57, 57, 57,
        57, 57, 57, 57, 57, 57, 57, 57, 57] ++ 101 :: [])) Option.none Option.none =
      .error (.overflow (strOfBytes ([] ++ [57, 57, 57, 57, 57, 57, 57, 57, 57,
        57, 57, 57, 57, 57, 57, 57, 57, 57, 57, 57, 57]))) ∧
    tokenize (105 :: ([] ++ [57, 57, 57, 57, 57, 57, 57, 57, 57, 57, 57, 57,
        57, 57, 57, 57, 57, 57, 57, 57] ++ 101 :: [])) Option.none Option.none =
      .ok ([BToken.newInt 0, BToken.newEnd 22], 22) := by
  constructor
  · have h := c8_integer_digit_cap []
      [57, 57, 57, 57, 57, 57, 57, 57, 57, 57, 57, 57, 57, 57, 57, 57, 57, 57, 57, 57, 57]
      [] (Or.inl rfl) (by decide) (by decide)
    rw [h]
    rfl
  · have h := c8_integer_digit_cap []
      [57, 57, 57, 57, 57, 57, 57, 57, 57, 57, 57, 57, 57, 57, 57, 57, 57, 57, 57, 57]
      [] (Or.inl rfl) (by decide) (by decide)
    rw [h]
    rfl

/-!
## C3

The claim states that a non-digit non-`':'` byte after a string-length digit
run yields `ExpectedColon` at that byte's position. The code (`parse_uint`
in `src/decode/utils.rs`) rejects that byte with `ExpectedDigit` at the same
position; `ExpectedColon` is produced only when the digit run reaches the
end of the buffer (`src/decode.rs`, reported with the string's start
position, not the bad byte's). The code's own test
(`test_parse_int` on `"d1234:i2e"`) asserts the `ExpectedDigit` behavior.
-/

/-- `parse_uint` on a digit run that meets a non-digit non-delimiter byte at
position `p` (before any overflow check can fire, which the `k + m ≤ 18`
digit budget guarantees): it fails `ExpectedDigit p`. -/
theorem parseUintF_hits_bad (B : List Nat) (p c : Nat)
    (hc : B.get? p = Option.some c) (hcd : ¬ isAsciiDigit c) (hcne : c ≠ 58) :
    ∀ (m s : Nat) (v : Int) (k : Nat),
      s + m = p →
      (∀ j, j < m → ∃ d, B.get? (s + j) = Option.some d ∧ isAsciiDigit d) →
      0 ≤ v → v < 10 ^ k → k + m ≤ 18 →
      parseUintF B 58 (B.length - s) s v = .error (.expectedDigit p) := by
  have hplen : p < B.length := by
    by_contra hcon
    rw [List.get?_eq_none.mpr (by omega)] at hc
    cases hc
  intro m
  induction m with
  | zero =>
    intro s v k hs _ _ _ _
    have hsp : s = p := by omega
    subst hsp
    obtain ⟨t, ht⟩ : ∃ t, B.length - s = t + 1 := ⟨B.length - s - 1, by omega⟩
    rw [ht, parseUintF]
    simp only [hc]
    rw [if_neg (by simpa using hcne), if_pos hcd]
  | succ m ih =>
    intro s v k hs hds hv0 hvlt hbudget
    obtain ⟨d, hd, hdig⟩ := hds 0 (by omega)
    simp only [Nat.add_zero] at hd
    have hslen : s < B.length := by omega
    obtain ⟨t, ht⟩ : ∃ t, B.length - s = t + 1 := ⟨B.length - s - 1, by omega⟩
    have hdb : 48 ≤ d ∧ d ≤ 57 := by
      simpa [isAsciiDigit, Bool.and_eq_true, decide_eq_true_eq] using hdig
    have hpow17 : (10 : Int) ^ k ≤ 10 ^ 17 :=
      pow_le_pow_right (by norm_num) (by omega)
    have h17 : (10 : Int) ^ 17 = 100000000000000000 := by norm_num
    have hdiv : i64Max / 10 = 922337203685477580 := by decide
    have hmax : i64Max = 9223372036854775807 := rfl
    have hvbound : v ≤ 922337203685477580 := by
      rw [h17] at hpow17
      omega
    rw [ht, parseUintF]
    simp only [hd]
    rw [if_neg (by omega : ¬ d = 58), if_neg (by simp [hdig]),
      if_neg (by rw [hdiv]; omega : ¬ v > i64Max / 10),
      if_neg (by
        rw [hmax]
        have : (d : Int) - 48 ≤ 9 := by omega
        have : (d : Int) - 48 ≥ 0 := by omega
        omega : ¬ v * 10 > i64Max - ((d : Int) - 48))]
    have hrec := ih (s + 1) (v * 10 + ((d : Int) - 48)) (k + 1) (by omega)
      (fun j hj => by
        have := hds (j + 1) (by omega)
        simpa [Nat.add_assoc, Nat.add_comm 1 j] using this)
      (by have : (d : Int) - 48 ≥ 0 := by omega
          omega)
      (by have h9 : (d : Int) - 48 ≤ 9 := by omega
          have : (10 : Int) ^ (k + 1) = 10 * 10 ^ k := by ring
          omega)
      (by omega)
    rw [show t = B.length - (s + 1) by omega]
    exact hrec

theorem dictKeyCheckFails_digit (tokens : List BToken) (stack : List StackFrame)
    (t : Nat) (h : isAsciiDigit t) : dictKeyCheckFails tokens stack t = false := by
  cases stack with
  | nil => rfl
  | cons f rest => simp [dictKeyCheckFails, h]

/-- C3 counterexample: on the buffer `"3a"` the length digit `'3'` is
followed by the non-digit non-`':'` byte `'a'` at position 1, and
tokenization fails with `ExpectedDigit 1` — not with `ExpectedColon` as the
claim states. -/
theorem c3_length_run_bad_byte_counterexample :
    tokenize [51, 97] Option.none Option.none = .error (.expectedDigit 1) ∧
    (match tokenize [51, 97] Option.none Option.none with
     | .error (.expectedColon _ _) => False
     | _ => True) := by
  have h : tokenize [51, 97] Option.none Option.none = .error (.expectedDigit 1) := by rfl
  refine ⟨h, ?_⟩
  rw [h]
  trivial

/-- From any tokenizer-loop state whose cursor sits on a string-length digit
run that meets a byte `c` (neither a digit nor `':'`) at position `p` before
the run can overflow (at most 18 digits), tokenization fails with
`ExpectedDigit p`. -/
theorem tokenizeLoop_bad_byte_expected_digit (B : List Nat) (dl fuel start : Nat)
    (tokens : List BToken) (stack : List StackFrame) (p c d0 : Nat)
    (hstart : start < p)
    (h0 : B.get? start = Option.some d0) (h0d : isAsciiDigit d0)
    (hrun : ∀ j, start < j → j < p → ∃ d, B.get? j = Option.some d ∧ isAsciiDigit d)
    (hc : B.get? p = Option.some c) (hcd : ¬ isAsciiDigit c) (hcne : c ≠ 58)
    (hshort : p - start ≤ 18)
    (hdepth : stack.length < dl) (hfuel : 0 < fuel) :
    tokenizeLoop B dl fuel start tokens stack = .error (.expectedDigit p) := by
  have hplen : p < B.length := by
    by_contra hcon
    rw [List.get?_eq_none.mpr (by omega)] at hc
    cases hc
  obtain ⟨f, hf⟩ : ∃ f, fuel = f + 1 := ⟨fuel - 1, by omega⟩
  have hd0 : 48 ≤ d0 ∧ d0 ≤ 57 := by
    simpa [isAsciiDigit, Bool.and_eq_true, decide_eq_true_eq] using h0d
  have hpu : parseUintF B 58 (B.length - (start + 1)) (start + 1)
      ((d0 : Int) - 48) = .error (.expectedDigit p) := by
    refine parseUintF_hits_bad B p c hc hcd hcne (p - start - 1) (start + 1)
      ((d0 : Int) - 48) 1 (by omega) ?_ (by omega)
      (by norm_num; omega) (by omega)
    intro j hj
    exact hrun (start + 1 + j) (by omega) (by omega)
  subst hf
  cases stack with
  | nil =>
    rw [tokenizeLoop]
    rw [if_neg (by omega : ¬ start > B.length), if_neg (by omega)]
    simp only [h0]
    rw [if_neg (by simp [dictKeyCheckFails_digit tokens [] d0 h0d]),
      if_neg (by omega : ¬ d0 = 100), if_neg (by omega : ¬ d0 = 108),
      if_neg (by omega : ¬ d0 = 105), if_neg (by omega : ¬ d0 = 101),
      if_neg (by simp [h0d]), if_neg (by omega : ¬ start + 1 ≥ B.length)]
    simp only [parseUint, hpu]
  | cons top rest =>
    rw [tokenizeLoop]
    rw [if_neg (by omega : ¬ start > B.length), if_neg (by omega)]
    simp only [h0]
    rw [if_neg (by simp [dictKeyCheckFails_digit tokens (top :: rest) d0 h0d]),
      if_neg (by omega : ¬ d0 = 100), if_neg (by omega : ¬ d0 = 108),
      if_neg (by omega : ¬ d0 = 105), if_neg (by omega : ¬ d0 = 101),
      if_neg (by simp [h0d]), if_neg (by omega : ¬ start + 1 ≥ B.length)]
    simp only [parseUint, hpu]

theorem getD_of_get? (B : List Nat) (j t : Nat) (h : B.get? j = Option.some t) :
    B.getD j 0 = t := by
  unfold List.getD
  rw [h]
  rfl

/-- Every byte scanned by a successful `parse_uint` run is a decimal
digit. -/
theorem parseUintF_scan_digits (B : List Nat) (delim : Nat) :
    ∀ (fuel s : Nat) (v : Int) (p : Nat) (v' : Int),
      parseUintF B delim fuel s v = .ok (p, v') →
      ∀ j, s ≤ j → j < p → isAsciiDigit (B.getD j 0) = true := by
  intro fuel
  induction fuel with
  | zero =>
    intro s v p v' h j h1 h2
    simp only [parseUintF, Except.ok.injEq, Prod.mk.injEq] at h
    obtain ⟨h, _⟩ := h
    omega
  | succ fuel ih =>
    intro s v p v' h j h1 h2
    simp only [parseUintF] at h
    cases hbyte : B.get? s with
    | none =>
      simp only [hbyte, Except.ok.injEq, Prod.mk.injEq] at h
      obtain ⟨h, _⟩ := h
      omega
    | some t =>
      simp only [hbyte] at h
      by_cases hdelim : t = delim
      · rw [if_pos hdelim] at h
        simp only [Except.ok.injEq, Prod.mk.injEq] at h
        obtain ⟨h, _⟩ := h
        omega
      · rw [if_neg hdelim] at h
        by_cases hdig : ¬ (isAsciiDigit t = true)
        · rw [if_pos hdig] at h; simp at h
        · rw [if_neg hdig] at h
          by_cases hov1 : v > i64Max / 10
          · rw [if_pos hov1] at h; simp at h
          · rw [if_neg hov1] at h
            by_cases hov2 : v * 10 > i64Max - ((t : Int) - 48)
            · have h' : (Except.error (BdecodeError.overflow
                  (toString (v * 10 + ((t : Int) - 48)))) :
                  Except BdecodeError (Nat × Int)) = .ok (p, v') := by
                rw [← h]
                show _ = if v * 10 > i64Max - ((t : Int) - 48) then _ else _
                rw [if_pos hov2]
              simp at h'
            · have h' : parseUintF B delim fuel (s + 1)
                  (v * 10 + ((t : Int) - 48)) = .ok (p, v') := by
                rw [← h]
                show _ = if v * 10 > i64Max - ((t : Int) - 48) then _ else _
                rw [if_neg hov2]
              by_cases hjs : j = s
              · subst hjs
                rw [getD_of_get? B j t hbyte]
                exact of_not_not hdig
              · exact ih (s + 1) _ p v' h' j (by omega) h2

/-- `parse_uint` only fails with `ExpectedDigit` or `Overflow`. -/
theorem parseUintF_err_shape (B : List Nat) (delim : Nat) :
    ∀ (fuel s : Nat) (v : Int) (e : BdecodeError),
      parseUintF B delim fuel s v = .error e →
      (∃ q, e = .expectedDigit q) ∨ (∃ m, e = .overflow m) := by
  intro fuel
  induction fuel with
  | zero =>
    intro s v e h
    simp [parseUintF] at h
  | succ fuel ih =>
    intro s v e h
    simp only [parseUintF] at h
    cases hbyte : B.get? s with
    | none => simp only [hbyte] at h; simp at h
    | some t =>
      simp only [hbyte] at h
      by_cases hdelim : t = delim
      · rw [if_pos hdelim] at h; simp at h
      · rw [if_neg hdelim] at h
        by_cases hdig : ¬ (isAsciiDigit t = true)
        · rw [if_pos hdig] at h
          simp only [Except.error.injEq] at h
          exact Or.inl ⟨s, h.symm⟩
        · rw [if_neg hdig] at h
          by_cases hov1 : v > i64Max / 10
          · rw [if_pos hov1] at h
            simp only [Except.error.injEq] at h
            exact Or.inr ⟨_, h.symm⟩
          · rw [if_neg hov1] at h
            by_cases hov2 : v * 10 > i64Max - ((t : Int) - 48)
            · have h' : (Except.error (BdecodeError.overflow
                  (toString (v * 10 + ((t : Int) - 48)))) :
                  Except BdecodeError (Nat × Int)) = .error e := by
                rw [← h]
                show _ = if v * 10 > i64Max - ((t : Int) - 48) then _ else _
                rw [if_pos hov2]
              simp only [Except.error.injEq] at h'
              exact Or.inr ⟨_, h'.symm⟩
            · have h' : parseUintF B delim fuel (s + 1)
                  (v * 10 + ((t : Int) - 48)) = .error e := by
                rw [← h]
                show _ = if v * 10 > i64Max - ((t : Int) - 48) then _ else _
                rw [if_neg hov2]
              exact ih (s + 1) _ e h'

/-- The `check_integer` scan loop only fails with `UnexpectedEof` or
`ExpectedDigit`. -/
theorem chkIntLoop_err_shape (B : List Nat) :
    ∀ (fuel s d : Nat) (e : BdecodeError),
      chkIntLoop B fuel s d = .error e →
      (∃ q, e = .unexpectedEof q) ∨ (∃ q, e = .expectedDigit q) := by
  intro fuel
  induction fuel with
  | zero =>
    intro s d e h
    simp only [chkIntLoop, Except.error.injEq] at h
    exact Or.inl ⟨s, h.symm⟩
  | succ fuel ih =>
    intro s d e h
    simp only [chkIntLoop] at h
    cases hbyte : B.get? s with
    | none =>
      simp only [hbyte, Except.error.injEq] at h
      exact Or.inl ⟨s, h.symm⟩
    | some t =>
      simp only [hbyte] at h
      by_cases he : t = 101
      · rw [if_pos he] at h; simp at h
      · rw [if_neg he] at h
        by_cases hdig : ¬ (isAsciiDigit t = true)
        · rw [if_pos hdig] at h
          simp only [Except.error.injEq] at h
          exact Or.inr ⟨s, h.symm⟩
        · rw [if_neg hdig] at h
          by_cases hend : s + 1 ≥ B.length
          · rw [if_pos hend] at h
            simp only [Except.error.injEq] at h
            exact Or.inl ⟨s + 1, h.symm⟩
          · rw [if_neg hend] at h
            exact ih (s + 1) (d + 1) e h

/-- `check_integer` only fails with `UnexpectedEof`, `ExpectedDigit` or
`Overflow` — never `ExpectedColon`. -/
theorem checkInteger_err_shape (B : List Nat) (s : Nat) (e : BdecodeError)
    (h : checkInteger B s = .error e) :
    (∃ q, e = .unexpectedEof q) ∨ (∃ q, e = .expectedDigit q) ∨
      (∃ m, e = .overflow m) := by
  simp only [checkInteger] at h
  by_cases hemp : B.isEmpty = true
  · rw [if_pos hemp] at h
    simp only [Except.error.injEq] at h
    exact Or.inl ⟨0, h.symm⟩
  · rw [if_neg hemp] at h
    by_cases hs : s ≥ B.length
    · rw [if_pos hs] at h
      simp only [Except.error.injEq] at h
      exact Or.inl ⟨s, h.symm⟩
    · rw [if_neg hs] at h
      by_cases hneg : B.get? s = Option.some 45 ∧
          (if B.get? s = Option.some 45 then s + 1 else s) = B.length
      · rw [if_pos hneg] at h
        simp only [Except.error.injEq] at h
        exact Or.inl ⟨_, h.symm⟩
      · rw [if_neg hneg] at h
        cases hloop : chkIntLoop B
            (B.length - (if B.get? s = Option.some 45 then s + 1 else s))
            (if B.get? s = Option.some 45 then s + 1 else s) 0 with
        | error e' =>
          simp only [hloop, Except.error.injEq] at h
          subst h
          rcases chkIntLoop_err_shape B _ _ _ _ hloop with h' | h'
          · exact Or.inl h'
          · exact Or.inr (Or.inl h')
        | ok pd =>
          obtain ⟨pos, digits⟩ := pd
          simp only [hloop] at h
          by_cases h20 : digits > 20
          · rw [if_pos h20] at h
            simp only [Except.error.injEq] at h
            exact Or.inr (Or.inr ⟨_, h.symm⟩)
          · rw [if_neg h20] at h
            simp at h

/-- Inversion of the tokenizer loop on an `ExpectedColon` failure: the error
is raised only at the string branch's end-of-buffer check, so the reported
end is the buffer length, the reported start position is inside the buffer,
and every byte from that start to the end of the buffer is a decimal digit
(the digit run reaches the end of the buffer). -/
theorem tokenizeLoop_colon_shape (B : List Nat) (dl : Nat) :
    ∀ (fuel start : Nat) (tokens : List BToken) (stack : List StackFrame)
      (a b : Nat),
      tokenizeLoop B dl fuel start tokens stack = .error (.expectedColon a b) →
      b = B.length ∧ a < B.length ∧
      ∀ j, a ≤ j → j < B.length → isAsciiDigit (B.getD j 0) = true := by
  intro fuel
  induction fuel with
  | zero =>
    intro start tokens stack a b h
    rw [tokenizeLoop] at h
    by_cases h1 : start > B.length
    · rw [if_pos h1] at h; simp at h
    · rw [if_neg h1] at h
      by_cases h2 : stack.length ≥ dl
      · rw [if_pos h2] at h; simp at h
      · rw [if_neg h2] at h; simp at h
  | succ fuel ih =>
    intro start tokens stack a b h
    rw [tokenizeLoop] at h
    by_cases h1 : start > B.length
    · rw [if_pos h1] at h; simp at h
    · rw [if_neg h1] at h
      by_cases h2 : stack.length ≥ dl
      · rw [if_pos h2] at h; simp at h
      · rw [if_neg h2] at h
        cases hbyte : B.get? start with
        | none => simp only [hbyte] at h; simp at h
        | some t =>
          simp only [hbyte] at h
          have hstartlt : start < B.length := (List.get?_eq_some.mp hbyte).1
          by_cases hkey : dictKeyCheckFails tokens stack t = true
          · rw [if_pos hkey] at h; simp at h
          · rw [if_neg hkey] at h
            by_cases ht100 : t = 100
            · rw [if_pos ht100] at h
              exact ih _ _ _ a b h
            · rw [if_neg ht100] at h
              by_cases ht108 : t = 108
              · rw [if_pos ht108] at h
                exact ih _ _ _ a b h
              · rw [if_neg ht108] at h
                by_cases ht105 : t = 105
                · rw [if_pos ht105] at h
                  cases hchk : checkInteger B (start + 1) with
                  | error e =>
                    simp only [hchk, Except.error.injEq] at h
                    subst h
                    rcases checkInteger_err_shape B (start + 1) _ hchk with
                      ⟨q, hq⟩ | ⟨q, hq⟩ | ⟨m, hm⟩
                    · simp at hq
                    · simp at hq
                    · simp at hm
                  | ok q =>
                    simp only [hchk] at h
                    by_cases hnil :
                        flipFrame (tokens ++ [BToken.newInt start]) stack = []
                    · rw [if_pos hnil] at h; simp at h
                    · rw [if_neg hnil] at h
                      exact ih _ _ _ a b h
                · rw [if_neg ht105] at h
                  by_cases ht101 : t = 101
                  · rw [if_pos ht101] at h
                    cases hhead : stack.head? with
                    | none => simp only [hhead] at h; simp at h
                    | some top =>
                      simp only [hhead] at h
                      by_cases hval :
                          (tokens.get? top.token).map BToken.kind =
                            Option.some TokType.dict ∧ top.state = 1
                      · rw [if_pos hval] at h; simp at h
                      · rw [if_neg hval] at h
                        by_cases hmax :
                            (tokens ++ [BToken.newEnd start]).length -
                              top.token > MAX_NEXT_ITEM
                        · rw [if_pos hmax] at h; simp at h
                        · rw [if_neg hmax] at h
                          cases hmtk :
                              (tokens ++ [BToken.newEnd start]).get?
                                top.token with
                          | none =>
                            simp only [hmtk] at h
                            by_cases htail : stack.tail = []
                            · rw [if_pos htail] at h; simp at h
                            · rw [if_neg htail] at h
                              exact ih _ _ _ a b h
                          | some tk =>
                            simp only [hmtk] at h
                            by_cases htail : stack.tail = []
                            · rw [if_pos htail] at h; simp at h
                            · rw [if_neg htail] at h
                              exact ih _ _ _ a b h
                  · rw [if_neg ht101] at h
                    by_cases hdig : ¬ (isAsciiDigit t = true)
                    · rw [if_pos hdig] at h; simp at h
                    · rw [if_neg hdig] at h
                      by_cases hone : start + 1 ≥ B.length
                      · rw [if_pos hone] at h; simp at h
                      · rw [if_neg hone] at h
                        cases hpu : parseUint B (start + 1) 58
                            ((t : Int) - 48) with
                        | error e =>
                          simp only [hpu, Except.error.injEq] at h
                          subst h
                          rcases parseUintF_err_shape B 58 _ _ _ _ hpu with
                            ⟨q, hq⟩ | ⟨m, hm⟩
                          · simp at hq
                          · simp at hm
                        | ok cv =>
                          obtain ⟨colonPos, len⟩ := cv
                          simp only [hpu] at h
                          by_cases hcolon : colonPos = B.length
                          · rw [if_pos hcolon] at h
                            simp only [Except.error.injEq,
                              BdecodeError.expectedColon.injEq] at h
                            obtain ⟨ha, hb⟩ := h
                            subst ha hb
                            refine ⟨rfl, hstartlt, ?_⟩
                            intro j hj1 hj2
                            by_cases hjs : j = start
                            · subst hjs
                              rw [getD_of_get? B j t hbyte]
                              exact of_not_not hdig
                            · exact parseUintF_scan_digits B 58 _ _ _ _ _ hpu j
                                (by omega) (by omega)
                          · rw [if_neg hcolon] at h
                            by_cases hsize :
                                len > (B.length : Int) - colonPos - 1
                            · rw [if_pos hsize] at h; simp at h
                            · rw [if_neg hsize] at h
                              by_cases hcp1 : colonPos + 1 > B.length
                              · rw [if_pos hcp1] at h; simp at h
                              · rw [if_neg hcp1] at h
                                by_cases hhdr :
                                    colonPos - start > MAX_HEADER_SIZE
                                · rw [if_pos hhdr] at h; simp at h
                                · rw [if_neg hhdr] at h
                                  by_cases hnil : flipFrame (tokens ++
                                      [BToken.newStr start
                                        (colonPos - start)]) stack = []
                                  · rw [if_pos hnil] at h; simp at h
                                  · rw [if_neg hnil] at h
                                    exact ih _ _ _ a b h

/-- Inversion of `tokenize` on an `ExpectedColon` failure. -/
theorem tokenize_colon_shape (B : List Nat) (dlo : Option Nat)
    (tlo : Option Int) (a b : Nat)
    (h : tokenize B dlo tlo = .error (.expectedColon a b)) :
    b = B.length ∧ a < B.length ∧
    ∀ j, a ≤ j → j < B.length → isAsciiDigit (B.getD j 0) = true := by
  simp only [tokenize] at h
  by_cases hb1 : B.length > BUFFER_MAX_OFFSET
  · rw [if_pos hb1] at h; simp at h
  · rw [if_neg hb1] at h
    by_cases hb0 : B.length = 0
    · rw [if_pos hb0] at h; simp at h
    · rw [if_neg hb0] at h
      cases hloop : tokenizeLoop B (dlo.getD DEFAULT_DEPTH_LIMIT)
          (tlo.getD DEFAULT_TOKEN_LIMIT).toNat 0 [] [] with
      | error e =>
        simp only [hloop, Except.error.injEq] at h
        subst h
        exact tokenizeLoop_colon_shape B _ _ _ _ _ a b hloop
      | ok out =>
        obtain ⟨toks0, p0⟩ := out
        simp only [hloop] at h
        simp at h

/-- C3 amended, both halves: (1) a string-length digit run that meets a byte
that is neither a digit nor `':'` (and is short enough that no overflow
check fires, at most 18 digits) fails with `ExpectedDigit` at that byte's
position; (2) `ExpectedColon` is only produced when the digit run reaches
the end of the buffer, and is then reported at the string's start position,
with the error's second payload equal to the buffer length. -/
theorem c3_amended_bad_byte_expected_digit :
    (∀ (B : List Nat) (dl fuel start : Nat) (tokens : List BToken)
       (stack : List StackFrame) (p c d0 : Nat),
       start < p →
       B.get? start = Option.some d0 → isAsciiDigit d0 →
       (∀ j, start < j → j < p →
         ∃ d, B.get? j = Option.some d ∧ isAsciiDigit d) →
       B.get? p = Option.some c → ¬ isAsciiDigit c → c ≠ 58 →
       p - start ≤ 18 → stack.length < dl → 0 < fuel →
       tokenizeLoop B dl fuel start tokens stack =
         .error (.expectedDigit p)) ∧
    (∀ (B : List Nat) (dlo : Option Nat) (tlo : Option Int) (a b : Nat),
       tokenize B dlo tlo = .error (.expectedColon a b) →
       b = B.length ∧ a < B.length ∧
       ∀ j, a ≤ j → j < B.length → isAsciiDigit (B.getD j 0) = true) :=
  ⟨fun B dl fuel start tokens stack p c d0 h1 h2 h3 h4 h5 h6 h7 h8 h9 h10 =>
    tokenizeLoop_bad_byte_expected_digit B dl fuel start tokens stack p c d0
      h1 h2 h3 h4 h5 h6 h7 h8 h9 h10,
   fun B dlo tlo a b h => tokenize_colon_shape B dlo tlo a b h⟩

/-- C3 witness: the first half applied at the initial loop state on the
buffer `"3a"` (the full run fails `ExpectedDigit 1`); the second half
applied to the buffer `"12"`, whose digit run reaches the end of the buffer
and which fails `ExpectedColon` reported at position `0` (the string's
start) with end payload `2` (the buffer length). -/
theorem c3_amended_bad_byte_expected_digit_witness :
    tokenizeLoop [51, 97] 100 1000000 0 [] [] = .error (.expectedDigit 1) ∧
    (2 = ([49, 50] : List Nat).length ∧ 0 < ([49, 50] : List Nat).length ∧
      ∀ j, 0 ≤ j → j < ([49, 50] : List Nat).length →
        isAsciiDigit (([49, 50] : List Nat).getD j 0) = true) :=
  ⟨c3_amended_bad_byte_expected_digit.1 [51, 97] 100 1000000 0 [] [] 1 97 51
    (by norm_num) (by rfl) (by decide)
    (fun j h1 h2 => absurd h1 (by omega))
    (by rfl) (by decide) (by decide) (by norm_num) (by norm_num) (by norm_num),
   c3_amended_bad_byte_expected_digit.2 [49, 50] Option.none Option.none 0 2
    (by rfl)⟩

/-!
## C4

The claim states that a value nested exactly `depth_limit` deep parses and
one nested one deeper fails. The depth check (`src/decode.rs`) fires at the
top of every loop iteration once `stack.len() >= depth_limit`, i.e. already
while the innermost container of a depth-`depth_limit` value is still open,
so the deepest value that parses has depth `depth_limit - 1` and depth
`depth_limit` itself fails `DepthExceeded`. The family `nestBuf k` of `k`
nested lists around `i0e` witnesses both sides.
-/

/-- `k` nested lists around the integer `0`:
`"l"*k ++ "i0e" ++ "e"*k`, a well-formed value of container depth `k`. -/
def nestBuf (k : Nat) : List Nat :=
  List.replicate k 108 ++ [105, 48, 101] ++ List.replicate k 101

/-- The token array after the tokenizer has consumed `j` opening `'l'`
bytes. -/
def listToks (j : Nat) : List BToken :=
  (List.range j).map fun i => BToken.newList i 0

/-- The stack after the tokenizer has consumed `j` opening `'l'` bytes
(head is the innermost frame). -/
def listFrames (j : Nat) : List StackFrame :=
  (List.range j).reverse.map fun i => StackFrame.new i

theorem listToks_length (j : Nat) : (listToks j).length = j := by
  simp [listToks]

theorem listToks_get? (j i : Nat) (h : i < j) :
    (listToks j).get? i = Option.some (BToken.newList i 0) := by
  rw [listToks, List.get?_map, List.get?_range h]
  rfl

theorem listToks_succ (j : Nat) :
    listToks (j + 1) = listToks j ++ [BToken.newList j 0] := by
  simp [listToks, List.range_succ]

theorem listFrames_zero : listFrames 0 = [] := rfl

theorem listFrames_succ (j : Nat) :
    listFrames (j + 1) = StackFrame.new j :: listFrames j := by
  simp [listFrames, List.range_succ]

theorem listFrames_length (j : Nat) : (listFrames j).length = j := by
  simp [listFrames]

theorem newList_kind (i n : Nat) : (BToken.newList i n).kind = TokType.list := rfl

theorem dictKeyCheckFails_e (tokens : List BToken) (stack : List StackFrame) :
    dictKeyCheckFails tokens stack 101 = false := by
  cases stack <;> simp [dictKeyCheckFails]

/-- Whatever the fuel, an iteration entered with the stack at the depth
limit fails `DepthExceeded`. -/
theorem tokenizeLoop_depth_error (B : List Nat) (dl fuel start : Nat)
    (tokens : List BToken) (stack : List StackFrame)
    (hstart : ¬ start > B.length) (hdepth : stack.length ≥ dl) :
    tokenizeLoop B dl fuel start tokens stack = .error (.depthExceeded dl) := by
  cases fuel <;> cases stack <;> rw [tokenizeLoop] <;>
    rw [if_neg hstart, if_pos (by simpa using hdepth)]

/-- One loop iteration on an `'l'` byte: push the frame and the list token
and continue (the parity flip is the identity here by hypothesis, and a push
never triggers the end-of-iteration break). -/
theorem tokenizeLoop_push_list (B : List Nat) (dl fuel start : Nat)
    (tokens : List BToken) (stack : List StackFrame)
    (hget : B.get? start = Option.some 108)
    (hstart : ¬ start > B.length) (hdepth : ¬ stack.length ≥ dl)
    (hkey : dictKeyCheckFails tokens stack 108 = false)
    (hflip : flipFrame (tokens ++ [BToken.newList start 0]) stack = stack) :
    tokenizeLoop B dl (fuel + 1) start tokens stack =
      tokenizeLoop B dl fuel (start + 1) (tokens ++ [BToken.newList start 0])
        (StackFrame.new tokens.length :: stack) := by
  cases stack <;>
    (rw [tokenizeLoop, if_neg hstart, if_neg hdepth]
     simp only [hget]
     rw [if_neg (by rw [hkey]; simp)]
     norm_num
     rw [hflip])

/-- One loop iteration on an `'e'` byte closing a non-dict frame: push the
`End` token, back-patch the opening token, pop; break when the stack
empties. -/
theorem tokenizeLoop_pop (B : List Nat) (dl fuel start : Nat)
    (tokens : List BToken) (top : StackFrame) (rest : List StackFrame)
    (tk : BToken)
    (hget : B.get? start = Option.some 101)
    (hstart : ¬ start > B.length) (hdepth : ¬ (top :: rest).length ≥ dl)
    (hval : ¬ ((tokens.get? top.token).map BToken.kind = Option.some TokType.dict ∧
      top.state = 1))
    (htk : (tokens ++ [BToken.newEnd start]).get? top.token = Option.some tk)
    (hmax : ¬ tokens.length + 1 - top.token > MAX_NEXT_ITEM) :
    tokenizeLoop B dl (fuel + 1) start tokens (top :: rest) =
      (if rest = [] then
        .ok ((tokens ++ [BToken.newEnd start]).set top.token
          (tk.setNextItem (tokens.length + 1 - top.token)),
          start + 1)
      else
        tokenizeLoop B dl fuel (start + 1)
          ((tokens ++ [BToken.newEnd start]).set top.token
            (tk.setNextItem (tokens.length + 1 - top.token)))
          rest) := by
  rw [tokenizeLoop, if_neg hstart, if_neg hdepth]
  simp only [hget]
  rw [if_neg (by rw [dictKeyCheckFails_e]; simp)]
  norm_num
  rw [if_neg (by
      intro hc
      apply hval
      obtain ⟨⟨a, ha, hak⟩, hs⟩ := hc
      rw [← List.get?_eq_getElem?] at ha
      exact ⟨by rw [ha]; simpa using hak, hs⟩),
    if_neg (by unfold MAX_NEXT_ITEM at *; omega)]
  simp only [← List.get?_eq_getElem?, htk]

/-- Descending through `m` consecutive `'l'` bytes pushes `m` list tokens
and `m` frames, consuming one unit of fuel per byte. -/
theorem c4_descend (B : List Nat) (dl : Nat) :
    ∀ (m j fuel : Nat),
      (∀ i, j ≤ i → i < j + m → B.get? i = Option.some 108) →
      j + m ≤ B.length →
      j + m ≤ dl →
      j + m ≤ 2 ^ 29 →
      tokenizeLoop B dl (fuel + m) j (listToks j) (listFrames j) =
        tokenizeLoop B dl fuel (j + m) (listToks (j + m)) (listFrames (j + m)) := by
  intro m
  induction m with
  | zero => intro j fuel _ _ _ _; rfl
  | succ m ih =>
    intro j fuel hbytes hblen hdl hsmall
    have hgetj : B.get? j = Option.some 108 := hbytes j (le_refl j) (by omega)
    have hkey : dictKeyCheckFails (listToks j) (listFrames j) 108 = false := by
      cases hj : j with
      | zero => rw [listFrames_zero]; rfl
      | succ j' =>
        rw [listFrames_succ]
        simp only [dictKeyCheckFails, StackFrame.new,
          Nat.mod_eq_of_lt (show j' < 2 ^ 31 by omega),
          listToks_get? (j' + 1) j' (by omega)]
        simp [newList_kind]
    have hflip : flipFrame (listToks j ++ [BToken.newList j 0]) (listFrames j) =
        listFrames j := by
      cases hj : j with
      | zero => rw [listFrames_zero]; rfl
      | succ j' =>
        rw [listFrames_succ, flipFrame]
        rw [if_neg (by
          simp only [StackFrame.new, Nat.mod_eq_of_lt (show j' < 2 ^ 31 by omega)]
          rw [List.get?_append (by rw [listToks_length]; omega),
            listToks_get? (j' + 1) j' (by omega)]
          simp [newList_kind])]
    rw [show fuel + (m + 1) = fuel + m + 1 by omega,
      tokenizeLoop_push_list B dl (fuel + m) j (listToks j) (listFrames j)
        hgetj (by omega) (by rw [listFrames_length]; omega) hkey hflip,
      listToks_length, ← listToks_succ, ← listFrames_succ,
      ih (j + 1) fuel (fun i h1 h2 => hbytes i (by omega) (by omega))
        (by omega) (by omega) (by omega),
      show j + 1 + m = j + (m + 1) by omega]

/-- Ascending through `j` consecutive `'e'` bytes closes the `j` open list
frames and succeeds, whatever list tokens the frames point at. -/
theorem c4_ascend (B : List Nat) (dl : Nat) :
    ∀ (j fuel start : Nat) (tokens : List BToken),
      1 ≤ j → j < dl →
      (∀ i, i < j → (tokens.get? i).map BToken.kind = Option.some TokType.list) →
      j ≤ tokens.length →
      tokens.length + j ≤ MAX_NEXT_ITEM →
      (∀ t, t < j → B.get? (start + t) = Option.some 101) →
      start + j ≤ B.length →
      j ≤ fuel →
      ∃ out, tokenizeLoop B dl fuel start tokens (listFrames j) = .ok out := by
  intro j
  induction j with
  | zero => intro fuel start tokens h1; omega
  | succ j ih =>
    intro fuel start tokens _ hdl hkinds hjlen hmax hbytes hblen hfuel
    obtain ⟨f, hf⟩ : ∃ f, fuel = f + 1 := ⟨fuel - 1, by omega⟩
    subst hf
    have hget : B.get? start = Option.some 101 := by
      have := hbytes 0 (by omega)
      simpa using this
    have htokj : (tokens.get? j).map BToken.kind = Option.some TokType.list :=
      hkinds j (by omega)
    obtain ⟨tj, htj, htjk⟩ : ∃ tj, tokens.get? j = Option.some tj ∧
        tj.kind = TokType.list := by
      match h : tokens.get? j with
      | Option.none => rw [h] at htokj; cases htokj
      | Option.some tj => exact ⟨tj, rfl, by rw [h] at htokj; simpa using htokj⟩
    have hnew : (StackFrame.new j).token = j :=
      Nat.mod_eq_of_lt (by unfold MAX_NEXT_ITEM at hmax; omega)
    rw [listFrames_succ,
      tokenizeLoop_pop B dl f start tokens (StackFrame.new j) (listFrames j) tj
        hget (by omega)
        (by simp only [List.length_cons, listFrames_length]; omega)
        (by rw [hnew, htj]; simp [htjk])
        (by rw [hnew, List.get?_append (by omega)]; exact htj)
        (by rw [hnew]; unfold MAX_NEXT_ITEM at *; omega)]
    rw [hnew]
    cases hj : j with
    | zero =>
      subst hj
      rw [listFrames_zero, if_pos rfl]
      exact ⟨_, rfl⟩
    | succ j' =>
      subst hj
      rw [if_neg (by rw [listFrames_succ]; simp)]
      refine ih f (start + 1)
        ((tokens ++ [BToken.newEnd start]).set (j' + 1)
          (tj.setNextItem (tokens.length + 1 - (j' + 1))))
        (by omega) (by omega) ?_ ?_ ?_ ?_ ?_ (by omega)
      · intro i hi
        rw [List.get?_set_ne _ _ (by omega), List.get?_append (by omega)]
        exact hkinds i (by omega)
      · simp only [List.length_set, List.length_append, List.length_cons,
          List.length_nil]
        omega
      · simp only [List.length_set, List.length_append, List.length_cons,
          List.length_nil]
        omega
      · intro t ht
        have := hbytes (t + 1) (by omega)
        rw [show start + (t + 1) = start + 1 + t by omega] at this
        exact this
      · omega

theorem nestBuf_length (k : Nat) : (nestBuf k).length = 2 * k + 3 := by
  simp [nestBuf]; omega

theorem nestBuf_get_l (k i : Nat) (h : i < k) :
    (nestBuf k).get? i = Option.some 108 := by
  rw [nestBuf, List.get?_append (by simp; omega), List.get?_append (by simp; omega),
    List.get?_eq_getElem?, List.getElem?_replicate, if_pos h]

theorem nestBuf_get_mid (k t : Nat) (ht : t < 3) :
    (nestBuf k).get? (k + t) = ([105, 48, 101] : List Nat).get? t := by
  rw [nestBuf, List.get?_append (by simp; omega),
    List.get?_append_right (by simp)]
  simp only [List.length_replicate, Nat.add_sub_cancel_left]

theorem nestBuf_get_e (k t : Nat) (ht : t < k) :
    (nestBuf k).get? (k + 3 + t) = Option.some 101 := by
  rw [nestBuf, List.get?_append_right (by simp)]
  simp only [List.length_append, List.length_replicate, List.length_cons,
    List.length_nil]
  rw [show k + 3 + t - (k + 3) = t by omega,
    List.get?_eq_getElem?, List.getElem?_replicate, if_pos ht]

/-- `check_integer` on the `"i0e"` core of `nestBuf k`. -/
theorem nestBuf_checkInteger (k : Nat) :
    checkInteger (nestBuf k) (k + 1) = .ok (k + 2) := by
  have h48 : (nestBuf k).get? (k + 1) = Option.some 48 := by
    rw [nestBuf_get_mid k 1 (by omega)]; rfl
  have h101 : (nestBuf k).get? (k + 2) = Option.some 101 := by
    rw [nestBuf_get_mid k 2 (by omega)]; rfl
  have hlen := nestBuf_length k
  have hscan : chkIntLoop (nestBuf k) ((nestBuf k).length - (k + 1)) (k + 1) 0 =
      .ok (k + 1 + 1, 0 + 1) := by
    refine chkIntLoop_scan (nestBuf k) 1 (k + 1) 0 ?_ ?_
    · intro j hj
      have : j = 0 := by omega
      subst this
      exact ⟨48, by simpa using h48, by decide⟩
    · simpa [show k + 1 + 1 = k + 2 by omega] using h101
  rw [checkInteger]
  rw [if_neg (by simp [List.isEmpty_iff]; intro hc; rw [hc] at hlen; simp at hlen),
    if_neg (by omega : ¬ k + 1 ≥ (nestBuf k).length)]
  simp only [h48]
  rw [if_neg (by norm_num : ¬ (Option.some 48 : Option Nat) = Option.some 45)]
  rw [if_neg (by norm_num)]
  rw [hscan]
  norm_num

/-- One loop iteration on an `'i'` byte from a state with a non-empty stack:
append the `Int` token and continue after the integer's `'e'`. -/
theorem tokenizeLoop_int_step (B : List Nat) (dl fuel start : Nat)
    (tokens : List BToken) (stack : List StackFrame) (q : Nat)
    (hget : B.get? start = Option.some 105)
    (hstart : ¬ start > B.length) (hdepth : ¬ stack.length ≥ dl)
    (hkey : dictKeyCheckFails tokens stack 105 = false)
    (hflip : flipFrame (tokens ++ [BToken.newInt start]) stack = stack)
    (hne : stack ≠ [])
    (hchk : checkInteger B (start + 1) = .ok q) :
    tokenizeLoop B dl (fuel + 1) start tokens stack =
      tokenizeLoop B dl fuel (q + 1) (tokens ++ [BToken.newInt start]) stack := by
  cases stack with
  | nil => exact absurd rfl hne
  | cons top rest =>
    rw [tokenizeLoop, if_neg hstart, if_neg hdepth]
    simp only [hget]
    rw [if_neg (by rw [hkey]; simp)]
    norm_num
    rw [hchk]
    simp only [hflip]
    rw [if_neg (by simp)]

/-- C4 counterexample: with `depth_limit = 1`, the buffer `"le"` — a
well-formed value whose nesting depth is exactly the depth limit — fails
with `DepthExceeded` instead of parsing as the claim states. -/
theorem c4_depth_at_limit_counterexample :
    tokenize [108, 101] (Option.some 1) Option.none = .error (.depthExceeded 1) := by
  rfl

/-- Decimal value of the digit run `buffer[s ..]` accumulated onto `acc`,
with structural fuel (the run length). This is the mathematical meaning of
the accumulation `val = val * 10 + digit` performed by `parse_uint`. -/
def decNatF (B : List Nat) : Nat → Nat → Nat → Nat
  | 0, _, acc => acc
  | fuel + 1, s, acc => decNatF B fuel (s + 1) (acc * 10 + (B.getD s 0 - 48))

/-- The declared length encoded by the digit run `buffer[s .. p)`. -/
def declNat (B : List Nat) (s p : Nat) : Nat :=
  decNatF B (p - s) s 0

theorem decNatF_step (B : List Nat) (m s acc : Nat) :
    decNatF B (m + 1) s acc = decNatF B m (s + 1) (acc * 10 + (B.getD s 0 - 48)) := rfl

/-- Soundness of the `parse_uint` loop: on success the scan stops at the
delimiter or the buffer end, and the returned value is the decimal value of
the scanned digit run accumulated onto the initial value. -/
theorem parseUintF_sound (B : List Nat) (delim : Nat) :
    ∀ (fuel s : Nat) (v : Int) (p : Nat) (v' : Int),
      fuel = B.length - s → s ≤ B.length → 0 ≤ v →
      parseUintF B delim fuel s v = .ok (p, v') →
      s ≤ p ∧ p ≤ B.length ∧ (p = B.length ∨ B.get? p = Option.some delim) ∧
      0 ≤ v' ∧ v' = ((decNatF B (p - s) s v.toNat : Nat) : Int) := by
  intro fuel
  induction fuel with
  | zero =>
    intro s v p v' hf hs hv h
    simp only [parseUintF, Except.ok.injEq, Prod.mk.injEq] at h
    obtain ⟨hp, hv'⟩ := h
    subst hp hv'
    refine ⟨le_refl _, hs, Or.inl (by omega), hv, ?_⟩
    have : s - s = 0 := by omega
    rw [this, decNatF]
    omega
  | succ fuel ih =>
    intro s v p v' hf hs hv h
    simp only [parseUintF] at h
    cases hbyte : B.get? s with
    | none =>
      simp only [hbyte, Except.ok.injEq, Prod.mk.injEq] at h
      obtain ⟨hp, hv'⟩ := h
      subst hp hv'
      have hlen : B.length ≤ s := List.get?_eq_none.mp hbyte
      refine ⟨le_refl _, hs, Or.inl (by omega), hv, ?_⟩
      have : s - s = 0 := by omega
      rw [this, decNatF]
      omega
    | some t =>
      simp only [hbyte] at h
      by_cases hdelim : t = delim
      · rw [if_pos hdelim] at h
        simp only [Except.ok.injEq, Prod.mk.injEq] at h
        obtain ⟨hp, hv'⟩ := h
        subst hp hv'
        refine ⟨le_refl _, hs, Or.inr (by rw [hbyte, hdelim]), hv, ?_⟩
        have : s - s = 0 := by omega
        rw [this, decNatF]
        omega
      · rw [if_neg hdelim] at h
        by_cases hdig : ¬ (isAsciiDigit t = true)
        · rw [if_pos hdig] at h
          simp at h
        · rw [if_neg hdig] at h
          have h48 : 48 ≤ t ∧ t ≤ 57 := by
            have := of_not_not hdig
            simp only [isAsciiDigit, Bool.and_eq_true, decide_eq_true_eq] at this
            exact this
          by_cases hov1 : v > i64Max / 10
          · rw [if_pos hov1] at h
            simp at h
          · rw [if_neg hov1] at h
            by_cases hov2 : v * 10 > i64Max - ((t : Int) - 48)
            · have h' : (Except.error (BdecodeError.overflow
                  (toString (v * 10 + ((t : Int) - 48)))) :
                  Except BdecodeError (Nat × Int)) = .ok (p, v') := by
                rw [← h]
                show _ = if v * 10 > i64Max - ((t : Int) - 48) then _ else _
                rw [if_pos hov2]
              simp at h'
            · have h' : parseUintF B delim fuel (s + 1) (v * 10 + ((t : Int) - 48)) =
                  .ok (p, v') := by
                rw [← h]
                show _ = if v * 10 > i64Max - ((t : Int) - 48) then _ else _
                rw [if_neg hov2]
              have hslt : s < B.length := (List.get?_eq_some.mp hbyte).1
              obtain ⟨h1, h2, h3, h4, h5⟩ := ih (s + 1) (v * 10 + ((t : Int) - 48)) p v'
                (by omega) (by omega) (by omega) h'
              refine ⟨by omega, h2, h3, h4, ?_⟩
              have hgd : B.getD s 0 = t := by
                unfold List.getD
                rw [hbyte]
                rfl
              have hps : p - s = (p - (s + 1)) + 1 := by omega
              rw [hps, decNatF_step, hgd]
              have htn : (v * 10 + ((t : Int) - 48)).toNat = v.toNat * 10 + (t - 48) := by
                omega
              rw [h5, htn]

/-- Soundness of the `check_integer` scan loop: on success the returned
position is inside the buffer, no earlier than the start, and holds the
byte `'e'`. -/
theorem chkIntLoop_ok_pos (B : List Nat) :
    ∀ (fuel s digits pos dg : Nat),
      chkIntLoop B fuel s digits = .ok (pos, dg) →
      s ≤ pos ∧ pos < B.length ∧ B.get? pos = Option.some 101 := by
  intro fuel
  induction fuel with
  | zero =>
    intro s digits pos dg h
    simp [chkIntLoop] at h
  | succ fuel ih =>
    intro s digits pos dg h
    simp only [chkIntLoop] at h
    cases hbyte : B.get? s with
    | none => simp only [hbyte] at h; simp at h
    | some t =>
      simp only [hbyte] at h
      by_cases he : t = 101
      · rw [if_pos he] at h
        simp only [Except.ok.injEq, Prod.mk.injEq] at h
        obtain ⟨hp, _⟩ := h
        subst hp
        exact ⟨le_refl _, (List.get?_eq_some.mp hbyte).1, by rw [hbyte, he]⟩
      · rw [if_neg he] at h
        by_cases hdig : ¬ (isAsciiDigit t = true)
        · rw [if_pos hdig] at h; simp at h
        · rw [if_neg hdig] at h
          by_cases hend : s + 1 ≥ B.length
          · rw [if_pos hend] at h; simp at h
          · rw [if_neg hend] at h
            obtain ⟨h1, h2, h3⟩ := ih (s + 1) (digits + 1) pos dg h
            exact ⟨by omega, h2, h3⟩

/-- Soundness of `check_integer`: on success the returned position is the
closing `'e'`, inside the buffer and no earlier than the start. -/
theorem checkInteger_ok_pos (B : List Nat) (s q : Nat)
    (h : checkInteger B s = .ok q) :
    s ≤ q ∧ q < B.length ∧ B.get? q = Option.some 101 := by
  simp only [checkInteger] at h
  by_cases hemp : B.isEmpty = true
  · rw [if_pos hemp] at h; simp at h
  · rw [if_neg hemp] at h
    by_cases hs : s ≥ B.length
    · rw [if_pos hs] at h; simp at h
    · rw [if_neg hs] at h
      by_cases hneg : B.get? s = Option.some 45 ∧
          (if B.get? s = Option.some 45 then s + 1 else s) = B.length
      · rw [if_pos hneg] at h; simp at h
      · rw [if_neg hneg] at h
        cases hloop : chkIntLoop B
            (B.length - (if B.get? s = Option.some 45 then s + 1 else s))
            (if B.get? s = Option.some 45 then s + 1 else s) 0 with
        | error e => rw [hloop] at h; simp at h
        | ok pd =>
          obtain ⟨pos, digits⟩ := pd
          simp only [hloop] at h
          by_cases h20 : digits > 20
          · rw [if_pos h20] at h; simp at h
          · rw [if_neg h20] at h
            simp only [Except.ok.injEq] at h
            subst h
            obtain ⟨h1, h2, h3⟩ := chkIntLoop_ok_pos B _ _ _ _ _ hloop
            refine ⟨?_, h2, h3⟩
            by_cases hm : B.get? s = Option.some 45
            · rw [if_pos hm] at h1; omega
            · rw [if_neg hm] at h1; omega

/-- The raw-pointer parity flip leaves the token indexes of the stack
unchanged. -/
theorem flipFrame_map_token (tokens : List BToken) (s : List StackFrame) :
    (flipFrame tokens s).map StackFrame.token = s.map StackFrame.token := by
  cases s with
  | nil => rfl
  | cons f rest =>
    rw [flipFrame]
    split <;> simp [StackFrame.flipState]

theorem flipFrame_eq_nil (tokens : List BToken) (s : List StackFrame)
    (h : flipFrame tokens s = []) : s = [] := by
  have := congrArg (List.map StackFrame.token) h
  rw [flipFrame_map_token] at this
  exact List.map_eq_nil.mp this

/-- The relation the tokenizer establishes between a string token and the
token that follows it: the next token starts right after the string's
payload, whose length is the decimal value declared by the digit run
`buffer[t.offset .. t.offset + t.headerSize)`, and the byte between the digit
run and the payload is `':'`. -/
def StrPairProp (B : List Nat) (t tn : BToken) : Prop :=
  t.kind = TokType.str →
    tn.offset = t.offset + t.headerSize + 1 +
      declNat B t.offset (t.offset + t.headerSize) ∧
    B.get? (t.offset + t.headerSize) = Option.some 58

/-- The relation between the token most recently pushed by the tokenizer and
the cursor position: for a string the cursor sits right after the payload,
for an integer right after the closing `'e'` validated by `check_integer`,
and for the structural tokens right after their single byte. -/
def LastTokProp (B : List Nat) (t : BToken) (cursor : Nat) : Prop :=
  (t.kind = TokType.str →
    cursor = t.offset + t.headerSize + 1 +
      declNat B t.offset (t.offset + t.headerSize) ∧
    B.get? (t.offset + t.headerSize) = Option.some 58) ∧
  (t.kind = TokType.int →
    1 ≤ cursor ∧ checkInteger B (t.offset + 1) = .ok (cursor - 1)) ∧
  ((t.kind = TokType.dict ∨ t.kind = TokType.list ∨ t.kind = TokType.end_) →
    cursor = t.offset + 1)

/-- The working invariant of the tokenizer main loop, relating the buffer,
the tokens emitted so far, the stack of open containers (head is top) and
the cursor. -/
structure LoopInv (B : List Nat) (tokens : List BToken) (stack : List StackFrame)
    (cursor : Nat) : Prop where
  hblen : B.length ≤ BUFFER_MAX_OFFSET
  hcur : cursor ≤ B.length
  hcnt : tokens.length ≤ cursor
  hoff : ∀ t ∈ tokens, t.offset ≤ cursor
  hfirst : ∀ t, tokens.get? 0 = Option.some t → t.offset = 0
  hopen : ∀ i ∈ stack.map StackFrame.token, ∃ t, tokens.get? i = Option.some t ∧
    (t.kind = TokType.dict ∨ t.kind = TokType.list)
  hsorted : List.Pairwise (fun a b => b < a) (stack.map StackFrame.token)
  hbottom : ∀ i, (stack.map StackFrame.token).getLast? = Option.some i → i = 0
  hclosed : ∀ i t, tokens.get? i = Option.some t →
    (t.kind = TokType.dict ∨ t.kind = TokType.list) →
    i ∉ stack.map StackFrame.token →
    2 ≤ t.nextItem ∧ ∃ e, tokens.get? (i + t.nextItem - 1) = Option.some e ∧
      e.kind = TokType.end_
  hpair : ∀ i t tn, tokens.get? i = Option.some t →
    tokens.get? (i + 1) = Option.some tn → StrPairProp B t tn
  hlast : ∀ t, tokens.getLast? = Option.some t → LastTokProp B t cursor
  hempty : stack = [] → tokens = []
  hinit : tokens = [] → cursor = 0

/-- What holds of the token list and final cursor when the tokenizer loop
breaks successfully (before the synthetic terminating `End` is appended). -/
structure FinalProp (B : List Nat) (toks : List BToken) (p : Nat) : Prop where
  hne : toks ≠ []
  hp : p ≤ B.length
  hoff : ∀ t ∈ toks, t.offset ≤ p
  hfirst : ∀ t, toks.get? 0 = Option.some t → t.offset = 0
  hclosed : ∀ i t, toks.get? i = Option.some t →
    (t.kind = TokType.dict ∨ t.kind = TokType.list) →
    2 ≤ t.nextItem ∧ ∃ e, toks.get? (i + t.nextItem - 1) = Option.some e ∧
      e.kind = TokType.end_
  hpair : ∀ i t tn, toks.get? i = Option.some t →
    toks.get? (i + 1) = Option.some tn → StrPairProp B t tn
  hlast : ∀ t, toks.getLast? = Option.some t → LastTokProp B t p
  hroot_cont : ∀ t, toks.get? 0 = Option.some t →
    (t.kind = TokType.dict ∨ t.kind = TokType.list) → t.nextItem = toks.length
  hroot_prim : ∀ t, toks.get? 0 = Option.some t →
    (t.kind = TokType.str ∨ t.kind = TokType.int) → toks.length = 1

/-- The invariant holds at loop entry. -/
theorem loopInv_start (B : List Nat) (hblen : B.length ≤ BUFFER_MAX_OFFSET) :
    LoopInv B [] [] 0 where
  hblen := hblen
  hcur := Nat.zero_le _
  hcnt := le_refl 0
  hoff := by intro t ht; simp at ht
  hfirst := by intro t ht; simp at ht
  hopen := by intro i hi; simp at hi
  hsorted := by simp
  hbottom := by intro i hi; simp at hi
  hclosed := by intro i t ht; simp at ht
  hpair := by intro i t tn ht; simp at ht
  hlast := by intro t ht; simp at ht
  hempty := fun _ => rfl
  hinit := fun _ => rfl

/-- Updating the `next_item` field of one token leaves every token's kind,
offset and header size unchanged. -/
theorem get?_set_setNextItem (l : List BToken) (j n i : Nat) (tk t : BToken)
    (hj : l.get? j = Option.some tk)
    (h : (l.set j (tk.setNextItem n)).get? i = Option.some t) :
    ∃ t0, l.get? i = Option.some t0 ∧ t.kind = t0.kind ∧ t.offset = t0.offset ∧
      t.headerSize = t0.headerSize := by
  by_cases hij : i = j
  · subst hij
    rw [List.get?_set_eq, hj] at h
    simp only [Option.map_some] at h
    refine ⟨tk, hj, ?_⟩
    cases h
    exact ⟨rfl, rfl, rfl⟩
  · rw [List.get?_set_ne _ _ (fun hc => hij hc.symm)] at h
    exact ⟨t, h, rfl, rfl, rfl⟩

/-- Appending a token whose offset is the cursor keeps the first token's
offset at `0`. -/
theorem append_first (tokens : List BToken) (tk : BToken) (cursor : Nat)
    (hfirst : ∀ t, tokens.get? 0 = Option.some t → t.offset = 0)
    (hinit : tokens = [] → cursor = 0)
    (hofftk : tk.offset = cursor) :
    ∀ t, (tokens ++ [tk]).get? 0 = Option.some t → t.offset = 0 := by
  intro t h
  cases tokens with
  | nil =>
    simp only [List.nil_append, List.get?_cons_zero, Option.some.injEq] at h
    rw [← h, hofftk, hinit rfl]
  | cons a as =>
    rw [List.cons_append, List.get?_cons_zero] at h
    exact hfirst t (by rw [List.get?_cons_zero]; exact h)

/-- Appending a token whose offset is the cursor preserves the
string-extent relation between adjacent tokens: the one new pair is the old
last token against the new one, and the old last-token relation provides
exactly the needed extent. -/
theorem append_pair (B : List Nat) (tokens : List BToken) (tk : BToken)
    (cursor : Nat)
    (hpair : ∀ i t tn, tokens.get? i = Option.some t →
      tokens.get? (i + 1) = Option.some tn → StrPairProp B t tn)
    (hlast : ∀ t, tokens.getLast? = Option.some t → LastTokProp B t cursor)
    (hofftk : tk.offset = cursor) :
    ∀ i t tn, (tokens ++ [tk]).get? i = Option.some t →
      (tokens ++ [tk]).get? (i + 1) = Option.some tn → StrPairProp B t tn := by
  intro i t tn h1 h2
  have hi1 : i + 1 < tokens.length + 1 := by
    have := (List.get?_eq_some.mp h2).1
    simpa using this
  by_cases hie : i + 1 = tokens.length
  · have hilt : i < tokens.length := by omega
    rw [List.get?_append hilt] at h1
    rw [hie, List.get?_concat_length] at h2
    injection h2 with h2
    subst h2
    have hlastTok : tokens.getLast? = Option.some t := by
      rw [List.getLast?_eq_get?, show tokens.length - 1 = i by omega]
      exact h1
    intro hstr
    obtain ⟨he, hc⟩ := (hlast t hlastTok).1 hstr
    exact ⟨by rw [hofftk]; exact he, hc⟩
  · have hilt : i + 1 < tokens.length := by omega
    rw [List.get?_append hilt] at h2
    rw [List.get?_append (by omega)] at h1
    exact hpair i t tn h1 h2

/-- Pushing a container: the loop invariant is preserved when a `'d'` or
`'l'` byte appends an open container token and pushes its index. -/
theorem inv_push (B : List Nat) (tokens : List BToken) (stack : List StackFrame)
    (start : Nat) (tk : BToken)
    (inv : LoopInv B tokens stack start)
    (hstart : start < B.length)
    (hofftk : tk.offset = start)
    (hkind : tk.kind = TokType.dict ∨ tk.kind = TokType.list) :
    LoopInv B (tokens ++ [tk])
      (StackFrame.new tokens.length :: flipFrame (tokens ++ [tk]) stack)
      (start + 1) := by
  have hcnt := inv.hcnt
  have hcur := inv.hcur
  have hblen := inv.hblen
  have hmask : (StackFrame.new tokens.length).token = tokens.length := by
    simp only [StackFrame.new]
    apply Nat.mod_eq_of_lt
    unfold BUFFER_MAX_OFFSET at hblen
    omega
  have hmap : (StackFrame.new tokens.length ::
        flipFrame (tokens ++ [tk]) stack).map StackFrame.token =
      tokens.length :: stack.map StackFrame.token := by
    rw [List.map_cons, flipFrame_map_token, hmask]
  have hidx : ∀ i ∈ stack.map StackFrame.token, i < tokens.length := by
    intro i hi
    obtain ⟨t', ht', _⟩ := inv.hopen i hi
    exact (List.get?_eq_some.mp ht').1
  refine
  { hblen := inv.hblen
    hcur := by omega
    hcnt := by simp only [List.length_append, List.length_singleton]; omega
    hoff := by
      intro t ht
      rcases List.mem_append.mp ht with h | h
      · exact le_trans (inv.hoff t h) (by omega)
      · rw [List.mem_singleton] at h; subst h; rw [hofftk]; omega
    hfirst := append_first tokens tk start inv.hfirst inv.hinit hofftk
    hopen := by
      intro i hi
      rw [hmap] at hi
      rcases List.mem_cons.mp hi with h | h
      · subst h
        exact ⟨tk, by rw [List.get?_concat_length], hkind⟩
      · obtain ⟨t', ht', hk'⟩ := inv.hopen i h
        exact ⟨t', by rw [List.get?_append (hidx i h)]; exact ht', hk'⟩
    hsorted := by
      rw [hmap]
      exact List.pairwise_cons.mpr ⟨fun y hy => hidx y hy, inv.hsorted⟩
    hbottom := by
      intro i hi
      rw [hmap] at hi
      cases hsm : stack.map StackFrame.token with
      | nil =>
        rw [hsm] at hi
        simp only [List.getLast?_singleton, Option.some.injEq] at hi
        have ht0 : tokens = [] := inv.hempty (List.map_eq_nil.mp hsm)
        have : tokens.length = 0 := by rw [ht0]; rfl
        omega
      | cons b l =>
        rw [hsm, List.getLast?_cons_cons] at hi
        exact inv.hbottom i (by rw [hsm]; exact hi)
    hclosed := by
      intro i t ht hcont hni
      rw [hmap] at hni
      have hne_len : i ≠ tokens.length := fun h => hni (h ▸ List.mem_cons_self _ _)
      have hnis : i ∉ stack.map StackFrame.token :=
        fun h => hni (List.mem_cons_of_mem _ h)
      have hilt : i < tokens.length := by
        have h1 := (List.get?_eq_some.mp ht).1
        simp only [List.length_append, List.length_singleton] at h1
        omega
      rw [List.get?_append hilt] at ht
      obtain ⟨h2, e, he, hek⟩ := inv.hclosed i t ht hcont hnis
      exact ⟨h2, e, by rw [List.get?_append (List.get?_eq_some.mp he).1]; exact he, hek⟩
    hpair := append_pair B tokens tk start inv.hpair inv.hlast hofftk
    hlast := by
      intro t ht
      rw [List.getLast?_concat] at ht
      injection ht with ht
      subst ht
      refine ⟨?_, ?_, ?_⟩
      · intro hstr; exact absurd hstr (by rcases hkind with h | h <;> rw [h] <;> simp)
      · intro hint; exact absurd hint (by rcases hkind with h | h <;> rw [h] <;> simp)
      · intro _; rw [hofftk]
    hempty := by intro h; exact absurd h (by simp)
    hinit := by intro h; exact absurd h (by simp) }

/-- Emitting a leaf (string or integer) token with the stack still
nonempty: the loop invariant is preserved. -/
theorem inv_leaf (B : List Nat) (tokens : List BToken) (stack : List StackFrame)
    (start cursor : Nat) (tk : BToken)
    (inv : LoopInv B tokens stack start)
    (hofftk : tk.offset = start)
    (hkind : tk.kind = TokType.str ∨ tk.kind = TokType.int)
    (hc1 : start < cursor) (hc2 : cursor ≤ B.length)
    (hlastP : LastTokProp B tk cursor)
    (hsne : flipFrame (tokens ++ [tk]) stack ≠ []) :
    LoopInv B (tokens ++ [tk]) (flipFrame (tokens ++ [tk]) stack) cursor := by
  have hcnt := inv.hcnt
  have hmap : (flipFrame (tokens ++ [tk]) stack).map StackFrame.token =
      stack.map StackFrame.token := flipFrame_map_token _ _
  have hidx : ∀ i ∈ stack.map StackFrame.token, i < tokens.length := by
    intro i hi
    obtain ⟨t', ht', _⟩ := inv.hopen i hi
    exact (List.get?_eq_some.mp ht').1
  refine
  { hblen := inv.hblen
    hcur := hc2
    hcnt := by simp only [List.length_append, List.length_singleton]; omega
    hoff := by
      intro t ht
      rcases List.mem_append.mp ht with h | h
      · exact le_trans (inv.hoff t h) (by omega)
      · rw [List.mem_singleton] at h; subst h; rw [hofftk]; omega
    hfirst := append_first tokens tk start inv.hfirst inv.hinit hofftk
    hopen := by
      intro i hi
      rw [hmap] at hi
      obtain ⟨t', ht', hk'⟩ := inv.hopen i hi
      exact ⟨t', by rw [List.get?_append (hidx i hi)]; exact ht', hk'⟩
    hsorted := by rw [hmap]; exact inv.hsorted
    hbottom := by
      intro i hi
      rw [hmap] at hi
      exact inv.hbottom i hi
    hclosed := by
      intro i t ht hcont hni
      rw [hmap] at hni
      have hilt1 : i < tokens.length + 1 := by
        have h1 := (List.get?_eq_some.mp ht).1
        simpa using h1
      by_cases hie : i = tokens.length
      · rw [hie, List.get?_concat_length] at ht
        injection ht with ht
        subst ht
        exact absurd hcont (by rcases hkind with h | h <;> rw [h] <;> simp)
      · have hilt : i < tokens.length := by omega
        rw [List.get?_append hilt] at ht
        obtain ⟨h2, e, he, hek⟩ := inv.hclosed i t ht hcont hni
        exact ⟨h2, e, by rw [List.get?_append (List.get?_eq_some.mp he).1]; exact he, hek⟩
    hpair := append_pair B tokens tk start inv.hpair inv.hlast hofftk
    hlast := by
      intro t ht
      rw [List.getLast?_concat] at ht
      injection ht with ht
      subst ht
      exact hlastP
    hempty := by intro h; exact absurd h hsne
    hinit := by intro h; exact absurd h (by simp) }

/-- Emitting a leaf token with an empty stack breaks the loop with a
single-token array satisfying the break condition. -/
theorem final_leaf (B : List Nat) (tokens : List BToken) (stack : List StackFrame)
    (start cursor : Nat) (tk : BToken)
    (inv : LoopInv B tokens stack start)
    (hofftk : tk.offset = start)
    (hkind : tk.kind = TokType.str ∨ tk.kind = TokType.int)
    (hc2 : cursor ≤ B.length)
    (hlastP : LastTokProp B tk cursor)
    (hsnil : flipFrame (tokens ++ [tk]) stack = []) :
    FinalProp B (tokens ++ [tk]) cursor := by
  have hstack : stack = [] := flipFrame_eq_nil _ _ hsnil
  have htok : tokens = [] := inv.hempty hstack
  subst htok
  have hstart0 : start = 0 := inv.hinit rfl
  refine
  { hne := by simp
    hp := hc2
    hoff := by
      intro t ht
      simp only [List.nil_append, List.mem_singleton] at ht
      subst ht
      rcases hkind with h | h
      · obtain ⟨he, _⟩ := hlastP.1 h
        omega
      · obtain ⟨h1, _⟩ := hlastP.2.1 h
        omega
    hfirst := by
      intro t ht
      simp only [List.nil_append, List.get?_cons_zero, Option.some.injEq] at ht
      rw [← ht, hofftk]
      exact hstart0
    hclosed := by
      intro i t ht hcont
      cases i with
      | zero =>
        simp only [List.nil_append, List.get?_cons_zero, Option.some.injEq] at ht
        subst ht
        exact absurd hcont (by rcases hkind with h | h <;> rw [h] <;> simp)
      | succ n =>
        simp at ht
    hpair := by
      intro i t tn h1 h2
      have := (List.get?_eq_some.mp h2).1
      simp at this
    hlast := by
      intro t ht
      simp only [List.nil_append, List.getLast?_singleton, Option.some.injEq] at ht
      subst ht
      exact hlastP
    hroot_cont := by
      intro t ht hcont
      simp only [List.nil_append, List.get?_cons_zero, Option.some.injEq] at ht
      subst ht
      exact absurd hcont (by rcases hkind with h | h <;> rw [h] <;> simp)
    hroot_prim := by intro t _ _; simp }

section PopBranch

variable (B : List Nat) (tokens : List BToken) (top : StackFrame)
variable (rest : List StackFrame) (start : Nat) (tk : BToken)

/-- The index on top of the stack points into the token list. -/
theorem pop_toplt (_ : LoopInv B tokens (top :: rest) start)
    (htk : tokens.get? top.token = Option.some tk) :
    top.token < tokens.length :=
  (List.get?_eq_some.mp htk).1

/-- The token opened by the frame being closed is a container. -/
theorem pop_kind (inv : LoopInv B tokens (top :: rest) start)
    (htk : tokens.get? top.token = Option.some tk) :
    tk.kind = TokType.dict ∨ tk.kind = TokType.list := by
  obtain ⟨t', ht', hk'⟩ := inv.hopen top.token (by simp)
  rw [htk] at ht'
  injection ht' with ht'
  rw [ht']
  exact hk'

/-- The back-patched skip distance is below the 29-bit mask, so the
bitfield write stores it exactly. -/
theorem pop_next (inv : LoopInv B tokens (top :: rest) start)
    (hstart : start < B.length)
    (_ : tokens.get? top.token = Option.some tk) :
    (tk.setNextItem (tokens.length + 1 - top.token)).nextItem =
      tokens.length + 1 - top.token := by
  have hcnt := inv.hcnt
  have hblen := inv.hblen
  unfold BUFFER_MAX_OFFSET at hblen
  simp only [BToken.setNextItem]
  omega

/-- The offset of the pushed closing `End` token is stored exactly. -/
theorem pop_offE (inv : LoopInv B tokens (top :: rest) start)
    (hstart : start < B.length) :
    (BToken.newEnd start).offset = start := by
  have hblen := inv.hblen
  unfold BUFFER_MAX_OFFSET at hblen
  simp only [BToken.newEnd, BToken.newAll]
  omega

/-- Reading the back-patched token list away from the patched index and the
appended `End` gives the old token. -/
theorem pop_get_old (i : Nat) (hne : i ≠ top.token) (hlt : i < tokens.length) :
    ((tokens ++ [BToken.newEnd start]).set top.token
      (tk.setNextItem (tokens.length + 1 - top.token))).get? i =
      tokens.get? i := by
  rw [List.get?_set_ne _ _ (fun h => hne h.symm), List.get?_append hlt]

/-- Reading the back-patched token list at the patched index. -/
theorem pop_get_top (htk : tokens.get? top.token = Option.some tk) :
    ((tokens ++ [BToken.newEnd start]).set top.token
      (tk.setNextItem (tokens.length + 1 - top.token))).get? top.token =
      Option.some (tk.setNextItem (tokens.length + 1 - top.token)) := by
  have htoplt : top.token < tokens.length := (List.get?_eq_some.mp htk).1
  rw [List.get?_set_eq, List.get?_append htoplt, htk]
  rfl

/-- Reading the back-patched token list at the appended `End`. -/
theorem pop_get_end (htk : tokens.get? top.token = Option.some tk) :
    ((tokens ++ [BToken.newEnd start]).set top.token
      (tk.setNextItem (tokens.length + 1 - top.token))).get? tokens.length =
      Option.some (BToken.newEnd start) := by
  have htoplt : top.token < tokens.length := (List.get?_eq_some.mp htk).1
  rw [List.get?_set_ne _ _ (by omega), List.get?_concat_length]

theorem pop_len :
    ((tokens ++ [BToken.newEnd start]).set top.token
      (tk.setNextItem (tokens.length + 1 - top.token))).length =
      tokens.length + 1 := by
  rw [List.length_set, List.length_append, List.length_singleton]

/-- All offsets in the back-patched token list are at most the new cursor. -/
theorem pop_off (inv : LoopInv B tokens (top :: rest) start)
    (hstart : start < B.length)
    (htk : tokens.get? top.token = Option.some tk) :
    ∀ t ∈ (tokens ++ [BToken.newEnd start]).set top.token
      (tk.setNextItem (tokens.length + 1 - top.token)), t.offset ≤ start + 1 := by
  intro t ht
  rcases List.mem_or_eq_of_mem_set ht with h | h
  · rcases List.mem_append.mp h with h | h
    · exact le_trans (inv.hoff t h) (by omega)
    · rw [List.mem_singleton] at h
      subst h
      rw [pop_offE B tokens top rest start inv hstart]
      omega
  · subst h
    have htkmem : tk ∈ tokens := List.get?_mem htk
    have : (tk.setNextItem (tokens.length + 1 - top.token)).offset = tk.offset := rfl
    rw [this]
    exact le_trans (inv.hoff tk htkmem) (by omega)

/-- The first token of the back-patched list still has offset `0`. -/
theorem pop_first (inv : LoopInv B tokens (top :: rest) start)
    (htk : tokens.get? top.token = Option.some tk) :
    ∀ t, ((tokens ++ [BToken.newEnd start]).set top.token
      (tk.setNextItem (tokens.length + 1 - top.token))).get? 0 =
        Option.some t → t.offset = 0 := by
  intro t ht
  have htoplt : top.token < tokens.length := (List.get?_eq_some.mp htk).1
  by_cases h0 : top.token = 0
  · rw [← h0, pop_get_top tokens top start tk htk] at ht
    injection ht with ht
    subst ht
    have : (tk.setNextItem (tokens.length + 1 - top.token)).offset = tk.offset := rfl
    rw [this]
    exact inv.hfirst tk (h0 ▸ htk)
  · rw [pop_get_old tokens top start tk 0 (fun h => h0 h.symm) (by omega)] at ht
    exact inv.hfirst t ht

/-- Containers in the back-patched list that are not still open (not on the
popped stack) are closed: skip distance at least `2` landing one past an
`End` token. -/
theorem pop_closed (inv : LoopInv B tokens (top :: rest) start)
    (hstart : start < B.length)
    (htk : tokens.get? top.token = Option.some tk) :
    ∀ i t, ((tokens ++ [BToken.newEnd start]).set top.token
      (tk.setNextItem (tokens.length + 1 - top.token))).get? i = Option.some t →
      (t.kind = TokType.dict ∨ t.kind = TokType.list) →
      i ∉ rest.map StackFrame.token →
      2 ≤ t.nextItem ∧
      ∃ e, ((tokens ++ [BToken.newEnd start]).set top.token
        (tk.setNextItem (tokens.length + 1 - top.token))).get?
          (i + t.nextItem - 1) = Option.some e ∧ e.kind = TokType.end_ := by
  intro i t ht hcont hni
  have htoplt : top.token < tokens.length := (List.get?_eq_some.mp htk).1
  have hkindtk := pop_kind B tokens top rest start tk inv htk
  have hnextv := pop_next B tokens top rest start tk inv hstart htk
  by_cases hit : i = top.token
  · subst hit
    rw [pop_get_top tokens top start tk htk] at ht
    injection ht with ht
    subst ht
    constructor
    · rw [hnextv]; omega
    · refine ⟨BToken.newEnd start, ?_, rfl⟩
      rw [hnextv, show top.token + (tokens.length + 1 - top.token) - 1 =
        tokens.length by omega]
      exact pop_get_end tokens top start tk htk
  · have hiLe : i < tokens.length + 1 := by
      have h1 := (List.get?_eq_some.mp ht).1
      rw [pop_len] at h1
      exact h1
    by_cases hiL : i = tokens.length
    · subst hiL
      rw [pop_get_end tokens top start tk htk] at ht
      injection ht with ht
      subst ht
      exfalso
      rcases hcont with h | h <;> simp [BToken.newEnd, BToken.newAll] at h
    · have hilt : i < tokens.length := by omega
      rw [pop_get_old tokens top start tk i hit hilt] at ht
      have hni' : i ∉ (top :: rest).map StackFrame.token := by
        simp only [List.map_cons, List.mem_cons]
        push_neg
        exact ⟨hit, hni⟩
      obtain ⟨h2, e, he, hek⟩ := inv.hclosed i t ht hcont hni'
      have hjlt : i + t.nextItem - 1 < tokens.length := (List.get?_eq_some.mp he).1
      have hjne : i + t.nextItem - 1 ≠ top.token := by
        intro hc
        rw [hc, htk] at he
        injection he with he
        rw [← he] at hek
        rcases hkindtk with h | h <;> rw [h] at hek <;> simp at hek
      refine ⟨h2, e, ?_, hek⟩
      rw [pop_get_old tokens top start tk _ hjne hjlt]
      exact he

/-- Adjacent tokens of the back-patched list still satisfy the
string-extent relation. -/
theorem pop_pair (inv : LoopInv B tokens (top :: rest) start)
    (hstart : start < B.length)
    (htk : tokens.get? top.token = Option.some tk) :
    ∀ i t tn, ((tokens ++ [BToken.newEnd start]).set top.token
      (tk.setNextItem (tokens.length + 1 - top.token))).get? i = Option.some t →
      ((tokens ++ [BToken.newEnd start]).set top.token
        (tk.setNextItem (tokens.length + 1 - top.token))).get? (i + 1) =
        Option.some tn →
      StrPairProp B t tn := by
  intro i t tn h1 h2
  have htoplt : top.token < tokens.length := (List.get?_eq_some.mp htk).1
  have hT1tk : (tokens ++ [BToken.newEnd start]).get? top.token =
      Option.some tk := by
    rw [List.get?_append htoplt]
    exact htk
  obtain ⟨t0, h10, hk0, ho0, hh0⟩ :=
    get?_set_setNextItem _ top.token (tokens.length + 1 - top.token) i tk t hT1tk h1
  obtain ⟨tn0, h20, hkn0, hon0, hhn0⟩ :=
    get?_set_setNextItem _ top.token (tokens.length + 1 - top.token) (i + 1) tk tn
      hT1tk h2
  have hp := append_pair B tokens (BToken.newEnd start) start inv.hpair inv.hlast
    (pop_offE B tokens top rest start inv hstart) i t0 tn0 h10 h20
  intro hstr
  obtain ⟨he, hc⟩ := hp (by rw [← hk0]; exact hstr)
  constructor
  · rw [hon0, ho0, hh0]
    exact he
  · rw [ho0, hh0]
    exact hc

/-- The back-patched list ends with the just-pushed closing `End`. -/
theorem pop_lastEq (htk : tokens.get? top.token = Option.some tk) :
    ((tokens ++ [BToken.newEnd start]).set top.token
      (tk.setNextItem (tokens.length + 1 - top.token))).getLast? =
      Option.some (BToken.newEnd start) := by
  rw [List.getLast?_eq_get?, pop_len,
    show tokens.length + 1 - 1 = tokens.length by omega]
  exact pop_get_end tokens top start tk htk

/-- The last-token relation holds of the back-patched list at the advanced
cursor. -/
theorem pop_last (inv : LoopInv B tokens (top :: rest) start)
    (hstart : start < B.length)
    (htk : tokens.get? top.token = Option.some tk) :
    ∀ t, ((tokens ++ [BToken.newEnd start]).set top.token
      (tk.setNextItem (tokens.length + 1 - top.token))).getLast? =
      Option.some t → LastTokProp B t (start + 1) := by
  intro t ht
  rw [pop_lastEq tokens top start tk htk] at ht
  injection ht with ht
  subst ht
  refine ⟨?_, ?_, ?_⟩
  · intro h; simp [BToken.newEnd, BToken.newAll] at h
  · intro h; simp [BToken.newEnd, BToken.newAll] at h
  · intro _
    rw [pop_offE B tokens top rest start inv hstart]

/-- Closing a container with more frames below: the loop invariant is
preserved by the `'e'` branch. -/
theorem inv_pop (inv : LoopInv B tokens (top :: rest) start)
    (hstart : start < B.length)
    (htk : tokens.get? top.token = Option.some tk)
    (hrest : rest ≠ []) :
    LoopInv B ((tokens ++ [BToken.newEnd start]).set top.token
      (tk.setNextItem (tokens.length + 1 - top.token))) rest (start + 1) := by
  have hcnt := inv.hcnt
  refine
  { hblen := inv.hblen
    hcur := by omega
    hcnt := by rw [pop_len]; omega
    hoff := pop_off B tokens top rest start tk inv hstart htk
    hfirst := pop_first B tokens top rest start tk inv htk
    hopen := by
      intro i hi
      have hmem : i ∈ (top :: rest).map StackFrame.token := by
        rw [List.map_cons]
        exact List.mem_cons_of_mem _ hi
      obtain ⟨t', ht', hk'⟩ := inv.hopen i hmem
      have hilt : i < tokens.length := (List.get?_eq_some.mp ht').1
      have hpw := inv.hsorted
      rw [List.map_cons] at hpw
      have hine : i ≠ top.token := by
        have := (List.pairwise_cons.mp hpw).1 i hi
        omega
      exact ⟨t', by rw [pop_get_old tokens top start tk i hine hilt]; exact ht', hk'⟩
    hsorted := by
      have := inv.hsorted
      rw [List.map_cons] at this
      exact this.of_cons
    hbottom := by
      intro i hi
      apply inv.hbottom i
      rw [List.map_cons]
      obtain ⟨b, l, hm⟩ : ∃ b l, rest.map StackFrame.token = b :: l := by
        cases hm : rest.map StackFrame.token with
        | nil => exact absurd (List.map_eq_nil.mp hm) hrest
        | cons b l => exact ⟨b, l, rfl⟩
      rw [hm] at hi ⊢
      rw [List.getLast?_cons_cons]
      exact hi
    hclosed := pop_closed B tokens top rest start tk inv hstart htk
    hpair := pop_pair B tokens top rest start tk inv hstart htk
    hlast := pop_last B tokens top rest start tk inv hstart htk
    hempty := by intro h; exact absurd h hrest
    hinit := by
      intro h
      have := congrArg List.length h
      rw [pop_len] at this
      simp at this }

end PopBranch

/-- Closing the outermost container: the `'e'` branch breaks the loop with
the back-patched token list satisfying the break condition. -/
theorem final_pop (B : List Nat) (tokens : List BToken) (top : StackFrame)
    (start : Nat) (tk : BToken)
    (inv : LoopInv B tokens (top :: ([] : List StackFrame)) start)
    (hstart : start < B.length)
    (htk : tokens.get? top.token = Option.some tk) :
    FinalProp B ((tokens ++ [BToken.newEnd start]).set top.token
      (tk.setNextItem (tokens.length + 1 - top.token))) (start + 1) := by
  have htop0 : top.token = 0 := inv.hbottom top.token (by simp)
  refine
  { hne := by
      intro h
      have := congrArg List.length h
      rw [pop_len] at this
      simp at this
    hp := by omega
    hoff := pop_off B tokens top [] start tk inv hstart htk
    hfirst := pop_first B tokens top [] start tk inv htk
    hclosed := by
      intro i t ht hcont
      exact pop_closed B tokens top [] start tk inv hstart htk i t ht hcont (by simp)
    hpair := pop_pair B tokens top [] start tk inv hstart htk
    hlast := pop_last B tokens top [] start tk inv hstart htk
    hroot_cont := by
      intro t ht _
      rw [← htop0, pop_get_top tokens top start tk htk] at ht
      injection ht with ht
      subst ht
      rw [pop_next B tokens top [] start tk inv hstart htk, pop_len, htop0]
      have := pop_toplt B tokens top [] start tk inv htk
      omega
    hroot_prim := by
      intro t ht hk
      exfalso
      rw [← htop0, pop_get_top tokens top start tk htk] at ht
      injection ht with ht
      subst ht
      have hkk : (tk.setNextItem (tokens.length + 1 - top.token)).kind = tk.kind := rfl
      rcases pop_kind B tokens top [] start tk inv htk with h | h <;>
        rcases hk with h2 | h2 <;> rw [hkk, h] at h2 <;> simp at h2 }

/-- Master soundness of the tokenizer loop: from any state satisfying the
loop invariant, a successful run ends in a token list and cursor satisfying
the break condition. -/
theorem tokenizeLoop_final (B : List Nat) (dl : Nat) :
    ∀ (fuel start : Nat) (tokens : List BToken) (stack : List StackFrame)
      (out : TkOut),
      LoopInv B tokens stack start →
      tokenizeLoop B dl fuel start tokens stack = .ok out →
      FinalProp B out.1 out.2 := by
  intro fuel
  induction fuel with
  | zero =>
    intro start tokens stack out inv h
    rw [tokenizeLoop] at h
    rw [if_neg (by have := inv.hcur; omega)] at h
    by_cases hd : stack.length ≥ dl
    · rw [if_pos hd] at h; simp at h
    · rw [if_neg hd] at h; simp at h
  | succ fuel ih =>
    intro start tokens stack out inv h
    rw [tokenizeLoop] at h
    rw [if_neg (by have := inv.hcur; omega)] at h
    by_cases hd : stack.length ≥ dl
    · rw [if_pos hd] at h; simp at h
    · rw [if_neg hd] at h
      cases hbyte : B.get? start with
      | none => simp only [hbyte] at h; simp at h
      | some t =>
        simp only [hbyte] at h
        have hstartlt : start < B.length := (List.get?_eq_some.mp hbyte).1
        have hofflt : start < 2 ^ 29 := by
          have := inv.hblen
          unfold BUFFER_MAX_OFFSET at this
          omega
        by_cases hkey : dictKeyCheckFails tokens stack t = true
        · rw [if_pos hkey] at h; simp at h
        · rw [if_neg hkey] at h
          by_cases ht100 : t = 100
          · -- 'd': push a dict
            rw [if_pos ht100] at h
            exact ih (start + 1) (tokens ++ [BToken.newDict start 0])
              (StackFrame.new tokens.length ::
                flipFrame (tokens ++ [BToken.newDict start 0]) stack) out
              (inv_push B tokens stack start (BToken.newDict start 0) inv hstartlt
                (by simp only [BToken.newDict, BToken.newAll]
                    exact Nat.mod_eq_of_lt hofflt)
                (Or.inl rfl)) h
          · rw [if_neg ht100] at h
            by_cases ht108 : t = 108
            · -- 'l': push a list
              rw [if_pos ht108] at h
              exact ih (start + 1) (tokens ++ [BToken.newList start 0])
                (StackFrame.new tokens.length ::
                  flipFrame (tokens ++ [BToken.newList start 0]) stack) out
                (inv_push B tokens stack start (BToken.newList start 0) inv hstartlt
                  (by simp only [BToken.newList, BToken.newAll]
                      exact Nat.mod_eq_of_lt hofflt)
                  (Or.inr rfl)) h
            · rw [if_neg ht108] at h
              by_cases ht105 : t = 105
              · -- 'i': integer token
                rw [if_pos ht105] at h
                cases hchk : checkInteger B (start + 1) with
                | error e => simp only [hchk] at h; simp at h
                | ok q =>
                  simp only [hchk] at h
                  obtain ⟨hq1, hq2, hq3⟩ := checkInteger_ok_pos B (start + 1) q hchk
                  have hoffi : (BToken.newInt start).offset = start := by
                    simp only [BToken.newInt, BToken.newAll]
                    exact Nat.mod_eq_of_lt hofflt
                  have hlastP : LastTokProp B (BToken.newInt start) (q + 1) := by
                    refine ⟨?_, ?_, ?_⟩
                    · intro hc; simp [BToken.newInt, BToken.newAll] at hc
                    · intro _
                      refine ⟨by omega, ?_⟩
                      rw [hoffi]
                      simpa using hchk
                    · intro hc
                      rcases hc with hc | hc | hc <;>
                        simp [BToken.newInt, BToken.newAll] at hc
                  by_cases hnil :
                      flipFrame (tokens ++ [BToken.newInt start]) stack = []
                  · rw [if_pos hnil] at h
                    injection h with h
                    subst h
                    exact final_leaf B tokens stack start (q + 1)
                      (BToken.newInt start) inv hoffi (Or.inr rfl) (by omega)
                      hlastP hnil
                  · rw [if_neg hnil] at h
                    exact ih (q + 1) (tokens ++ [BToken.newInt start])
                      (flipFrame (tokens ++ [BToken.newInt start]) stack) out
                      (inv_leaf B tokens stack start (q + 1) (BToken.newInt start)
                        inv hoffi (Or.inr rfl) (by omega) (by omega) hlastP hnil) h
              · rw [if_neg ht105] at h
                by_cases ht101 : t = 101
                · -- 'e': close the innermost container
                  rw [if_pos ht101] at h
                  cases hhead : stack.head? with
                  | none => simp only [hhead] at h; simp at h
                  | some top =>
                    simp only [hhead] at h
                    have hstack : stack = top :: stack.tail := by
                      cases stack with
                      | nil => simp at hhead
                      | cons a s =>
                        simp only [List.head?_cons, Option.some.injEq] at hhead
                        subst hhead
                        rfl
                    have inv' : LoopInv B tokens (top :: stack.tail) start :=
                      hstack ▸ inv
                    by_cases hval :
                        (tokens.get? top.token).map BToken.kind =
                          Option.some TokType.dict ∧ top.state = 1
                    · rw [if_pos hval] at h; simp at h
                    · rw [if_neg hval] at h
                      obtain ⟨tk, htk, hkindtk⟩ := inv'.hopen top.token (by simp)
                      have htoplt : top.token < tokens.length :=
                        (List.get?_eq_some.mp htk).1
                      have hT1tk : (tokens ++ [BToken.newEnd start]).get? top.token =
                          Option.some tk := by
                        rw [List.get?_append htoplt]
                        exact htk
                      have hmax : ¬ (tokens ++ [BToken.newEnd start]).length -
                          top.token > MAX_NEXT_ITEM := by
                        rw [List.length_append, List.length_singleton]
                        have := inv.hcnt
                        have hb := inv.hblen
                        unfold MAX_NEXT_ITEM
                        unfold BUFFER_MAX_OFFSET at hb
                        omega
                      rw [if_neg hmax] at h
                      simp only [hT1tk] at h
                      have hlen1 : (tokens ++ [BToken.newEnd start]).length =
                          tokens.length + 1 := by simp
                      rw [hlen1] at h
                      by_cases htail : stack.tail = []
                      · rw [if_pos htail] at h
                        injection h with h
                        subst h
                        exact final_pop B tokens top start tk (htail ▸ inv')
                          hstartlt htk
                      · rw [if_neg htail] at h
                        exact ih (start + 1) _ stack.tail out
                          (inv_pop B tokens top stack.tail start tk inv' hstartlt
                            htk htail) h
                · -- digit: string token
                  rw [if_neg ht101] at h
                  by_cases hdig : ¬ (isAsciiDigit t = true)
                  · rw [if_pos hdig] at h; simp at h
                  · rw [if_neg hdig] at h
                    have h48 : 48 ≤ t ∧ t ≤ 57 := by
                      have := of_not_not hdig
                      simp only [isAsciiDigit, Bool.and_eq_true,
                        decide_eq_true_eq] at this
                      exact this
                    by_cases hone : start + 1 ≥ B.length
                    · rw [if_pos hone] at h; simp at h
                    · rw [if_neg hone] at h
                      cases hpu : parseUint B (start + 1) 58 ((t : Int) - 48) with
                      | error e => simp only [hpu] at h; simp at h
                      | ok cv =>
                        obtain ⟨colonPos, len⟩ := cv
                        simp only [hpu] at h
                        by_cases hcolon : colonPos = B.length
                        · rw [if_pos hcolon] at h; simp at h
                        · rw [if_neg hcolon] at h
                          by_cases hsize : len > (B.length : Int) - colonPos - 1
                          · rw [if_pos hsize] at h; simp at h
                          · rw [if_neg hsize] at h
                            by_cases hcp1 : colonPos + 1 > B.length
                            · rw [if_pos hcp1] at h; simp at h
                            · rw [if_neg hcp1] at h
                              by_cases hhdr : colonPos - start > MAX_HEADER_SIZE
                              · rw [if_pos hhdr] at h; simp at h
                              · rw [if_neg hhdr] at h
                                obtain ⟨hs1, hs2, hs3, hs4, hs5⟩ :=
                                  parseUintF_sound B 58 (B.length - (start + 1))
                                    (start + 1) ((t : Int) - 48) colonPos len rfl
                                    (by omega) (by omega) hpu
                                have hcolonByte : B.get? colonPos =
                                    Option.some 58 := by
                                  rcases hs3 with h' | h'
                                  · exact absurd h' hcolon
                                  · exact h'
                                have hcoLT : colonPos < B.length := by omega
                                have hoffs : (BToken.newStr start
                                    (colonPos - start)).offset = start := by
                                  simp only [BToken.newStr, BToken.newAll]
                                  exact Nat.mod_eq_of_lt hofflt
                                have hhdrs : (BToken.newStr start
                                    (colonPos - start)).headerSize =
                                    colonPos - start := by
                                  simp only [BToken.newStr, BToken.newAll]
                                  apply Nat.mod_eq_of_lt
                                  unfold MAX_HEADER_SIZE at hhdr
                                  omega
                                have hc2 : colonPos + 1 + len.toNat ≤ B.length := by
                                  omega
                                have hc1 : start < colonPos + 1 + len.toNat := by
                                  omega
                                have hdecl : declNat B start colonPos =
                                    len.toNat := by
                                  unfold declNat
                                  rw [show colonPos - start =
                                      (colonPos - (start + 1)) + 1 by omega,
                                    decNatF_step]
                                  have hgd : B.getD start 0 = t := by
                                    unfold List.getD
                                    rw [hbyte]
                                    rfl
                                  rw [hgd,
                                    show 0 * 10 + (t - 48) =
                                      ((t : Int) - 48).toNat by omega]
                                  omega
                                have hlastP : LastTokProp B
                                    (BToken.newStr start (colonPos - start))
                                    (colonPos + 1 + len.toNat) := by
                                  refine ⟨?_, ?_, ?_⟩
                                  · intro _
                                    rw [hoffs, hhdrs,
                                      show start + (colonPos - start) = colonPos
                                        by omega, hdecl]
                                    exact ⟨by omega, hcolonByte⟩
                                  · intro hc
                                    simp [BToken.newStr, BToken.newAll] at hc
                                  · intro hc
                                    rcases hc with hc | hc | hc <;>
                                      simp [BToken.newStr, BToken.newAll] at hc
                                by_cases hnil : flipFrame (tokens ++
                                    [BToken.newStr start (colonPos - start)])
                                    stack = []
                                · rw [if_pos hnil] at h
                                  injection h with h
                                  subst h
                                  exact final_leaf B tokens stack start
                                    (colonPos + 1 + len.toNat)
                                    (BToken.newStr start (colonPos - start)) inv
                                    hoffs (Or.inl rfl) hc2 hlastP hnil
                                · rw [if_neg hnil] at h
                                  exact ih (colonPos + 1 + len.toNat)
                                    (tokens ++ [BToken.newStr start
                                      (colonPos - start)])
                                    (flipFrame (tokens ++ [BToken.newStr start
                                      (colonPos - start)]) stack) out
                                    (inv_leaf B tokens stack start
                                      (colonPos + 1 + len.toNat)
                                      (BToken.newStr start (colonPos - start)) inv
                                      hoffs (Or.inl rfl) hc1 hc2 hlastP hnil) h

/-- A successful `tokenize` run is a successful loop run followed by the
synthetic terminating `End` at the final cursor, with the loop's break
condition holding of the loop tokens. -/
theorem tokenize_final (B : List Nat) (dlo : Option Nat) (tlo : Option Int)
    (toks : List BToken) (p : Nat)
    (h : tokenize B dlo tlo = .ok (toks, p)) :
    ∃ toks0, toks = toks0 ++ [BToken.newEnd p] ∧ FinalProp B toks0 p ∧
      B.length ≤ BUFFER_MAX_OFFSET := by
  simp only [tokenize] at h
  by_cases hb1 : B.length > BUFFER_MAX_OFFSET
  · rw [if_pos hb1] at h; simp at h
  · rw [if_neg hb1] at h
    by_cases hb0 : B.length = 0
    · rw [if_pos hb0] at h; simp at h
    · rw [if_neg hb0] at h
      cases hloop : tokenizeLoop B (dlo.getD DEFAULT_DEPTH_LIMIT)
          (tlo.getD DEFAULT_TOKEN_LIMIT).toNat 0 [] [] with
      | error e => simp only [hloop] at h; simp at h
      | ok out =>
        obtain ⟨toks0, p0⟩ := out
        simp only [hloop, Except.ok.injEq, Prod.mk.injEq] at h
        obtain ⟨h1, h2⟩ := h
        subst h2
        have hfin := tokenizeLoop_final B (dlo.getD DEFAULT_DEPTH_LIMIT)
          (tlo.getD DEFAULT_TOKEN_LIMIT).toNat 0 [] [] _
          (loopInv_start B (by omega)) hloop
        exact ⟨toks0, h1.symm, hfin, by omega⟩

/-- C6: every container token `c` (kind `Dict` or `List`) in a successfully
tokenized array has a skip distance `next_item` of at least `2`, and the
token at `c.index + c.next_item - 1` has kind `End` (the distance is
back-patched at close time to `close_index - open_index + 1`). -/
theorem c6_container_skip_to_end (B : List Nat) (dlo : Option Nat)
    (tlo : Option Int) (toks : List BToken) (p : Nat)
    (h : tokenize B dlo tlo = .ok (toks, p)) :
    ∀ i c, toks.get? i = Option.some c →
      (c.kind = TokType.dict ∨ c.kind = TokType.list) →
      2 ≤ c.nextItem ∧ ∃ e, toks.get? (i + c.nextItem - 1) = Option.some e ∧
        e.kind = TokType.end_ := by
  obtain ⟨toks0, heq, hfin, _⟩ := tokenize_final B dlo tlo toks p h
  subst heq
  intro i c hget hcont
  have hi1 : i < toks0.length + 1 := by
    have := (List.get?_eq_some.mp hget).1
    simpa using this
  by_cases hie : i = toks0.length
  · subst hie
    rw [List.get?_concat_length] at hget
    injection hget with hget
    subst hget
    exfalso
    rcases hcont with hc | hc <;> simp [BToken.newEnd, BToken.newAll] at hc
  · rw [List.get?_append (by omega)] at hget
    obtain ⟨h2, e, he, hek⟩ := hfin.hclosed i c hget hcont
    refine ⟨h2, e, ?_, hek⟩
    rw [List.get?_append (List.get?_eq_some.mp he).1]
    exact he

/-- C6 witness: the dict `"d1:ai5ee"` tokenizes to
`[Dict(next 4), Str, Int, End, End]`; the theorem applied at the root dict
token yields its skip distance `4` landing one past the closing `End`. -/
theorem c6_container_skip_to_end_witness :
    2 ≤ (BToken.newDict 0 4).nextItem ∧
    ∃ e, ([BToken.newDict 0 4, BToken.newStr 1 1, BToken.newInt 4,
      BToken.newEnd 7, BToken.newEnd 8] : List BToken).get?
        (0 + (BToken.newDict 0 4).nextItem - 1) = Option.some e ∧
      e.kind = TokType.end_ :=
  c6_container_skip_to_end [100, 49, 58, 97, 105, 53, 101, 101] Option.none
    (Option.some 16)
    [BToken.newDict 0 4, BToken.newStr 1 1, BToken.newInt 4,
      BToken.newEnd 7, BToken.newEnd 8] 8 (by rfl) 0 (BToken.newDict 0 4)
    (by rfl) (Or.inl rfl)

/-- C7: every string token `s` in a successfully tokenized array is followed
by a token `n` with `n.offset = s.offset + s.header_size + 1 + declared
payload length`, the byte at `s.offset + s.header_size` is `':'`, and
`Str::value` (the substance of `as_str()`) returns exactly the payload slice
`buffer[s.offset + s.header_size + 1 .. n.offset)`. -/
theorem c7_string_token_extent (B : List Nat) (dlo : Option Nat)
    (tlo : Option Int) (toks : List BToken) (p : Nat)
    (h : tokenize B dlo tlo = .ok (toks, p)) :
    ∀ i s, toks.get? i = Option.some s → s.kind = TokType.str →
      ∃ n, toks.get? (i + 1) = Option.some n ∧
        n.offset = s.offset + s.headerSize + 1 +
          declNat B s.offset (s.offset + s.headerSize) ∧
        B.get? (s.offset + s.headerSize) = Option.some 58 ∧
        strValue B toks i =
          .ok (sliceBytes B (s.offset + s.headerSize + 1) n.offset) := by
  obtain ⟨toks0, heq, hfin, hblen⟩ := tokenize_final B dlo tlo toks p h
  subst heq
  intro i s hget hstr
  have hi1 : i < toks0.length + 1 := by
    have := (List.get?_eq_some.mp hget).1
    simpa using this
  have hiL : i ≠ toks0.length := by
    intro hc
    rw [hc, List.get?_concat_length] at hget
    injection hget with hget
    rw [← hget] at hstr
    simp [BToken.newEnd, BToken.newAll] at hstr
  have hilt : i < toks0.length := by omega
  have hget0 : toks0.get? i = Option.some s := by
    rw [List.get?_append hilt] at hget
    exact hget
  have hsval : ∀ n, (toks0 ++ [BToken.newEnd p]).get? (i + 1) = Option.some n →
      n.offset = s.offset + s.headerSize + 1 +
        declNat B s.offset (s.offset + s.headerSize) →
      strValue B (toks0 ++ [BToken.newEnd p]) i =
        .ok (sliceBytes B (s.offset + s.headerSize + 1) n.offset) := by
    intro n hn he
    have hble : n.offset ≤ B.length := by
      rcases List.mem_append.mp (List.get?_mem hn) with hm | hm
      · exact le_trans (hfin.hoff n hm) hfin.hp
      · rw [List.mem_singleton] at hm
        subst hm
        have : (BToken.newEnd p).offset = p := by
          simp only [BToken.newEnd, BToken.newAll]
          apply Nat.mod_eq_of_lt
          unfold BUFFER_MAX_OFFSET at hblen
          have := hfin.hp
          omega
        rw [this]
        exact hfin.hp
    simp only [strValue, hget, hn]
    rw [if_neg (not_ne_iff.mpr hstr), if_pos ⟨by omega, hble⟩,
      ← Nat.add_assoc]
  by_cases hnext : i + 1 < toks0.length
  · obtain ⟨n, hn⟩ : ∃ n, toks0.get? (i + 1) = Option.some n := by
      cases hn : toks0.get? (i + 1) with
      | none =>
        have := List.get?_eq_none.mp hn
        omega
      | some n => exact ⟨n, rfl⟩
    obtain ⟨he, hc⟩ := hfin.hpair i s n hget0 hn hstr
    have hn' : (toks0 ++ [BToken.newEnd p]).get? (i + 1) = Option.some n := by
      rw [List.get?_append hnext]
      exact hn
    exact ⟨n, hn', he, hc, hsval n hn' he⟩
  · have hie : i + 1 = toks0.length := by omega
    have hlastTok : toks0.getLast? = Option.some s := by
      rw [List.getLast?_eq_get?, show toks0.length - 1 = i by omega]
      exact hget0
    obtain ⟨he, hc⟩ := (hfin.hlast s hlastTok).1 hstr
    have hEoff : (BToken.newEnd p).offset = p := by
      simp only [BToken.newEnd, BToken.newAll]
      apply Nat.mod_eq_of_lt
      unfold BUFFER_MAX_OFFSET at hblen
      have := hfin.hp
      omega
    have hn' : (toks0 ++ [BToken.newEnd p]).get? (i + 1) =
        Option.some (BToken.newEnd p) := by
      rw [hie, List.get?_concat_length]
    have he' : (BToken.newEnd p).offset = s.offset + s.headerSize + 1 +
        declNat B s.offset (s.offset + s.headerSize) := by
      rw [hEoff]
      exact he
    exact ⟨BToken.newEnd p, hn', he', hc, hsval _ hn' he'⟩

/-- C7 witness: the buffer `"3:abc"` tokenizes to a string token followed by
the synthetic `End` at offset `5 = 0 + 1 + 1 + 3`; the byte at index `1` is
`':'` and `Str::value` returns the payload `"abc"`. -/
theorem c7_string_token_extent_witness :
    ∃ n, ([BToken.newStr 0 1, BToken.newEnd 5] : List BToken).get? (0 + 1) =
        Option.some n ∧
      n.offset = (BToken.newStr 0 1).offset + (BToken.newStr 0 1).headerSize +
        1 + declNat [51, 58, 97, 98, 99] (BToken.newStr 0 1).offset
          ((BToken.newStr 0 1).offset + (BToken.newStr 0 1).headerSize) ∧
      [51, 58, 97, 98, 99].get? ((BToken.newStr 0 1).offset +
        (BToken.newStr 0 1).headerSize) = Option.some 58 ∧
      strValue [51, 58, 97, 98, 99] [BToken.newStr 0 1, BToken.newEnd 5] 0 =
        .ok (sliceBytes [51, 58, 97, 98, 99] ((BToken.newStr 0 1).offset +
          (BToken.newStr 0 1).headerSize + 1) n.offset) :=
  c7_string_token_extent [51, 58, 97, 98, 99] Option.none (Option.some 16)
    [BToken.newStr 0 1, BToken.newEnd 5] 5 (by rfl) 0 (BToken.newStr 0 1)
    (by rfl) rfl

/-- C5: every successfully tokenized buffer yields a token array ending in
the synthetic `End` token whose offset is the byte position immediately
after the top-level value: for a primitive root (string or integer) the
array has exactly two tokens and the final cursor is the position right
after the value (after the payload for a string, after the closing `'e'`
validated by `check_integer` for an integer — trailing bytes are ignored);
for a container root it is one past the root's closing `End`. -/
theorem c5_terminating_end_token (B : List Nat) (dlo : Option Nat)
    (tlo : Option Int) (toks : List BToken) (p : Nat)
    (h : tokenize B dlo tlo = .ok (toks, p)) :
    toks.getLast? = Option.some (BToken.newEnd p) ∧
    (BToken.newEnd p).offset = p ∧
    p ≤ B.length ∧
    2 ≤ toks.length ∧
    ∀ t, toks.get? 0 = Option.some t →
      ((t.kind = TokType.str ∨ t.kind = TokType.int) → toks.length = 2) ∧
      (t.kind = TokType.str →
        p = t.offset + t.headerSize + 1 +
          declNat B t.offset (t.offset + t.headerSize)) ∧
      (t.kind = TokType.int → checkInteger B (t.offset + 1) = .ok (p - 1)) ∧
      ((t.kind = TokType.dict ∨ t.kind = TokType.list) →
        ∃ e, toks.get? (toks.length - 2) = Option.some e ∧
          e.kind = TokType.end_ ∧ p = e.offset + 1) := by
  obtain ⟨toks0, heq, hfin, hblen⟩ := tokenize_final B dlo tlo toks p h
  subst heq
  have hpos : 0 < toks0.length := List.length_pos.mpr hfin.hne
  have hlen : (toks0 ++ [BToken.newEnd p]).length = toks0.length + 1 := by simp
  have hEoff : (BToken.newEnd p).offset = p := by
    simp only [BToken.newEnd, BToken.newAll]
    apply Nat.mod_eq_of_lt
    unfold BUFFER_MAX_OFFSET at hblen
    have := hfin.hp
    omega
  refine ⟨List.getLast?_concat _, hEoff, hfin.hp, by rw [hlen]; omega, ?_⟩
  intro t hget
  have hget0 : toks0.get? 0 = Option.some t := by
    rw [List.get?_append hpos] at hget
    exact hget
  refine ⟨?_, ?_, ?_, ?_⟩
  · intro hk
    rw [hlen, hfin.hroot_prim t hget0 hk]
  · intro hk
    have h1 : toks0.length = 1 := hfin.hroot_prim t hget0 (Or.inl hk)
    have hlast : toks0.getLast? = Option.some t := by
      rw [List.getLast?_eq_get?, h1]
      exact hget0
    exact ((hfin.hlast t hlast).1 hk).1
  · intro hk
    have h1 : toks0.length = 1 := hfin.hroot_prim t hget0 (Or.inr hk)
    have hlast : toks0.getLast? = Option.some t := by
      rw [List.getLast?_eq_get?, h1]
      exact hget0
    exact ((hfin.hlast t hlast).2.1 hk).2
  · intro hk
    obtain ⟨h2, e, he, hek⟩ := hfin.hclosed 0 t hget0 hk
    have hnext : t.nextItem = toks0.length := hfin.hroot_cont t hget0 hk
    rw [hnext] at he
    have helt : toks0.length - 1 < toks0.length := by omega
    have he' : toks0.get? (toks0.length - 1) = Option.some e := by
      rw [show toks0.length - 1 = 0 + toks0.length - 1 by omega]
      exact he
    have hlast : toks0.getLast? = Option.some e := by
      rw [List.getLast?_eq_get?]
      exact he'
    refine ⟨e, ?_, hek, ?_⟩
    · rw [hlen, show toks0.length + 1 - 2 = toks0.length - 1 by omega,
        List.get?_append helt]
      exact he'
    · exact (hfin.hlast e hlast).2.2 (Or.inr (Or.inr hek))

/-- C5 witness: the buffer `"i19eXYZ"` — a primitive top-level integer with
trailing bytes — tokenizes to exactly two tokens ending in the synthetic
`End` at offset `4`, the position immediately after the value `i19e`. -/
theorem c5_terminating_end_token_witness :
    ([BToken.newInt 0, BToken.newEnd 4] : List BToken).getLast? =
      Option.some (BToken.newEnd 4) ∧
    (BToken.newEnd 4).offset = 4 ∧
    4 ≤ [105, 49, 57, 101, 88, 89, 90].length ∧
    2 ≤ ([BToken.newInt 0, BToken.newEnd 4] : List BToken).length ∧
    ∀ t, ([BToken.newInt 0, BToken.newEnd 4] : List BToken).get? 0 =
        Option.some t →
      ((t.kind = TokType.str ∨ t.kind = TokType.int) →
        ([BToken.newInt 0, BToken.newEnd 4] : List BToken).length = 2) ∧
      (t.kind = TokType.str →
        4 = t.offset + t.headerSize + 1 +
          declNat [105, 49, 57, 101, 88, 89, 90] t.offset
            (t.offset + t.headerSize)) ∧
      (t.kind = TokType.int →
        checkInteger [105, 49, 57, 101, 88, 89, 90] (t.offset + 1) =
          .ok (4 - 1)) ∧
      ((t.kind = TokType.dict ∨ t.kind = TokType.list) →
        ∃ e, ([BToken.newInt 0, BToken.newEnd 4] : List BToken).get?
            (([BToken.newInt 0, BToken.newEnd 4] : List BToken).length - 2) =
            Option.some e ∧
          e.kind = TokType.end_ ∧ 4 = e.offset + 1) :=
  c5_terminating_end_token [105, 49, 57, 101, 88, 89, 90] Option.none
    (Option.some 16) [BToken.newInt 0, BToken.newEnd 4] 4 (by rfl)

/-- A bencoded value, as described by the format grammar the spec's parser
accepts. Modelled from the spec: the source has no value type (it only
tokenizes byte buffers), so the grammar formalizes the claim's "well-formed
value". Integers carry their sign flag and digit bytes, strings carry the
length digit run and the payload bytes (so every accepted length spelling is
representable), and dict entries carry the key's digit run and payload
together with the entry's value. -/
inductive BVal : Type where
  | vint (neg : Bool) (ds : List Nat) : BVal
  | vstr (lds payload : List Nat) : BVal
  | vlist (items : List BVal) : BVal
  | vdict (pairs : List (List Nat × List Nat × BVal)) : BVal

mutual

/-- The byte encoding of a value. -/
def BVal.enc : BVal → List Nat
  | .vint neg ds => 105 :: ((if neg then [45] else []) ++ ds ++ [101])
  | .vstr lds payload => lds ++ 58 :: payload
  | .vlist items => 108 :: encList items ++ [101]
  | .vdict pairs => 100 :: encPairs pairs ++ [101]

def encList : List BVal → List Nat
  | [] => []
  | v :: vs => v.enc ++ encList vs

def encPairs : List (List Nat × List Nat × BVal) → List Nat
  | [] => []
  | (lds, key, v) :: ps => (lds ++ 58 :: key) ++ v.enc ++ encPairs ps

end

mutual

/-- The container nesting depth of a value (primitives have depth `0`, a
container is one deeper than its deepest child). -/
def BVal.depth : BVal → Nat
  | .vint _ _ => 0
  | .vstr _ _ => 0
  | .vlist items => 1 + depthList items
  | .vdict pairs => 1 + depthPairs pairs

def depthList : List BVal → Nat
  | [] => 0
  | v :: vs => max v.depth (depthList vs)

def depthPairs : List (List Nat × List Nat × BVal) → Nat
  | [] => 0
  | (_, _, v) :: ps => max v.depth (depthPairs ps)

end

mutual

/-- The number of tokens the tokenizer emits for a value (equivalently, the
number of loop iterations it takes): one per primitive, and for a container
one for the opening byte, one per child, and one for the closing `'e'`. -/
def BVal.tokCount : BVal → Nat
  | .vint _ _ => 1
  | .vstr _ _ => 1
  | .vlist items => 2 + tokCountList items
  | .vdict pairs => 2 + tokCountPairs pairs

def tokCountList : List BVal → Nat
  | [] => 0
  | v :: vs => v.tokCount + tokCountList vs

def tokCountPairs : List (List Nat × List Nat × BVal) → Nat
  | [] => 0
  | (_, _, v) :: ps => 1 + v.tokCount + tokCountPairs ps

end

/-- Decimal value of a digit-byte run (the number a length run denotes). -/
def decValAcc (ds : List Nat) (a : Nat) : Nat :=
  ds.foldl (fun a d => a * 10 + (d - 48)) a

def decVal (ds : List Nat) : Nat :=
  decValAcc ds 0

mutual

/-- Well-formedness of a value with respect to what the decoder accepts:
integer digit runs are nonempty, all digits and at most 20 long; string
length runs are nonempty, all digits, at most 7 long (the header-size cap)
and denote the payload length; dict keys are well-formed strings. -/
def BVal.wf : BVal → Bool
  | .vint _ ds => !ds.isEmpty && decide (ds.length ≤ 20) &&
      ds.all (fun d => isAsciiDigit d)
  | .vstr lds payload => !lds.isEmpty && decide (lds.length ≤ 7) &&
      lds.all (fun d => isAsciiDigit d) && decide (decVal lds = payload.length)
  | .vlist items => wfList items
  | .vdict pairs => wfPairs pairs

def wfList : List BVal → Bool
  | [] => true
  | v :: vs => v.wf && wfList vs

def wfPairs : List (List Nat × List Nat × BVal) → Bool
  | [] => true
  | (lds, key, v) :: ps =>
      (!lds.isEmpty && decide (lds.length ≤ 7) &&
        lds.all (fun d => isAsciiDigit d) && decide (decVal lds = key.length)) &&
      v.wf && wfPairs ps

end

/-- The bytes of `L` sit in `B` starting at position `s`. -/
def bytesAt (B : List Nat) (s : Nat) (L : List Nat) : Prop :=
  ∀ j, j < L.length → B.get? (s + j) = L.get? j

theorem bytesAt_nil (B : List Nat) (s : Nat) : bytesAt B s [] := by
  intro j hj
  simp at hj

theorem bytesAt_append (B : List Nat) (s : Nat) (L1 L2 : List Nat) :
    bytesAt B s (L1 ++ L2) ↔ bytesAt B s L1 ∧ bytesAt B (s + L1.length) L2 := by
  constructor
  · intro h
    constructor
    · intro j hj
      rw [← List.get?_append hj]
      exact h j (by simp; omega)
    · intro j hj
      have := h (L1.length + j) (by simp; omega)
      rw [List.get?_append_right (by omega)] at this
      simpa [Nat.add_assoc, Nat.add_sub_cancel_left] using this
  · intro ⟨h1, h2⟩ j hj
    simp only [List.length_append] at hj
    by_cases hjl : j < L1.length
    · rw [List.get?_append hjl]
      exact h1 j hjl
    · rw [List.get?_append_right (by omega)]
      have := h2 (j - L1.length) (by omega)
      rw [show s + L1.length + (j - L1.length) = s + j by omega] at this
      exact this

theorem bytesAt_cons (B : List Nat) (s c : Nat) (L : List Nat) :
    bytesAt B s (c :: L) ↔ B.get? s = Option.some c ∧ bytesAt B (s + 1) L := by
  constructor
  · intro h
    constructor
    · have := h 0 (by simp)
      simpa using this
    · intro j hj
      have := h (j + 1) (by simp; omega)
      rw [show s + (j + 1) = s + 1 + j by omega] at this
      simpa using this
  · intro ⟨h1, h2⟩ j hj
    cases j with
    | zero => simpa using h1
    | succ j =>
      have := h2 j (by simpa using hj)
      rw [show s + 1 + j = s + (j + 1) by omega] at this
      simpa using this

theorem bytesAt_le (B : List Nat) (s : Nat) (L : List Nat) (hne : L ≠ [])
    (h : bytesAt B s L) : s + L.length ≤ B.length := by
  have hpos : 0 < L.length := List.length_pos.mpr hne
  have hlast := h (L.length - 1) (by omega)
  cases hL : L.get? (L.length - 1) with
  | none =>
    have := List.get?_eq_none.mp hL
    omega
  | some d =>
    rw [hL] at hlast
    have := (List.get?_eq_some.mp hlast).1
    omega

theorem enc_ne_nil (v : BVal) : v.enc ≠ [] := by
  cases v <;> simp [BVal.enc]

mutual

theorem tokCount_le_enc : ∀ (v : BVal), v.tokCount ≤ v.enc.length
  | .vint neg ds => by
    simp [BVal.tokCount, BVal.enc]
  | .vstr lds payload => by
    simp [BVal.tokCount, BVal.enc]
    omega
  | .vlist items => by
    have := tokCountList_le_enc items
    simp only [BVal.tokCount, BVal.enc, List.length_cons, List.length_append,
      List.length_singleton]
    omega
  | .vdict pairs => by
    have := tokCountPairs_le_enc pairs
    simp only [BVal.tokCount, BVal.enc, List.length_cons, List.length_append,
      List.length_singleton]
    omega

theorem tokCountList_le_enc : ∀ (items : List BVal),
    tokCountList items ≤ (encList items).length
  | [] => by simp [tokCountList, encList]
  | v :: vs => by
    have h1 := tokCount_le_enc v
    have h2 := tokCountList_le_enc vs
    simp only [tokCountList, encList, List.length_append]
    omega

theorem tokCountPairs_le_enc : ∀ (ps : List (List Nat × List Nat × BVal)),
    tokCountPairs ps ≤ (encPairs ps).length
  | [] => by simp [tokCountPairs, encPairs]
  | (lds, key, v) :: ps => by
    have h1 := tokCount_le_enc v
    have h2 := tokCountPairs_le_enc ps
    simp only [tokCountPairs, encPairs, List.length_append, List.length_cons]
    omega

end

theorem depthList_mem (v : BVal) : ∀ (items : List BVal), v ∈ items →
    v.depth ≤ depthList items := by
  intro items
  induction items with
  | nil => intro h; simp at h
  | cons w ws ih =>
    intro h
    rcases List.mem_cons.mp h with h | h
    · subst h
      simp [depthList]
    · have := ih h
      simp only [depthList]
      omega

theorem depthPairs_mem (lds key : List Nat) (v : BVal) :
    ∀ (ps : List (List Nat × List Nat × BVal)), (lds, key, v) ∈ ps →
    v.depth ≤ depthPairs ps := by
  intro ps
  induction ps with
  | nil => intro h; simp at h
  | cons p ps ih =>
    intro h
    rcases List.mem_cons.mp h with h | h
    · subst h
      simp [depthPairs]
    · have := ih h
      obtain ⟨a, b, w⟩ := p
      simp only [depthPairs]
      omega

theorem depthList_attained : ∀ (items : List BVal),
    depthList items = 0 ∨ ∃ v ∈ items, v.depth = depthList items := by
  intro items
  induction items with
  | nil => exact Or.inl rfl
  | cons w ws ih =>
    by_cases hw : depthList ws ≤ w.depth
    · refine Or.inr ⟨w, List.mem_cons_self _ _, ?_⟩
      simp only [depthList]
      omega
    · rcases ih with h0 | ⟨v, hv, hd⟩
      · omega
      · refine Or.inr ⟨v, List.mem_cons_of_mem _ hv, ?_⟩
        simp only [depthList]
        omega

theorem depthPairs_attained : ∀ (ps : List (List Nat × List Nat × BVal)),
    depthPairs ps = 0 ∨
      ∃ lds key v, (lds, key, v) ∈ ps ∧ v.depth = depthPairs ps := by
  intro ps
  induction ps with
  | nil => exact Or.inl rfl
  | cons p ps ih =>
    obtain ⟨lds, key, w⟩ := p
    by_cases hw : depthPairs ps ≤ w.depth
    · refine Or.inr ⟨lds, key, w, List.mem_cons_self _ _, ?_⟩
      simp only [depthPairs]
      omega
    · rcases ih with h0 | ⟨a, b, v, hv, hd⟩
      · omega
      · refine Or.inr ⟨a, b, v, List.mem_cons_of_mem _ hv, ?_⟩
        simp only [depthPairs]
        omega

theorem bytesAt_digits (B : List Nat) (s : Nat) (ds : List Nat)
    (h : bytesAt B s ds) (hall : ds.all (fun d => isAsciiDigit d) = true) :
    ∀ j, j < ds.length → ∃ d, B.get? (s + j) = Option.some d ∧ isAsciiDigit d := by
  intro j hj
  refine ⟨ds.get ⟨j, hj⟩, ?_, ?_⟩
  · rw [h j hj, List.get?_eq_get hj]
  · exact List.all_eq_true.mp hall _ (List.get_mem ds j hj)

/-- Completeness of the `parse_uint` scan: on a digit run followed by the
delimiter (short enough that no overflow check fires), the scan succeeds at
the delimiter position with the accumulated decimal value. -/
theorem parseUintF_run_digits (B : List Nat) :
    ∀ (ds : List Nat) (s k : Nat) (v : Int),
      bytesAt B s ds → ds.all (fun d => isAsciiDigit d) = true →
      B.get? (s + ds.length) = Option.some 58 →
      0 ≤ v → v < 10 ^ k → k + ds.length ≤ 18 →
      parseUintF B 58 (B.length - s) s v =
        .ok (s + ds.length, ((decValAcc ds v.toNat : Nat) : Int)) := by
  intro ds
  induction ds with
  | nil =>
    intro s k v _ _ hdelim hv0 _ _
    have h58 : B.get? s = Option.some 58 := by simpa using hdelim
    have hlt : s < B.length := (List.get?_eq_some.mp h58).1
    obtain ⟨f, hf⟩ : ∃ f, B.length - s = f + 1 := ⟨B.length - s - 1, by omega⟩
    rw [hf, parseUintF]
    simp only [h58, if_true]
    simp only [decValAcc, List.foldl_nil, List.length_nil, Nat.add_zero]
    rw [show ((v.toNat : Nat) : Int) = v by omega]
  | cons d rest ih =>
    intro s k v hbytes hall hdelim hv0 hvk hbudget
    rw [bytesAt_cons] at hbytes
    obtain ⟨hd, hrest⟩ := hbytes
    simp only [List.all_cons, Bool.and_eq_true] at hall
    obtain ⟨hddig, halls⟩ := hall
    have hd48 : 48 ≤ d ∧ d ≤ 57 := by
      simpa [isAsciiDigit, Bool.and_eq_true, decide_eq_true_eq] using hddig
    have hlt : s < B.length := (List.get?_eq_some.mp hd).1
    obtain ⟨f, hf⟩ : ∃ f, B.length - s = f + 1 := ⟨B.length - s - 1, by omega⟩
    have hlen1 : (d :: rest).length = rest.length + 1 := by simp
    have hk17 : k ≤ 17 := by omega
    have hpow17 : (10 : Int) ^ k ≤ 10 ^ 17 :=
      pow_le_pow_right (by norm_num) hk17
    have h17 : (10 : Int) ^ 17 = 100000000000000000 := by norm_num
    have hdiv : i64Max / 10 = 922337203685477580 := by decide
    have hmax : i64Max = 9223372036854775807 := rfl
    have hvbound : v ≤ 922337203685477580 := by
      have := lt_of_lt_of_le hvk hpow17
      rw [h17] at this
      omega
    rw [hf, parseUintF]
    simp only [hd]
    rw [if_neg (by omega : ¬ d = 58), if_neg (by simp [hddig]),
      if_neg (by rw [hdiv]; omega : ¬ v > i64Max / 10)]
    show (if v * 10 > i64Max - ((d : Int) - 48) then _ else _) = _
    rw [if_neg (by
        rw [hmax]
        have h1 : (d : Int) - 48 ≤ 9 := by omega
        have h2 : (d : Int) - 48 ≥ 0 := by omega
        omega : ¬ v * 10 > i64Max - ((d : Int) - 48))]
    have hdelim' : B.get? (s + 1 + rest.length) = Option.some 58 := by
      rw [show s + 1 + rest.length = s + (d :: rest).length by simp; omega]
      exact hdelim
    have hrec := ih (s + 1) (k + 1) (v * 10 + ((d : Int) - 48)) hrest halls hdelim'
      (by omega)
      (by
        have hpk : (10 : Int) ^ (k + 1) = 10 * 10 ^ k := by ring
        have h1 : (d : Int) - 48 ≤ 9 := by omega
        omega)
      (by simp only [List.length_cons] at hbudget; omega)
    rw [show f = B.length - (s + 1) by omega, hrec]
    have hval : decValAcc rest (v * 10 + ((d : Int) - 48)).toNat =
        decValAcc (d :: rest) v.toNat := by
      simp only [decValAcc, List.foldl_cons]
      congr 1
      omega
    rw [hval, show s + 1 + rest.length = s + (d :: rest).length by simp; omega]

/-- Completeness of `check_integer` at an arbitrary position: on a
well-formed integer body (optional `'-'`, a nonempty digit run of at most
20 digits, then `'e'`) it succeeds, returning the position of the `'e'`. -/
theorem checkInteger_run_at (B : List Nat) (s : Nat) (neg : Bool)
    (ds : List Nat)
    (hbytes : bytesAt B s ((if neg then [45] else []) ++ ds ++ [101]))
    (hne : ds ≠ []) (hdig : ds.all (fun d => isAsciiDigit d) = true)
    (hlen : ds.length ≤ 20) :
    checkInteger B s = .ok (s + (if neg then 1 else 0) + ds.length) := by
  obtain ⟨d0, rest, rfl⟩ : ∃ d0 rest, ds = d0 :: rest := by
    cases ds with
    | nil => exact absurd rfl hne
    | cons d0 rest => exact ⟨d0, rest, rfl⟩
  have hd0dig : isAsciiDigit d0 = true := by
    simp only [List.all_cons, Bool.and_eq_true] at hdig
    exact hdig.1
  have hd048 : 48 ≤ d0 ∧ d0 ≤ 57 := by
    simpa [isAsciiDigit, Bool.and_eq_true, decide_eq_true_eq] using hd0dig
  cases neg with
  | false =>
    rw [show (if false then [45] else [] : List Nat) = [] from rfl,
      List.nil_append] at hbytes
    rw [show (if false then 1 else 0 : Nat) = 0 from rfl, Nat.add_zero]
    rw [bytesAt_append] at hbytes
    obtain ⟨hds, h101⟩ := hbytes
    rw [bytesAt_cons] at h101
    have h101' : B.get? (s + (d0 :: rest).length) = Option.some 101 := h101.1
    have hd0 : B.get? s = Option.some d0 := (bytesAt_cons B s d0 rest |>.mp hds).1
    have hslt : s < B.length := (List.get?_eq_some.mp hd0).1
    have hscan := chkIntLoop_scan B (d0 :: rest).length s 0
      (bytesAt_digits B s (d0 :: rest) hds hdig) h101'
    rw [checkInteger]
    have hemp : ¬ B.isEmpty = true := by
      intro hc
      rw [List.isEmpty_iff] at hc
      rw [hc] at hslt
      simp at hslt
    have hge : ¬ s ≥ B.length := by omega
    have hne45 : ¬ B.get? s = Option.some 45 := by
      rw [hd0]
      intro hc
      injection hc with hc
      omega
    have hand : ¬ (B.get? s = Option.some 45 ∧ s = B.length) :=
      fun hc => hne45 hc.1
    simp only [if_neg hemp, if_neg hge, if_neg hne45, if_neg hand, hscan,
      Nat.zero_add]
    rw [if_neg (by omega : ¬ (d0 :: rest).length > 20)]
  | true =>
    rw [show (if true then [45] else [] : List Nat) = [45] from rfl] at hbytes
    rw [show (if true then 1 else 0 : Nat) = 1 from rfl]
    rw [show ([45] ++ (d0 :: rest) ++ [101]) = 45 :: ((d0 :: rest) ++ [101])
      by simp] at hbytes
    rw [bytesAt_cons] at hbytes
    obtain ⟨h45, hbody⟩ := hbytes
    rw [bytesAt_append] at hbody
    obtain ⟨hds, h101⟩ := hbody
    rw [bytesAt_cons] at h101
    have h101' : B.get? (s + 1 + (d0 :: rest).length) = Option.some 101 := h101.1
    have hd0 : B.get? (s + 1) = Option.some d0 :=
      (bytesAt_cons B (s + 1) d0 rest |>.mp hds).1
    have hslt : s < B.length := (List.get?_eq_some.mp h45).1
    have hs1lt : s + 1 < B.length := (List.get?_eq_some.mp hd0).1
    have hscan := chkIntLoop_scan B (d0 :: rest).length (s + 1) 0
      (bytesAt_digits B (s + 1) (d0 :: rest) hds hdig) h101'
    rw [checkInteger]
    have hemp : ¬ B.isEmpty = true := by
      intro hc
      rw [List.isEmpty_iff] at hc
      rw [hc] at hslt
      simp at hslt
    have hge : ¬ s ≥ B.length := by omega
    have hand : ¬ (B.get? s = Option.some 45 ∧ s + 1 = B.length) := by
      rintro ⟨-, hc⟩
      omega
    simp only [if_pos h45, if_neg hemp, if_neg hge, if_neg hand, hscan,
      Nat.zero_add]
    rw [if_neg (by omega : ¬ (d0 :: rest).length > 20)]

theorem dictKeyCheckFails_nondict (tokens : List BToken) (f : StackFrame)
    (r : List StackFrame) (t : Nat)
    (h : ¬ (tokens.get? f.token).map BToken.kind = Option.some TokType.dict) :
    dictKeyCheckFails tokens (f :: r) t = false := by
  simp only [dictKeyCheckFails, decide_eq_false h, Bool.false_and]

theorem dictKeyCheckFails_state1 (tokens : List BToken) (f : StackFrame)
    (r : List StackFrame) (t : Nat) (h : f.state ≠ 0) :
    dictKeyCheckFails tokens (f :: r) t = false := by
  simp only [dictKeyCheckFails, decide_eq_false h, Bool.and_false, Bool.false_and]

theorem flipFrame_nondict (tokens : List BToken) (f : StackFrame)
    (r : List StackFrame)
    (h : ¬ (tokens.get? f.token).map BToken.kind = Option.some TokType.dict) :
    flipFrame tokens (f :: r) = f :: r := by
  rw [flipFrame, if_neg h]

theorem flipFrame_dict (tokens : List BToken) (f : StackFrame)
    (r : List StackFrame)
    (h : (tokens.get? f.token).map BToken.kind = Option.some TokType.dict) :
    flipFrame tokens (f :: r) = f.flipState :: r := by
  rw [flipFrame, if_pos h]

theorem flipFrame_ne_nil (tokens : List BToken) (s : List StackFrame)
    (h : s ≠ []) : flipFrame tokens s ≠ [] := by
  cases s with
  | nil => exact absurd rfl h
  | cons f r =>
    rw [flipFrame]
    split <;> simp

theorem flipFrame_congr (T1 T2 : List BToken) (stack : List StackFrame)
    (h : ∀ f r, stack = f :: r → T1.get? f.token = T2.get? f.token) :
    flipFrame T1 stack = flipFrame T2 stack := by
  cases stack with
  | nil => rfl
  | cons f r =>
    rw [flipFrame, flipFrame, h f r rfl]

theorem flipFrame_mem_token (tokens : List BToken) (s : List StackFrame)
    (f : StackFrame) (h : f ∈ flipFrame tokens s) :
    ∃ g ∈ s, f.token = g.token := by
  cases s with
  | nil => simp [flipFrame] at h
  | cons g r =>
    rw [flipFrame] at h
    split at h <;> rcases List.mem_cons.mp h with h | h
    · exact ⟨g, List.mem_cons_self _ _, by rw [h]; rfl⟩
    · exact ⟨f, List.mem_cons_of_mem _ h, rfl⟩
    · exact ⟨g, List.mem_cons_self _ _, by rw [h]⟩
    · exact ⟨f, List.mem_cons_of_mem _ h, rfl⟩

theorem flipState_flipState (f : StackFrame) (h : f.state = 0) :
    f.flipState.flipState = f := by
  cases f with
  | mk tok st =>
    have hst : st = 0 := h
    subst hst
    rfl

/-- One loop iteration on a `'d'` byte, from an arbitrary state: append the
dict token, flip the old top frame, push the new frame. -/
theorem tokenizeLoop_step_dict (B : List Nat) (dl fuel start : Nat)
    (tokens : List BToken) (stack : List StackFrame)
    (hget : B.get? start = Option.some 100)
    (hstart : ¬ start > B.length) (hdepth : ¬ stack.length ≥ dl)
    (hkey : dictKeyCheckFails tokens stack 100 = false) :
    tokenizeLoop B dl (fuel + 1) start tokens stack =
      tokenizeLoop B dl fuel (start + 1) (tokens ++ [BToken.newDict start 0])
        (StackFrame.new tokens.length ::
          flipFrame (tokens ++ [BToken.newDict start 0]) stack) := by
  rw [tokenizeLoop, if_neg hstart, if_neg hdepth]
  simp only [hget]
  rw [if_neg (by rw [hkey]; simp)]
  norm_num

/-- One loop iteration on an `'l'` byte, from an arbitrary state. -/
theorem tokenizeLoop_step_list (B : List Nat) (dl fuel start : Nat)
    (tokens : List BToken) (stack : List StackFrame)
    (hget : B.get? start = Option.some 108)
    (hstart : ¬ start > B.length) (hdepth : ¬ stack.length ≥ dl)
    (hkey : dictKeyCheckFails tokens stack 108 = false) :
    tokenizeLoop B dl (fuel + 1) start tokens stack =
      tokenizeLoop B dl fuel (start + 1) (tokens ++ [BToken.newList start 0])
        (StackFrame.new tokens.length ::
          flipFrame (tokens ++ [BToken.newList start 0]) stack) := by
  rw [tokenizeLoop, if_neg hstart, if_neg hdepth]
  simp only [hget]
  rw [if_neg (by rw [hkey]; simp)]
  norm_num

/-- One loop iteration on an `'i'` byte whose body `check_integer` accepts,
from an arbitrary state: append the int token, flip the old top, and break
if the stack was empty. -/
theorem tokenizeLoop_step_int (B : List Nat) (dl fuel start : Nat)
    (tokens : List BToken) (stack : List StackFrame) (q : Nat)
    (hget : B.get? start = Option.some 105)
    (hstart : ¬ start > B.length) (hdepth : ¬ stack.length ≥ dl)
    (hkey : dictKeyCheckFails tokens stack 105 = false)
    (hchk : checkInteger B (start + 1) = .ok q) :
    tokenizeLoop B dl (fuel + 1) start tokens stack =
      (if flipFrame (tokens ++ [BToken.newInt start]) stack = [] then
        .ok (tokens ++ [BToken.newInt start], q + 1)
      else tokenizeLoop B dl fuel (q + 1) (tokens ++ [BToken.newInt start])
        (flipFrame (tokens ++ [BToken.newInt start]) stack)) := by
  rw [tokenizeLoop, if_neg hstart, if_neg hdepth]
  simp only [hget]
  rw [if_neg (by rw [hkey]; simp)]
  norm_num
  simp only [hchk]

/-- One loop iteration on a well-formed string `lds ++ ":" ++ payload`
(nonempty all-digit length run of at most 7 digits denoting the payload
length), from an arbitrary state: append the string token, flip the old top,
skip the whole string, and break if the stack was empty. -/
theorem tokenizeLoop_step_str (B : List Nat) (dl fuel start : Nat)
    (tokens : List BToken) (stack : List StackFrame)
    (lds payload : List Nat)
    (hbytes : bytesAt B start (lds ++ 58 :: payload))
    (hne : lds ≠ []) (hdig : lds.all (fun d => isAsciiDigit d) = true)
    (hlen7 : lds.length ≤ 7) (hval : decVal lds = payload.length)
    (hstart : ¬ start > B.length) (hdepth : ¬ stack.length ≥ dl)
    (hkey : dictKeyCheckFails tokens stack (lds.headD 0) = false) :
    tokenizeLoop B dl (fuel + 1) start tokens stack =
      (if flipFrame (tokens ++ [BToken.newStr start lds.length]) stack = [] then
        .ok (tokens ++ [BToken.newStr start lds.length],
          start + (lds ++ 58 :: payload).length)
      else tokenizeLoop B dl fuel (start + (lds ++ 58 :: payload).length)
        (tokens ++ [BToken.newStr start lds.length])
        (flipFrame (tokens ++ [BToken.newStr start lds.length]) stack)) := by
  obtain ⟨d0, lds', rfl⟩ : ∃ d0 lds', lds = d0 :: lds' := by
    cases lds with
    | nil => exact absurd rfl hne
    | cons d0 lds' => exact ⟨d0, lds', rfl⟩
  have hwhole := hbytes
  rw [show ((d0 :: lds') ++ 58 :: payload) = d0 :: (lds' ++ 58 :: payload)
    by simp] at hbytes
  rw [bytesAt_cons] at hbytes
  obtain ⟨hd0, hbody⟩ := hbytes
  rw [bytesAt_append] at hbody
  obtain ⟨hlds', hcolon⟩ := hbody
  rw [bytesAt_cons] at hcolon
  obtain ⟨h58, hpay⟩ := hcolon
  simp only [List.all_cons, Bool.and_eq_true] at hdig
  obtain ⟨hd0dig, hdig'⟩ := hdig
  have hd048 : 48 ≤ d0 ∧ d0 ≤ 57 := by
    simpa [isAsciiDigit, Bool.and_eq_true, decide_eq_true_eq] using hd0dig
  have hslt : start < B.length := (List.get?_eq_some.mp hd0).1
  have hcoltLT : start + 1 + lds'.length < B.length :=
    (List.get?_eq_some.mp h58).1
  have hall : start + ((d0 :: lds') ++ 58 :: payload).length ≤ B.length :=
    bytesAt_le B start _ (by simp) hwhole
  have hpu : parseUintF B 58 (B.length - (start + 1)) (start + 1)
      ((d0 : Int) - 48) =
      .ok (start + 1 + lds'.length,
        ((decValAcc lds' ((d0 : Int) - 48).toNat : Nat) : Int)) :=
    parseUintF_run_digits B lds' (start + 1) 1 ((d0 : Int) - 48) hlds' hdig'
      h58 (by omega) (by norm_num; omega)
      (by simp only [List.length_cons] at hlen7; omega)
  have hvalacc : decValAcc lds' ((d0 : Int) - 48).toNat = payload.length := by
    rw [← hval]
    simp only [decVal, decValAcc, List.foldl_cons]
    congr 1
    omega
  rw [tokenizeLoop, if_neg hstart, if_neg hdepth]
  simp only [hd0]
  rw [if_neg (by simp only [List.headD_cons] at hkey; rw [hkey]; simp)]
  rw [if_neg (by omega : ¬ d0 = 100), if_neg (by omega : ¬ d0 = 108),
    if_neg (by omega : ¬ d0 = 105), if_neg (by omega : ¬ d0 = 101),
    if_neg (by simp [hd0dig]),
    if_neg (by omega : ¬ start + 1 ≥ B.length)]
  simp only [parseUint, hpu]
  rw [if_neg (by
      simp only [List.length_append, List.length_cons] at hall
      omega : ¬ start + 1 + lds'.length = B.length)]
  rw [if_neg (by
      rw [hvalacc]
      simp only [List.length_append, List.length_cons] at hall
      omega : ¬ ((decValAcc lds' ((d0 : Int) - 48).toNat : Nat) : Int) >
        (B.length : Int) - ((start + 1 + lds'.length : Nat) : Int) - 1)]
  rw [if_neg (by omega : ¬ start + 1 + lds'.length + 1 > B.length)]
  rw [if_neg (by
      simp only [List.length_cons] at hlen7
      unfold MAX_HEADER_SIZE
      omega : ¬ start + 1 + lds'.length - start > MAX_HEADER_SIZE)]
  rw [show start + 1 + lds'.length - start = (d0 :: lds').length by simp; omega,
    show ((decValAcc lds' ((d0 : Int) - 48).toNat : Nat) : Int).toNat =
      payload.length by rw [hvalacc]; exact Int.toNat_natCast _,
    show start + 1 + lds'.length + 1 + payload.length =
      start + ((d0 :: lds') ++ 58 :: payload).length by simp; omega]

/-- The loop consumes a well-formed value in place: from any state whose
cursor sits on the value's encoding (with a nonempty stack so the loop does
not break inside), it runs `v.tokCount` iterations, appends `v.tokCount`
tokens without disturbing the existing ones, moves the cursor past the
encoding, and flips the parity of the top frame once. -/
def ConsumeProp (B : List Nat) (dl : Nat) (v : BVal) : Prop :=
  ∀ (fuel start : Nat) (tokens : List BToken) (stack : List StackFrame),
    bytesAt B start v.enc →
    dictKeyCheckFails tokens stack (v.enc.headD 0) = false →
    stack ≠ [] →
    stack.length + v.depth < dl →
    v.tokCount ≤ fuel →
    tokens.length ≤ start →
    (∀ f ∈ stack, f.token < tokens.length) →
    ∃ tokens', tokens'.length = tokens.length + v.tokCount ∧
      (∀ i, i < tokens.length → tokens'.get? i = tokens.get? i) ∧
      tokenizeLoop B dl fuel start tokens stack =
        tokenizeLoop B dl (fuel - v.tokCount) (start + v.enc.length) tokens'
          (flipFrame tokens stack)

theorem wf_vint (neg : Bool) (ds : List Nat)
    (h : (BVal.vint neg ds).wf = true) :
    ds ≠ [] ∧ ds.length ≤ 20 ∧ ds.all (fun d => isAsciiDigit d) = true := by
  simp only [BVal.wf, Bool.and_eq_true, decide_eq_true_eq,
    Bool.not_eq_true'] at h
  obtain ⟨⟨h1, h2⟩, h3⟩ := h
  refine ⟨?_, h2, h3⟩
  intro hc
  rw [hc] at h1
  simp at h1

theorem wf_vstr (lds payload : List Nat)
    (h : (BVal.vstr lds payload).wf = true) :
    lds ≠ [] ∧ lds.length ≤ 7 ∧ lds.all (fun d => isAsciiDigit d) = true ∧
      decVal lds = payload.length := by
  simp only [BVal.wf, Bool.and_eq_true, decide_eq_true_eq,
    Bool.not_eq_true'] at h
  obtain ⟨⟨⟨h1, h2⟩, h3⟩, h4⟩ := h
  refine ⟨?_, h2, h3, h4⟩
  intro hc
  rw [hc] at h1
  simp at h1

theorem wfList_mem : ∀ (items : List BVal), wfList items = true →
    ∀ v ∈ items, v.wf = true := by
  intro items
  induction items with
  | nil => intro _ v hv; simp at hv
  | cons w ws ih =>
    intro h v hv
    simp only [wfList, Bool.and_eq_true] at h
    rcases List.mem_cons.mp hv with hv | hv
    · subst hv; exact h.1
    · exact ih h.2 v hv

theorem wfPairs_cons (lds key : List Nat) (v : BVal)
    (ps : List (List Nat × List Nat × BVal))
    (h : wfPairs ((lds, key, v) :: ps) = true) :
    (lds ≠ [] ∧ lds.length ≤ 7 ∧ lds.all (fun d => isAsciiDigit d) = true ∧
      decVal lds = key.length) ∧ v.wf = true ∧ wfPairs ps = true := by
  simp only [wfPairs, Bool.and_eq_true, decide_eq_true_eq,
    Bool.not_eq_true'] at h
  obtain ⟨⟨⟨⟨⟨h1, h2⟩, h3⟩, h4⟩, h5⟩, h6⟩ := h
  refine ⟨⟨?_, h2, h3, h4⟩, h5, h6⟩
  intro hc
  rw [hc] at h1
  simp at h1

theorem wfPairs_mem : ∀ (ps : List (List Nat × List Nat × BVal)),
    wfPairs ps = true → ∀ lds key v, (lds, key, v) ∈ ps → v.wf = true := by
  intro ps
  induction ps with
  | nil => intro _ l k v hv; simp at hv
  | cons q qs ih =>
    obtain ⟨a, b, u⟩ := q
    intro h l k v hv
    obtain ⟨-, hu, hqs⟩ := wfPairs_cons a b u qs h
    rcases List.mem_cons.mp hv with hq | hq
    · injection hq with h1 h2
      injection h2 with h2 h3
      rw [h3]
      exact hu
    · exact ih hqs l k v hq

theorem headD_digit (lds : List Nat) (hne : lds ≠ [])
    (hall : lds.all (fun d => isAsciiDigit d) = true) :
    isAsciiDigit (lds.headD 0) = true := by
  cases lds with
  | nil => exact absurd rfl hne
  | cons d rest =>
    simp only [List.all_cons, Bool.and_eq_true] at hall
    exact hall.1

theorem vstr_enc_headD (lds payload : List Nat) (hne : lds ≠ []) :
    (BVal.vstr lds payload).enc.headD 0 = lds.headD 0 := by
  cases lds with
  | nil => exact absurd rfl hne
  | cons d rest => rfl

theorem flipFrame_length (tokens : List BToken) (s : List StackFrame) :
    (flipFrame tokens s).length = s.length := by
  cases s with
  | nil => rfl
  | cons f r =>
    rw [flipFrame]
    split <;> simp

/-- Sequentially consuming the items of a list whose open frame sits on top
of the stack: the frame is a `List`, so the per-item parity flip is the
identity and the stack is unchanged throughout. -/
theorem bvalConsumeItems (B : List Nat) (dl : Nat) :
    ∀ (items : List BVal), wfList items = true →
      (∀ v ∈ items, ConsumeProp B dl v) →
    ∀ (fuel start : Nat) (tokens : List BToken) (fr : StackFrame)
      (rest : List StackFrame),
      bytesAt B start (encList items) →
      (tokens.get? fr.token).map BToken.kind = Option.some TokType.list →
      (fr :: rest).length + depthList items < dl →
      tokCountList items ≤ fuel →
      tokens.length ≤ start →
      (∀ f ∈ fr :: rest, f.token < tokens.length) →
      ∃ tokens', tokens'.length = tokens.length + tokCountList items ∧
        (∀ i, i < tokens.length → tokens'.get? i = tokens.get? i) ∧
        tokenizeLoop B dl fuel start tokens (fr :: rest) =
          tokenizeLoop B dl (fuel - tokCountList items)
            (start + (encList items).length) tokens' (fr :: rest) := by
  intro items
  induction items with
  | nil =>
    intro _ _ fuel start tokens fr rest _ _ _ _ _ _
    exact ⟨tokens, by simp [tokCountList], fun i _ => rfl, by
      simp [tokCountList, encList]⟩
  | cons v vs ih =>
    intro hwf IH fuel start tokens fr rest hbytes hfr hdl hfuel hts hframes
    simp only [wfList, Bool.and_eq_true] at hwf
    obtain ⟨hwv, hwvs⟩ := hwf
    rw [show encList (v :: vs) = v.enc ++ encList vs from rfl,
      bytesAt_append] at hbytes
    obtain ⟨hbv, hbvs⟩ := hbytes
    have hfr_nondict : ¬ (tokens.get? fr.token).map BToken.kind =
        Option.some TokType.dict := by
      rw [hfr]
      simp
    have hkey : dictKeyCheckFails tokens (fr :: rest) (v.enc.headD 0) = false :=
      dictKeyCheckFails_nondict tokens fr rest _ hfr_nondict
    have htclv : tokCountList (v :: vs) = v.tokCount + tokCountList vs := rfl
    have hdepv : (fr :: rest).length + v.depth < dl := by
      have := depthList_mem v (v :: vs) (List.mem_cons_self _ _)
      omega
    obtain ⟨tokens1, hlen1, hpre1, heq1⟩ := IH v (List.mem_cons_self _ _)
      fuel start tokens (fr :: rest) hbv hkey (by simp) hdepv (by omega) hts
      hframes
    rw [flipFrame_nondict tokens fr rest hfr_nondict] at heq1
    have hfr1 : (tokens1.get? fr.token).map BToken.kind =
        Option.some TokType.list := by
      rw [hpre1 fr.token (hframes fr (List.mem_cons_self _ _))]
      exact hfr
    have hts1 : tokens1.length ≤ start + v.enc.length := by
      have := tokCount_le_enc v
      omega
    have hframes1 : ∀ f ∈ fr :: rest, f.token < tokens1.length := by
      intro f hf
      have := hframes f hf
      omega
    have hdlist : depthList (v :: vs) = max v.depth (depthList vs) := rfl
    have hdl1 : (fr :: rest).length + depthList vs < dl := by
      have := Nat.le_max_right v.depth (depthList vs)
      omega
    obtain ⟨tokens2, hlen2, hpre2, heq2⟩ := ih hwvs
      (fun w hw => IH w (List.mem_cons_of_mem _ hw)) (fuel - v.tokCount)
      (start + v.enc.length) tokens1 fr rest hbvs hfr1 hdl1 (by omega) hts1
      hframes1
    refine ⟨tokens2, by omega, ?_, ?_⟩
    · intro i hi
      rw [hpre2 i (by omega), hpre1 i hi]
    · have hfuelArith : fuel - v.tokCount - tokCountList vs =
          fuel - tokCountList (v :: vs) := by omega
      have hcurArith : start + v.enc.length + (encList vs).length =
          start + (encList (v :: vs)).length := by
        rw [show encList (v :: vs) = v.enc ++ encList vs from rfl]
        simp only [List.length_append]
        omega
      rw [heq1, heq2, hfuelArith, hcurArith]

/-- Sequentially consuming the key/value pairs of a dict whose open frame
sits on top of the stack: the frame's parity is flipped by the key and
flipped back by the value, so each pair leaves the stack unchanged, and the
expecting-key pre-check is satisfied because every key starts with a digit
and every value is parsed in the expecting-value state. -/
theorem bvalConsumePairs (B : List Nat) (dl : Nat) :
    ∀ (ps : List (List Nat × List Nat × BVal)), wfPairs ps = true →
      (∀ lds key v, (lds, key, v) ∈ ps → ConsumeProp B dl v) →
    ∀ (fuel start : Nat) (tokens : List BToken) (fr : StackFrame)
      (rest : List StackFrame),
      bytesAt B start (encPairs ps) →
      (tokens.get? fr.token).map BToken.kind = Option.some TokType.dict →
      fr.state = 0 →
      (fr :: rest).length + depthPairs ps < dl →
      tokCountPairs ps ≤ fuel →
      tokens.length ≤ start →
      (∀ f ∈ fr :: rest, f.token < tokens.length) →
      ∃ tokens', tokens'.length = tokens.length + tokCountPairs ps ∧
        (∀ i, i < tokens.length → tokens'.get? i = tokens.get? i) ∧
        tokenizeLoop B dl fuel start tokens (fr :: rest) =
          tokenizeLoop B dl (fuel - tokCountPairs ps)
            (start + (encPairs ps).length) tokens' (fr :: rest) := by
  intro ps
  induction ps with
  | nil =>
    intro _ _ fuel start tokens fr rest _ _ _ _ _ _ _
    exact ⟨tokens, by simp [tokCountPairs], fun i _ => rfl, by
      simp [tokCountPairs, encPairs]⟩
  | cons p ps ih =>
    obtain ⟨lds, key, v⟩ := p
    intro hwf IH fuel start tokens fr rest hbytes hfr hstate hdl hfuel hts
      hframes
    obtain ⟨⟨hlne, hl7, hldig, hlval⟩, hwv, hwps⟩ := wfPairs_cons lds key v ps hwf
    have htcp : tokCountPairs ((lds, key, v) :: ps) =
        1 + v.tokCount + tokCountPairs ps := rfl
    rw [show encPairs ((lds, key, v) :: ps) =
      ((lds ++ 58 :: key) ++ v.enc) ++ encPairs ps from rfl,
      bytesAt_append, bytesAt_append] at hbytes
    obtain ⟨⟨hbkey, hbv⟩, hbps⟩ := hbytes
    obtain ⟨f, hf⟩ : ∃ f, fuel = f + 1 := ⟨fuel - 1, by omega⟩
    subst hf
    have hstep1 := tokenizeLoop_step_str B dl f start tokens (fr :: rest) lds
      key hbkey hlne hldig hl7 hlval
      (by
        have := bytesAt_le B start _ (by simp) hbkey
        omega)
      (by simp only [List.length_cons] at hdl ⊢; omega)
      (dictKeyCheckFails_digit tokens (fr :: rest) _
        (headD_digit lds hlne hldig))
    set T1 := tokens ++ [BToken.newStr start lds.length] with hT1
    have hT1len : T1.length = tokens.length + 1 := by rw [hT1]; simp
    have hfrlt : fr.token < tokens.length := hframes fr (List.mem_cons_self _ _)
    have hfrT1 : (T1.get? fr.token).map BToken.kind =
        Option.some TokType.dict := by
      rw [hT1, List.get?_append hfrlt]
      exact hfr
    have hflip1 : flipFrame T1 (fr :: rest) = fr.flipState :: rest :=
      flipFrame_dict T1 fr rest hfrT1
    rw [hflip1] at hstep1
    rw [if_neg (by simp : ¬ (fr.flipState :: rest) = [])] at hstep1
    have hcp := IH lds key v (List.mem_cons_self _ _)
    have hkeyv : dictKeyCheckFails T1 (fr.flipState :: rest)
        (v.enc.headD 0) = false :=
      dictKeyCheckFails_state1 T1 _ rest _
        (by simp [StackFrame.flipState, hstate])
    have hdepv : (fr.flipState :: rest).length + v.depth < dl := by
      have := depthPairs_mem lds key v ((lds, key, v) :: ps)
        (List.mem_cons_self _ _)
      simp only [List.length_cons] at hdl ⊢
      omega
    have hkeylen : (lds ++ 58 :: key).length = lds.length + 1 + key.length := by
      simp only [List.length_append, List.length_cons]
      omega
    have htsv : T1.length ≤ start + (lds ++ 58 :: key).length := by
      have hpos : 0 < lds.length := List.length_pos.mpr hlne
      omega
    have hframesv : ∀ g ∈ fr.flipState :: rest, g.token < T1.length := by
      intro g hg
      rcases List.mem_cons.mp hg with hg | hg
      · subst hg
        show fr.token < T1.length
        omega
      · have := hframes g (List.mem_cons_of_mem _ hg)
        omega
    obtain ⟨T2, hlen2, hpre2, heq2⟩ := hcp f (start + (lds ++ 58 :: key).length)
      T1 (fr.flipState :: rest) hbv hkeyv (by simp) hdepv (by omega) htsv
      hframesv
    have hfrT1' : (T1.get? fr.flipState.token).map BToken.kind =
        Option.some TokType.dict := hfrT1
    have hflip2 : flipFrame T1 (fr.flipState :: rest) = fr :: rest := by
      rw [flipFrame_dict T1 fr.flipState rest hfrT1',
        flipState_flipState fr hstate]
    rw [hflip2] at heq2
    have hfr2 : (T2.get? fr.token).map BToken.kind =
        Option.some TokType.dict := by
      rw [hpre2 fr.token (by omega)]
      exact hfrT1
    have hts2 : T2.length ≤ start + (lds ++ 58 :: key).length + v.enc.length := by
      have := tokCount_le_enc v
      omega
    have hframes2 : ∀ g ∈ fr :: rest, g.token < T2.length := by
      intro g hg
      have := hframes g hg
      omega
    have hdlps : (fr :: rest).length + depthPairs ps < dl := by
      have hdp : depthPairs ((lds, key, v) :: ps) =
          max v.depth (depthPairs ps) := rfl
      have := Nat.le_max_right v.depth (depthPairs ps)
      omega
    have hbps' : bytesAt B (start + (lds ++ 58 :: key).length + v.enc.length)
        (encPairs ps) := by
      rw [show start + (lds ++ 58 :: key).length + v.enc.length =
        start + ((lds ++ 58 :: key) ++ v.enc).length by
          simp only [List.length_append]; omega]
      exact hbps
    obtain ⟨T3, hlen3, hpre3, heq3⟩ := ih hwps
      (fun l k w hw => IH l k w (List.mem_cons_of_mem _ hw)) (f - v.tokCount)
      (start + (lds ++ 58 :: key).length + v.enc.length) T2 fr rest hbps' hfr2
      hstate hdlps (by omega) hts2 hframes2
    refine ⟨T3, by omega, ?_, ?_⟩
    · intro i hi
      rw [hpre3 i (by omega), hpre2 i (by omega), hT1, List.get?_append hi]
    · rw [hstep1, heq2, heq3]
      have hfA : f - v.tokCount - tokCountPairs ps =
          (f + 1) - tokCountPairs ((lds, key, v) :: ps) := by omega
      have hcA : start + (lds ++ 58 :: key).length + v.enc.length +
          (encPairs ps).length =
          start + (encPairs ((lds, key, v) :: ps)).length := by
        rw [show encPairs ((lds, key, v) :: ps) =
          ((lds ++ 58 :: key) ++ v.enc) ++ encPairs ps from rfl]
        simp only [List.length_append]
        omega
      rw [hfA, hcA]

/-- Completeness of the tokenizer over well-formed values: the loop consumes
any well-formed value in place (strong induction on the value's size). -/
theorem bvalConsume (B : List Nat) (dl : Nat)
    (hblen : B.length ≤ BUFFER_MAX_OFFSET) :
    ∀ (n : Nat) (v : BVal), sizeOf v ≤ n → v.wf = true → ConsumeProp B dl v := by
  intro n
  induction n with
  | zero =>
    intro v hsz
    exfalso
    cases v <;> simp [BVal.vint.sizeOf_spec, BVal.vstr.sizeOf_spec,
      BVal.vlist.sizeOf_spec, BVal.vdict.sizeOf_spec] at hsz <;> omega
  | succ n ihn =>
    intro v hsz hwf
    cases v with
    | vint neg ds =>
      intro fuel start tokens stack hbytes hkey hsne hdl hfuel hts hframes
      obtain ⟨hne, h20, hall⟩ := wf_vint neg ds hwf
      have henc : (BVal.vint neg ds).enc =
          105 :: ((if neg then [45] else []) ++ ds ++ [101]) := rfl
      rw [henc, bytesAt_cons] at hbytes
      obtain ⟨h105, hbody⟩ := hbytes
      have hchk := checkInteger_run_at B (start + 1) neg ds hbody hne hall h20
      have hslt : start < B.length := (List.get?_eq_some.mp h105).1
      have htc : (BVal.vint neg ds).tokCount = 1 := rfl
      have hdep : (BVal.vint neg ds).depth = 0 := rfl
      obtain ⟨f, hf⟩ : ∃ f, fuel = f + 1 := ⟨fuel - 1, by omega⟩
      subst hf
      have hstep := tokenizeLoop_step_int B dl f start tokens stack _ h105
        (by omega) (by omega) hkey hchk
      rw [hstep, if_neg (flipFrame_ne_nil _ _ hsne)]
      refine ⟨tokens ++ [BToken.newInt start], by simp [htc], ?_, ?_⟩
      · intro i hi
        rw [List.get?_append hi]
      · have hflipEq : flipFrame (tokens ++ [BToken.newInt start]) stack =
            flipFrame tokens stack :=
          flipFrame_congr _ _ stack (fun g r hs => by
            rw [List.get?_append
              (hframes g (by rw [hs]; exact List.mem_cons_self _ _))])
        rw [hflipEq]
        have hq : start + 1 + (if neg then 1 else 0) + ds.length + 1 =
            start + (BVal.vint neg ds).enc.length := by
          cases neg <;> simp [BVal.enc] <;> omega
        rw [hq, show f + 1 - (BVal.vint neg ds).tokCount = f by rw [htc]; omega]
    | vstr lds payload =>
      intro fuel start tokens stack hbytes hkey hsne hdl hfuel hts hframes
      obtain ⟨hne, h7, hall, hval⟩ := wf_vstr lds payload hwf
      have henc : (BVal.vstr lds payload).enc = lds ++ 58 :: payload := rfl
      rw [henc] at hbytes
      obtain ⟨f, hf⟩ : ∃ f, fuel = f + 1 :=
        ⟨fuel - 1, by
          have : (BVal.vstr lds payload).tokCount = 1 := rfl
          omega⟩
      subst hf
      have hstep := tokenizeLoop_step_str B dl f start tokens stack lds payload
        hbytes hne hall h7 hval
        (by
          have := bytesAt_le B start _ (by simp) hbytes
          omega)
        (by
          have : (BVal.vstr lds payload).depth = 0 := rfl
          omega)
        (by rw [← vstr_enc_headD lds payload hne]; exact hkey)
      rw [hstep, if_neg (flipFrame_ne_nil _ _ hsne)]
      refine ⟨tokens ++ [BToken.newStr start lds.length],
        by simp [show (BVal.vstr lds payload).tokCount = 1 from rfl], ?_, ?_⟩
      · intro i hi
        rw [List.get?_append hi]
      · have hflipEq : flipFrame (tokens ++ [BToken.newStr start lds.length])
            stack = flipFrame tokens stack :=
          flipFrame_congr _ _ stack (fun g r hs => by
            rw [List.get?_append
              (hframes g (by rw [hs]; exact List.mem_cons_self _ _))])
        rw [hflipEq,
          show f + 1 - (BVal.vstr lds payload).tokCount = f by
            rw [show (BVal.vstr lds payload).tokCount = 1 from rfl]; omega,
          ← henc]
    | vlist items =>
      intro fuel start tokens stack hbytes hkey hsne hdl hfuel hts hframes
      have hwfl : wfList items = true := hwf
      have henc : (BVal.vlist items).enc = 108 :: (encList items ++ [101]) := rfl
      rw [henc, bytesAt_cons] at hbytes
      obtain ⟨h108, hbody⟩ := hbytes
      rw [bytesAt_append] at hbody
      obtain ⟨hbitems, hbe⟩ := hbody
      rw [bytesAt_cons] at hbe
      obtain ⟨h101, -⟩ := hbe
      have hslt : start < B.length := (List.get?_eq_some.mp h108).1
      have helt : start + 1 + (encList items).length < B.length :=
        (List.get?_eq_some.mp h101).1
      have htc : (BVal.vlist items).tokCount = 2 + tokCountList items := rfl
      have hdep : (BVal.vlist items).depth = 1 + depthList items := rfl
      obtain ⟨f, hf⟩ : ∃ f, fuel = f + 1 := ⟨fuel - 1, by omega⟩
      subst hf
      have hstep := tokenizeLoop_step_list B dl f start tokens stack h108
        (by omega) (by omega) hkey
      set T1 := tokens ++ [BToken.newList start 0] with hT1
      have hT1len : T1.length = tokens.length + 1 := by rw [hT1]; simp
      have hmask : (StackFrame.new tokens.length).token = tokens.length := by
        simp only [StackFrame.new]
        apply Nat.mod_eq_of_lt
        unfold BUFFER_MAX_OFFSET at hblen
        omega
      have hlookup : (T1.get? (StackFrame.new tokens.length).token).map
          BToken.kind = Option.some TokType.list := by
        rw [hmask, hT1, List.get?_concat_length]
        rfl
      have IHmem : ∀ w ∈ items, ConsumeProp B dl w := by
        intro w hw
        refine ihn w ?_ (wfList_mem items hwfl w hw)
        have h1 := List.sizeOf_lt_of_mem hw
        have h2 : sizeOf (BVal.vlist items) = 1 + sizeOf items := by
          simp [BVal.vlist.sizeOf_spec]
        omega
      have hframes1 : ∀ g ∈ StackFrame.new tokens.length :: flipFrame T1 stack,
          g.token < T1.length := by
        intro g hg
        rcases List.mem_cons.mp hg with hg | hg
        · subst hg
          rw [hmask]
          omega
        · obtain ⟨g0, hg0, hgt⟩ := flipFrame_mem_token T1 stack g hg
          have := hframes g0 hg0
          rw [hgt]
          omega
      have hflen : (flipFrame T1 stack).length = stack.length :=
        flipFrame_length T1 stack
      obtain ⟨T2, hlen2, hpre2, heq2⟩ := bvalConsumeItems B dl items hwfl IHmem
        f (start + 1) T1 (StackFrame.new tokens.length) (flipFrame T1 stack)
        hbitems hlookup
        (by simp only [List.length_cons]; rw [hflen]; omega)
        (by omega) (by omega) hframes1
      obtain ⟨g, hg⟩ : ∃ g, f - tokCountList items = g + 1 :=
        ⟨f - tokCountList items - 1, by omega⟩
      have htcl := tokCountList_le_enc items
      have hval2 : ¬ ((T2.get? (StackFrame.new tokens.length).token).map
          BToken.kind = Option.some TokType.dict ∧
          (StackFrame.new tokens.length).state = 1) := by
        rintro ⟨hc, -⟩
        rw [hpre2 _ (by rw [hmask]; omega), hlookup] at hc
        simp at hc
      have htk2 : (T2 ++ [BToken.newEnd (start + 1 + (encList items).length)]).get?
          (StackFrame.new tokens.length).token =
          Option.some (BToken.newList start 0) := by
        rw [hmask, List.get?_append (by omega : tokens.length < T2.length),
          hpre2 tokens.length (by omega), hT1, List.get?_concat_length]
      have hmax2 : ¬ T2.length + 1 - (StackFrame.new tokens.length).token >
          MAX_NEXT_ITEM := by
        rw [hmask]
        unfold MAX_NEXT_ITEM
        unfold BUFFER_MAX_OFFSET at hblen
        omega
      have hdepth2 : ¬ (StackFrame.new tokens.length ::
          flipFrame T1 stack).length ≥ dl := by
        simp only [List.length_cons]
        rw [hflen]
        omega
      have hpop := tokenizeLoop_pop B dl g (start + 1 + (encList items).length)
        T2 (StackFrame.new tokens.length) (flipFrame T1 stack)
        (BToken.newList start 0) h101 (by omega) hdepth2 hval2 htk2 hmax2
      have hfne : flipFrame T1 stack ≠ [] := flipFrame_ne_nil T1 stack hsne
      rw [if_neg hfne] at hpop
      refine ⟨(T2 ++ [BToken.newEnd (start + 1 + (encList items).length)]).set
        (StackFrame.new tokens.length).token
        ((BToken.newList start 0).setNextItem
          (T2.length + 1 - (StackFrame.new tokens.length).token)), ?_, ?_, ?_⟩
      · rw [List.length_set, List.length_append, List.length_singleton, htc]
        omega
      · intro i hi
        rw [List.get?_set_ne _ _ (by rw [hmask]; omega),
          List.get?_append (by omega), hpre2 i (by omega), hT1,
          List.get?_append hi]
      · rw [hstep, heq2, hg, hpop]
        have hflipEq : flipFrame T1 stack = flipFrame tokens stack :=
          flipFrame_congr T1 tokens stack (fun fr r hs => by
            rw [hT1, List.get?_append
              (hframes fr (by rw [hs]; exact List.mem_cons_self _ _))])
        have hfuelA : g = (f + 1) - (BVal.vlist items).tokCount := by
          rw [htc]
          omega
        have hcurA : start + 1 + (encList items).length + 1 =
            start + (BVal.vlist items).enc.length := by
          rw [henc]
          simp only [List.length_cons, List.length_append, List.length_nil]
          omega
        rw [hflipEq, hfuelA, hcurA]
    | vdict pairs =>
      intro fuel start tokens stack hbytes hkey hsne hdl hfuel hts hframes
      have hwfp : wfPairs pairs = true := hwf
      have henc : (BVal.vdict pairs).enc = 100 :: (encPairs pairs ++ [101]) := rfl
      rw [henc, bytesAt_cons] at hbytes
      obtain ⟨h100, hbody⟩ := hbytes
      rw [bytesAt_append] at hbody
      obtain ⟨hbpairs, hbe⟩ := hbody
      rw [bytesAt_cons] at hbe
      obtain ⟨h101, -⟩ := hbe
      have hslt : start < B.length := (List.get?_eq_some.mp h100).1
      have helt : start + 1 + (encPairs pairs).length < B.length :=
        (List.get?_eq_some.mp h101).1
      have htc : (BVal.vdict pairs).tokCount = 2 + tokCountPairs pairs := rfl
      have hdep : (BVal.vdict pairs).depth = 1 + depthPairs pairs := rfl
      obtain ⟨f, hf⟩ : ∃ f, fuel = f + 1 := ⟨fuel - 1, by omega⟩
      subst hf
      have hstep := tokenizeLoop_step_dict B dl f start tokens stack h100
        (by omega) (by omega) hkey
      set T1 := tokens ++ [BToken.newDict start 0] with hT1
      have hT1len : T1.length = tokens.length + 1 := by rw [hT1]; simp
      have hmask : (StackFrame.new tokens.length).token = tokens.length := by
        simp only [StackFrame.new]
        apply Nat.mod_eq_of_lt
        unfold BUFFER_MAX_OFFSET at hblen
        omega
      have hlookup : (T1.get? (StackFrame.new tokens.length).token).map
          BToken.kind = Option.some TokType.dict := by
        rw [hmask, hT1, List.get?_concat_length]
        rfl
      have IHmem : ∀ lds key w, (lds, key, w) ∈ pairs → ConsumeProp B dl w := by
        intro lds key w hw
        have hwfw : w.wf = true := wfPairs_mem pairs hwfp lds key w hw
        refine ihn w ?_ hwfw
        have h1 := List.sizeOf_lt_of_mem hw
        have h2 : sizeOf (BVal.vdict pairs) = 1 + sizeOf pairs := by
          simp [BVal.vdict.sizeOf_spec]
        simp only [Prod.mk.sizeOf_spec] at h1
        omega
      have hframes1 : ∀ g ∈ StackFrame.new tokens.length :: flipFrame T1 stack,
          g.token < T1.length := by
        intro g hg
        rcases List.mem_cons.mp hg with hg | hg
        · subst hg
          rw [hmask]
          omega
        · obtain ⟨g0, hg0, hgt⟩ := flipFrame_mem_token T1 stack g hg
          have := hframes g0 hg0
          rw [hgt]
          omega
      have hflen : (flipFrame T1 stack).length = stack.length :=
        flipFrame_length T1 stack
      obtain ⟨T2, hlen2, hpre2, heq2⟩ := bvalConsumePairs B dl pairs hwfp IHmem
        f (start + 1) T1 (StackFrame.new tokens.length) (flipFrame T1 stack)
        hbpairs hlookup rfl
        (by simp only [List.length_cons]; rw [hflen]; omega)
        (by omega) (by omega) hframes1
      obtain ⟨g, hg⟩ : ∃ g, f - tokCountPairs pairs = g + 1 :=
        ⟨f - tokCountPairs pairs - 1, by omega⟩
      have htcp := tokCountPairs_le_enc pairs
      have hval2 : ¬ ((T2.get? (StackFrame.new tokens.length).token).map
          BToken.kind = Option.some TokType.dict ∧
          (StackFrame.new tokens.length).state = 1) := by
        rintro ⟨-, hc⟩
        rw [show (StackFrame.new tokens.length).state = 0 from rfl] at hc
        cases hc
      have htk2 : (T2 ++ [BToken.newEnd (start + 1 + (encPairs pairs).length)]).get?
          (StackFrame.new tokens.length).token =
          Option.some (BToken.newDict start 0) := by
        rw [hmask, List.get?_append (by omega : tokens.length < T2.length),
          hpre2 tokens.length (by omega), hT1, List.get?_concat_length]
      have hmax2 : ¬ T2.length + 1 - (StackFrame.new tokens.length).token >
          MAX_NEXT_ITEM := by
        rw [hmask]
        unfold MAX_NEXT_ITEM
        unfold BUFFER_MAX_OFFSET at hblen
        omega
      have hdepth2 : ¬ (StackFrame.new tokens.length ::
          flipFrame T1 stack).length ≥ dl := by
        simp only [List.length_cons]
        rw [hflen]
        omega
      have hpop := tokenizeLoop_pop B dl g (start + 1 + (encPairs pairs).length)
        T2 (StackFrame.new tokens.length) (flipFrame T1 stack)
        (BToken.newDict start 0) h101 (by omega) hdepth2 hval2 htk2 hmax2
      have hfne : flipFrame T1 stack ≠ [] := flipFrame_ne_nil T1 stack hsne
      rw [if_neg hfne] at hpop
      refine ⟨(T2 ++ [BToken.newEnd (start + 1 + (encPairs pairs).length)]).set
        (StackFrame.new tokens.length).token
        ((BToken.newDict start 0).setNextItem
          (T2.length + 1 - (StackFrame.new tokens.length).token)), ?_, ?_, ?_⟩
      · rw [List.length_set, List.length_append, List.length_singleton, htc]
        omega
      · intro i hi
        rw [List.get?_set_ne _ _ (by rw [hmask]; omega),
          List.get?_append (by omega), hpre2 i (by omega), hT1,
          List.get?_append hi]
      · rw [hstep, heq2, hg, hpop]
        have hflipEq : flipFrame T1 stack = flipFrame tokens stack :=
          flipFrame_congr T1 tokens stack (fun fr r hs => by
            rw [hT1, List.get?_append
              (hframes fr (by rw [hs]; exact List.mem_cons_self _ _))])
        have hfuelA : g = (f + 1) - (BVal.vdict pairs).tokCount := by
          rw [htc]
          omega
        have hcurA : start + 1 + (encPairs pairs).length + 1 =
            start + (BVal.vdict pairs).enc.length := by
          rw [henc]
          simp only [List.length_cons, List.length_append, List.length_nil]
          omega
        rw [hflipEq, hfuelA, hcurA]

/-- The loop, started on a well-formed value that would push the stack to
the depth limit, fails with `DepthExceeded`. -/
def ConsumeFailProp (B : List Nat) (dl : Nat) (v : BVal) : Prop :=
  ∀ (fuel start : Nat) (tokens : List BToken) (stack : List StackFrame),
    bytesAt B start v.enc →
    dictKeyCheckFails tokens stack (v.enc.headD 0) = false →
    dl ≤ stack.length + v.depth →
    v.tokCount ≤ fuel →
    tokens.length ≤ start →
    (∀ f ∈ stack, f.token < tokens.length) →
    tokenizeLoop B dl fuel start tokens stack = .error (.depthExceeded dl)

/-- If some item of a list being parsed is too deep, the loop fails with
`DepthExceeded` while walking the items (the shallow items before it are
consumed normally). -/
theorem bvalConsumeItemsFail (B : List Nat) (dl : Nat)
    (hblen : B.length ≤ BUFFER_MAX_OFFSET) :
    ∀ (items : List BVal), wfList items = true →
      (∀ v ∈ items, v.wf = true → ConsumeFailProp B dl v) →
    ∀ (fuel start : Nat) (tokens : List BToken) (fr : StackFrame)
      (rest : List StackFrame),
      bytesAt B start (encList items) →
      (tokens.get? fr.token).map BToken.kind = Option.some TokType.list →
      (∃ v ∈ items, dl ≤ (fr :: rest).length + v.depth) →
      tokCountList items ≤ fuel →
      tokens.length ≤ start →
      (∀ f ∈ fr :: rest, f.token < tokens.length) →
      tokenizeLoop B dl fuel start tokens (fr :: rest) =
        .error (.depthExceeded dl) := by
  intro items
  induction items with
  | nil =>
    intro _ _ fuel start tokens fr rest _ _ hdeep _ _ _
    obtain ⟨v, hv, -⟩ := hdeep
    simp at hv
  | cons v vs ih =>
    intro hwf IHf fuel start tokens fr rest hbytes hfr hdeep hfuel hts hframes
    simp only [wfList, Bool.and_eq_true] at hwf
    obtain ⟨hwv, hwvs⟩ := hwf
    rw [show encList (v :: vs) = v.enc ++ encList vs from rfl,
      bytesAt_append] at hbytes
    obtain ⟨hbv, hbvs⟩ := hbytes
    have hfr_nondict : ¬ (tokens.get? fr.token).map BToken.kind =
        Option.some TokType.dict := by
      rw [hfr]
      simp
    have hkey : dictKeyCheckFails tokens (fr :: rest) (v.enc.headD 0) = false :=
      dictKeyCheckFails_nondict tokens fr rest _ hfr_nondict
    have htclv : tokCountList (v :: vs) = v.tokCount + tokCountList vs := rfl
    by_cases hv : dl ≤ (fr :: rest).length + v.depth
    · exact IHf v (List.mem_cons_self _ _) hwv fuel start tokens (fr :: rest)
        hbv hkey hv (by omega) hts hframes
    · push_neg at hv
      obtain ⟨T1, hlen1, hpre1, heq1⟩ := bvalConsume B dl hblen (sizeOf v) v
        (le_refl _) hwv fuel start tokens (fr :: rest) hbv hkey (by simp) hv
        (by omega) hts hframes
      rw [flipFrame_nondict tokens fr rest hfr_nondict] at heq1
      rw [heq1]
      obtain ⟨w, hwmem, hwdeep⟩ := hdeep
      have hwvs_mem : w ∈ vs := by
        rcases List.mem_cons.mp hwmem with hq | hq
        · subst hq
          omega
        · exact hq
      have hfr1 : (T1.get? fr.token).map BToken.kind =
          Option.some TokType.list := by
        rw [hpre1 fr.token (hframes fr (List.mem_cons_self _ _))]
        exact hfr
      have hts1 : T1.length ≤ start + v.enc.length := by
        have := tokCount_le_enc v
        omega
      have hframes1 : ∀ g ∈ fr :: rest, g.token < T1.length := by
        intro g hg
        have := hframes g hg
        omega
      exact ih hwvs (fun u hu hwu => IHf u (List.mem_cons_of_mem _ hu) hwu)
        (fuel - v.tokCount) (start + v.enc.length) T1 fr rest hbvs hfr1
        ⟨w, hwvs_mem, hwdeep⟩ (by omega) hts1 hframes1

/-- If some value of a dict being parsed is too deep, the loop fails with
`DepthExceeded` while walking the pairs (keys and shallow values are
consumed normally). -/
theorem bvalConsumePairsFail (B : List Nat) (dl : Nat)
    (hblen : B.length ≤ BUFFER_MAX_OFFSET) :
    ∀ (ps : List (List Nat × List Nat × BVal)), wfPairs ps = true →
      (∀ lds key v, (lds, key, v) ∈ ps → v.wf = true →
        ConsumeFailProp B dl v) →
    ∀ (fuel start : Nat) (tokens : List BToken) (fr : StackFrame)
      (rest : List StackFrame),
      bytesAt B start (encPairs ps) →
      (tokens.get? fr.token).map BToken.kind = Option.some TokType.dict →
      fr.state = 0 →
      (∃ lds key v, (lds, key, v) ∈ ps ∧ dl ≤ (fr :: rest).length + v.depth) →
      (fr :: rest).length < dl →
      tokCountPairs ps ≤ fuel →
      tokens.length ≤ start →
      (∀ f ∈ fr :: rest, f.token < tokens.length) →
      tokenizeLoop B dl fuel start tokens (fr :: rest) =
        .error (.depthExceeded dl) := by
  intro ps
  induction ps with
  | nil =>
    intro _ _ fuel start tokens fr rest _ _ _ hdeep _ _ _ _
    obtain ⟨l, k, v, hv, -⟩ := hdeep
    simp at hv
  | cons p ps ih =>
    obtain ⟨lds, key, v⟩ := p
    intro hwf IHf fuel start tokens fr rest hbytes hfr hstate hdeep hklt hfuel
      hts hframes
    obtain ⟨⟨hlne, hl7, hldig, hlval⟩, hwv, hwps⟩ := wfPairs_cons lds key v ps hwf
    have htcp : tokCountPairs ((lds, key, v) :: ps) =
        1 + v.tokCount + tokCountPairs ps := rfl
    rw [show encPairs ((lds, key, v) :: ps) =
      ((lds ++ 58 :: key) ++ v.enc) ++ encPairs ps from rfl,
      bytesAt_append, bytesAt_append] at hbytes
    obtain ⟨⟨hbkey, hbv⟩, hbps⟩ := hbytes
    obtain ⟨f, hf⟩ : ∃ f, fuel = f + 1 := ⟨fuel - 1, by omega⟩
    subst hf
    have hstep1 := tokenizeLoop_step_str B dl f start tokens (fr :: rest) lds
      key hbkey hlne hldig hl7 hlval
      (by
        have := bytesAt_le B start _ (by simp) hbkey
        omega)
      (by omega)
      (dictKeyCheckFails_digit tokens (fr :: rest) _
        (headD_digit lds hlne hldig))
    set T1 := tokens ++ [BToken.newStr start lds.length] with hT1
    have hT1len : T1.length = tokens.length + 1 := by rw [hT1]; simp
    have hfrlt : fr.token < tokens.length := hframes fr (List.mem_cons_self _ _)
    have hfrT1 : (T1.get? fr.token).map BToken.kind =
        Option.some TokType.dict := by
      rw [hT1, List.get?_append hfrlt]
      exact hfr
    have hflip1 : flipFrame T1 (fr :: rest) = fr.flipState :: rest :=
      flipFrame_dict T1 fr rest hfrT1
    rw [hflip1] at hstep1
    rw [if_neg (by simp : ¬ (fr.flipState :: rest) = [])] at hstep1
    have hkeyv : dictKeyCheckFails T1 (fr.flipState :: rest)
        (v.enc.headD 0) = false :=
      dictKeyCheckFails_state1 T1 _ rest _
        (by simp [StackFrame.flipState, hstate])
    have hkeylen : (lds ++ 58 :: key).length = lds.length + 1 + key.length := by
      simp only [List.length_append, List.length_cons]
      omega
    have htsv : T1.length ≤ start + (lds ++ 58 :: key).length := by
      have hpos : 0 < lds.length := List.length_pos.mpr hlne
      omega
    have hframesv : ∀ g ∈ fr.flipState :: rest, g.token < T1.length := by
      intro g hg
      rcases List.mem_cons.mp hg with hg | hg
      · subst hg
        show fr.token < T1.length
        omega
      · have := hframes g (List.mem_cons_of_mem _ hg)
        omega
    by_cases hv : dl ≤ (fr :: rest).length + v.depth
    · rw [hstep1]
      exact IHf lds key v (List.mem_cons_self _ _) hwv f
        (start + (lds ++ 58 :: key).length) T1 (fr.flipState :: rest) hbv hkeyv
        (by simpa using hv) (by omega) htsv hframesv
    · push_neg at hv
      obtain ⟨T2, hlen2, hpre2, heq2⟩ := bvalConsume B dl hblen (sizeOf v) v
        (le_refl _) hwv f (start + (lds ++ 58 :: key).length) T1
        (fr.flipState :: rest) hbv hkeyv (by simp) (by simpa using hv)
        (by omega) htsv hframesv
      have hfrT1' : (T1.get? fr.flipState.token).map BToken.kind =
          Option.some TokType.dict := hfrT1
      have hflip2 : flipFrame T1 (fr.flipState :: rest) = fr :: rest := by
        rw [flipFrame_dict T1 fr.flipState rest hfrT1',
          flipState_flipState fr hstate]
      rw [hflip2] at heq2
      rw [hstep1, heq2]
      obtain ⟨l, k, w, hwmem, hwdeep⟩ := hdeep
      have hwps_mem : (l, k, w) ∈ ps := by
        rcases List.mem_cons.mp hwmem with hq | hq
        · injection hq with h1 h2
          injection h2 with h2 h3
          rw [h3] at hwdeep
          omega
        · exact hq
      have hfr2 : (T2.get? fr.token).map BToken.kind =
          Option.some TokType.dict := by
        rw [hpre2 fr.token (by omega)]
        exact hfrT1
      have hts2 : T2.length ≤ start + (lds ++ 58 :: key).length +
          v.enc.length := by
        have := tokCount_le_enc v
        omega
      have hframes2 : ∀ g ∈ fr :: rest, g.token < T2.length := by
        intro g hg
        have := hframes g hg
        omega
      have hbps' : bytesAt B (start + (lds ++ 58 :: key).length + v.enc.length)
          (encPairs ps) := by
        rw [show start + (lds ++ 58 :: key).length + v.enc.length =
          start + ((lds ++ 58 :: key) ++ v.enc).length by
            simp only [List.length_append]; omega]
        exact hbps
      exact ih hwps (fun a b u hu hwu => IHf a b u (List.mem_cons_of_mem _ hu)
        hwu) (f - v.tokCount) (start + (lds ++ 58 :: key).length + v.enc.length)
        T2 fr rest hbps' hfr2 hstate ⟨l, k, w, hwps_mem, hwdeep⟩ hklt (by omega)
        hts2 hframes2

/-- A well-formed value deep enough to push the stack to the depth limit
makes the loop fail with `DepthExceeded` (strong induction on the value's
size). -/
theorem bvalConsumeFail (B : List Nat) (dl : Nat)
    (hblen : B.length ≤ BUFFER_MAX_OFFSET) :
    ∀ (n : Nat) (v : BVal), sizeOf v ≤ n → v.wf = true →
      ConsumeFailProp B dl v := by
  intro n
  induction n with
  | zero =>
    intro v hsz
    exfalso
    cases v <;> simp [BVal.vint.sizeOf_spec, BVal.vstr.sizeOf_spec,
      BVal.vlist.sizeOf_spec, BVal.vdict.sizeOf_spec] at hsz <;> omega
  | succ n ihn =>
    intro v hsz hwf
    cases v with
    | vint neg ds =>
      intro fuel start tokens stack hbytes hkey hdl hfuel hts hframes
      have hdep : (BVal.vint neg ds).depth = 0 := rfl
      have hle := bytesAt_le B start _ (enc_ne_nil (BVal.vint neg ds)) hbytes
      have hpos : 0 < (BVal.vint neg ds).enc.length :=
        List.length_pos.mpr (enc_ne_nil _)
      exact tokenizeLoop_depth_error B dl fuel start tokens stack (by omega)
        (by omega)
    | vstr lds payload =>
      intro fuel start tokens stack hbytes hkey hdl hfuel hts hframes
      have hdep : (BVal.vstr lds payload).depth = 0 := rfl
      have hle := bytesAt_le B start _ (enc_ne_nil (BVal.vstr lds payload))
        hbytes
      have hpos : 0 < (BVal.vstr lds payload).enc.length :=
        List.length_pos.mpr (enc_ne_nil _)
      exact tokenizeLoop_depth_error B dl fuel start tokens stack (by omega)
        (by omega)
    | vlist items =>
      intro fuel start tokens stack hbytes hkey hdl hfuel hts hframes
      have hwfl : wfList items = true := hwf
      have henc : (BVal.vlist items).enc = 108 :: (encList items ++ [101]) := rfl
      have hle := bytesAt_le B start _ (enc_ne_nil (BVal.vlist items)) hbytes
      have hencpos : 0 < (BVal.vlist items).enc.length :=
        List.length_pos.mpr (enc_ne_nil _)
      by_cases hk : stack.length ≥ dl
      · exact tokenizeLoop_depth_error B dl fuel start tokens stack (by omega) hk
      · rw [henc, bytesAt_cons] at hbytes
        obtain ⟨h108, hbody⟩ := hbytes
        rw [bytesAt_append] at hbody
        obtain ⟨hbitems, hbe⟩ := hbody
        rw [bytesAt_cons] at hbe
        obtain ⟨h101, -⟩ := hbe
        have hslt : start < B.length := (List.get?_eq_some.mp h108).1
        have htc : (BVal.vlist items).tokCount = 2 + tokCountList items := rfl
        have hdep : (BVal.vlist items).depth = 1 + depthList items := rfl
        obtain ⟨f, hf⟩ : ∃ f, fuel = f + 1 := ⟨fuel - 1, by omega⟩
        subst hf
        have hstep := tokenizeLoop_step_list B dl f start tokens stack h108
          (by omega) (by omega) hkey
        set T1 := tokens ++ [BToken.newList start 0] with hT1
        have hT1len : T1.length = tokens.length + 1 := by rw [hT1]; simp
        have hflen : (flipFrame T1 stack).length = stack.length :=
          flipFrame_length T1 stack
        rw [hstep]
        by_cases hk1 : stack.length + 1 ≥ dl
        · exact tokenizeLoop_depth_error B dl f (start + 1) T1
            (StackFrame.new tokens.length :: flipFrame T1 stack) (by omega)
            (by simp only [List.length_cons]; omega)
        · have hmask : (StackFrame.new tokens.length).token = tokens.length := by
            simp only [StackFrame.new]
            apply Nat.mod_eq_of_lt
            unfold BUFFER_MAX_OFFSET at hblen
            omega
          have hlookup : (T1.get? (StackFrame.new tokens.length).token).map
              BToken.kind = Option.some TokType.list := by
            rw [hmask, hT1, List.get?_concat_length]
            rfl
          have hdla : dl ≤ stack.length + 1 + depthList items := by omega
          rcases depthList_attained items with h0 | ⟨w, hwmem, hwd⟩
          · omega
          · have hframes1 : ∀ g ∈ StackFrame.new tokens.length ::
                flipFrame T1 stack, g.token < T1.length := by
              intro g hg
              rcases List.mem_cons.mp hg with hg | hg
              · subst hg
                rw [hmask]
                omega
              · obtain ⟨g0, hg0, hgt⟩ := flipFrame_mem_token T1 stack g hg
                have := hframes g0 hg0
                rw [hgt]
                omega
            exact bvalConsumeItemsFail B dl hblen items hwfl
              (fun u hu hwu => ihn u (by
                have h1 := List.sizeOf_lt_of_mem hu
                have h2 : sizeOf (BVal.vlist items) = 1 + sizeOf items := by
                  simp [BVal.vlist.sizeOf_spec]
                omega) hwu)
              f (start + 1) T1 (StackFrame.new tokens.length)
              (flipFrame T1 stack) hbitems hlookup
              ⟨w, hwmem, by simp only [List.length_cons]; omega⟩
              (by omega) (by omega) hframes1
    | vdict pairs =>
      intro fuel start tokens stack hbytes hkey hdl hfuel hts hframes
      have hwfp : wfPairs pairs = true := hwf
      have henc : (BVal.vdict pairs).enc = 100 :: (encPairs pairs ++ [101]) := rfl
      have hle := bytesAt_le B start _ (enc_ne_nil (BVal.vdict pairs)) hbytes
      have hencpos : 0 < (BVal.vdict pairs).enc.length :=
        List.length_pos.mpr (enc_ne_nil _)
      by_cases hk : stack.length ≥ dl
      · exact tokenizeLoop_depth_error B dl fuel start tokens stack (by omega) hk
      · rw [henc, bytesAt_cons] at hbytes
        obtain ⟨h100, hbody⟩ := hbytes
        rw [bytesAt_append] at hbody
        obtain ⟨hbpairs, hbe⟩ := hbody
        rw [bytesAt_cons] at hbe
        obtain ⟨h101, -⟩ := hbe
        have hslt : start < B.length := (List.get?_eq_some.mp h100).1
        have htc : (BVal.vdict pairs).tokCount = 2 + tokCountPairs pairs := rfl
        have hdep : (BVal.vdict pairs).depth = 1 + depthPairs pairs := rfl
        obtain ⟨f, hf⟩ : ∃ f, fuel = f + 1 := ⟨fuel - 1, by omega⟩
        subst hf
        have hstep := tokenizeLoop_step_dict B dl f start tokens stack h100
          (by omega) (by omega) hkey
        set T1 := tokens ++ [BToken.newDict start 0] with hT1
        have hT1len : T1.length = tokens.length + 1 := by rw [hT1]; simp
        have hflen : (flipFrame T1 stack).length = stack.length :=
          flipFrame_length T1 stack
        rw [hstep]
        by_cases hk1 : stack.length + 1 ≥ dl
        · exact tokenizeLoop_depth_error B dl f (start + 1) T1
            (StackFrame.new tokens.length :: flipFrame T1 stack) (by omega)
            (by simp only [List.length_cons]; omega)
        · have hmask : (StackFrame.new tokens.length).token = tokens.length := by
            simp only [StackFrame.new]
            apply Nat.mod_eq_of_lt
            unfold BUFFER_MAX_OFFSET at hblen
            omega
          have hlookup : (T1.get? (StackFrame.new tokens.length).token).map
              BToken.kind = Option.some TokType.dict := by
            rw [hmask, hT1, List.get?_concat_length]
            rfl
          have hdla : dl ≤ stack.length + 1 + depthPairs pairs := by omega
          rcases depthPairs_attained pairs with h0 | ⟨a, b, w, hwmem, hwd⟩
          · omega
          · have hframes1 : ∀ g ∈ StackFrame.new tokens.length ::
                flipFrame T1 stack, g.token < T1.length := by
              intro g hg
              rcases List.mem_cons.mp hg with hg | hg
              · subst hg
                rw [hmask]
                omega
              · obtain ⟨g0, hg0, hgt⟩ := flipFrame_mem_token T1 stack g hg
                have := hframes g0 hg0
                rw [hgt]
                omega
            exact bvalConsumePairsFail B dl hblen pairs hwfp
              (fun l k u hu hwu => ihn u (by
                have h1 := List.sizeOf_lt_of_mem hu
                have h2 : sizeOf (BVal.vdict pairs) = 1 + sizeOf pairs := by
                  simp [BVal.vdict.sizeOf_spec]
                simp only [Prod.mk.sizeOf_spec] at h1
                omega) hwu)
              f (start + 1) T1 (StackFrame.new tokens.length)
              (flipFrame T1 stack) hbpairs hlookup rfl
              ⟨a, b, w, hwmem, by simp only [List.length_cons]; omega⟩
              (by simp only [List.length_cons]; omega)
              (by omega) (by omega) hframes1

/-- A well-formed value laid out at offset 0, whose depth is below the
limit, makes the loop (started from the initial empty state) succeed: the
root token is emitted, its body is consumed by `bvalConsume`'s invariant,
and the break-on-empty-stack fires. -/
theorem bvalTokenizeRoot (B : List Nat) (d : Nat)
    (hblen : B.length ≤ BUFFER_MAX_OFFSET)
    (v : BVal) (hwf : v.wf = true) (hbytes : bytesAt B 0 v.enc)
    (hdep : v.depth < d) (hd : 1 ≤ d)
    (fuel : Nat) (hfuel : v.tokCount ≤ fuel) :
    ∃ out, tokenizeLoop B d fuel 0 [] [] = .ok out := by
  cases v with
  | vint neg ds =>
    obtain ⟨hne', h20, hall⟩ := wf_vint neg ds hwf
    have henc : (BVal.vint neg ds).enc =
        105 :: ((if neg then [45] else []) ++ ds ++ [101]) := rfl
    rw [henc, bytesAt_cons] at hbytes
    obtain ⟨h105, hbody⟩ := hbytes
    have hchk := checkInteger_run_at B (0 + 1) neg ds hbody hne' hall h20
    obtain ⟨f, hf⟩ : ∃ f, fuel = f + 1 :=
      ⟨fuel - 1, by
        have : (BVal.vint neg ds).tokCount = 1 := rfl
        omega⟩
    subst hf
    have hstep := tokenizeLoop_step_int B d f 0 [] [] _ h105 (by omega)
      (by simp only [List.length_nil]; omega) rfl hchk
    simp only [List.nil_append] at hstep
    rw [show flipFrame [BToken.newInt 0] ([] : List StackFrame) = []
      from rfl] at hstep
    exact ⟨_, by rw [hstep, if_pos rfl]⟩
  | vstr lds payload =>
    obtain ⟨hne', h7, hall, hval⟩ := wf_vstr lds payload hwf
    have henc : (BVal.vstr lds payload).enc = lds ++ 58 :: payload := rfl
    rw [henc] at hbytes
    obtain ⟨f, hf⟩ : ∃ f, fuel = f + 1 :=
      ⟨fuel - 1, by
        have : (BVal.vstr lds payload).tokCount = 1 := rfl
        omega⟩
    subst hf
    have hstep := tokenizeLoop_step_str B d f 0 [] [] lds payload hbytes hne'
      hall h7 hval
      (by
        have := bytesAt_le B 0 _ (by simp) hbytes
        omega)
      (by simp only [List.length_nil]; omega)
      rfl
    simp only [List.nil_append] at hstep
    rw [show flipFrame [BToken.newStr 0 lds.length] ([] : List StackFrame) = []
      from rfl] at hstep
    exact ⟨_, by rw [hstep, if_pos rfl]⟩
  | vlist items =>
    have hwfl : wfList items = true := hwf
    have henc : (BVal.vlist items).enc = 108 :: (encList items ++ [101]) := rfl
    rw [henc, bytesAt_cons] at hbytes
    obtain ⟨h108, hbody⟩ := hbytes
    rw [bytesAt_append] at hbody
    obtain ⟨hbitems, hbe⟩ := hbody
    rw [bytesAt_cons] at hbe
    obtain ⟨h101, -⟩ := hbe
    have helt : 0 + 1 + (encList items).length < B.length :=
      (List.get?_eq_some.mp h101).1
    have htc : (BVal.vlist items).tokCount = 2 + tokCountList items := rfl
    have hdepEq : (BVal.vlist items).depth = 1 + depthList items := rfl
    obtain ⟨f, hf⟩ : ∃ f, fuel = f + 1 := ⟨fuel - 1, by omega⟩
    subst hf
    have hstep := tokenizeLoop_step_list B d f 0 [] [] h108 (by omega)
      (by simp only [List.length_nil]; omega) rfl
    simp only [List.nil_append, List.length_nil] at hstep
    rw [show flipFrame [BToken.newList 0 0] ([] : List StackFrame) = []
      from rfl] at hstep
    have hmask0 : (StackFrame.new 0).token = 0 := rfl
    have hlookup : (([BToken.newList 0 0] : List BToken).get?
        (StackFrame.new 0).token).map BToken.kind =
        Option.some TokType.list := rfl
    have IHmem : ∀ w ∈ items, ConsumeProp B d w := fun w hw =>
      bvalConsume B d hblen (sizeOf w) w (le_refl _)
        (wfList_mem items hwfl w hw)
    have hframes1 : ∀ g ∈ [StackFrame.new 0],
        g.token < ([BToken.newList 0 0] : List BToken).length := by
      intro g hg
      rw [List.mem_singleton] at hg
      subst hg
      rw [hmask0]
      simp
    obtain ⟨T2, hlen2, hpre2, heq2⟩ := bvalConsumeItems B d items hwfl IHmem
      f (0 + 1) [BToken.newList 0 0] (StackFrame.new 0) [] hbitems hlookup
      (by simp only [List.length_cons, List.length_nil]; omega)
      (by omega) (by simp) hframes1
    have hT1len : ([BToken.newList 0 0] : List BToken).length = 1 := rfl
    obtain ⟨g, hg⟩ : ∃ g, f - tokCountList items = g + 1 :=
      ⟨f - tokCountList items - 1, by omega⟩
    have htcl := tokCountList_le_enc items
    have hval2 : ¬ ((T2.get? (StackFrame.new 0).token).map BToken.kind =
        Option.some TokType.dict ∧ (StackFrame.new 0).state = 1) := by
      rintro ⟨hc, -⟩
      rw [hpre2 _ (by rw [hmask0]; simp), hlookup] at hc
      simp at hc
    have htk2 : (T2 ++ [BToken.newEnd (0 + 1 + (encList items).length)]).get?
        (StackFrame.new 0).token = Option.some (BToken.newList 0 0) := by
      rw [hmask0, List.get?_append (by omega : 0 < T2.length),
        hpre2 0 (by simp)]
      rfl
    have hmax2 : ¬ T2.length + 1 - (StackFrame.new 0).token > MAX_NEXT_ITEM := by
      rw [hmask0]
      unfold MAX_NEXT_ITEM
      unfold BUFFER_MAX_OFFSET at hblen
      omega
    have hpop := tokenizeLoop_pop B d g (0 + 1 + (encList items).length)
      T2 (StackFrame.new 0) [] (BToken.newList 0 0) h101 (by omega)
      (by simp only [List.length_cons, List.length_nil]; omega)
      hval2 htk2 hmax2
    rw [if_pos rfl] at hpop
    exact ⟨_, by rw [hstep, heq2, hg, hpop]⟩
  | vdict pairs =>
    have hwfp : wfPairs pairs = true := hwf
    have henc : (BVal.vdict pairs).enc = 100 :: (encPairs pairs ++ [101]) := rfl
    rw [henc, bytesAt_cons] at hbytes
    obtain ⟨h100, hbody⟩ := hbytes
    rw [bytesAt_append] at hbody
    obtain ⟨hbpairs, hbe⟩ := hbody
    rw [bytesAt_cons] at hbe
    obtain ⟨h101, -⟩ := hbe
    have helt : 0 + 1 + (encPairs pairs).length < B.length :=
      (List.get?_eq_some.mp h101).1
    have htc : (BVal.vdict pairs).tokCount = 2 + tokCountPairs pairs := rfl
    have hdepEq : (BVal.vdict pairs).depth = 1 + depthPairs pairs := rfl
    obtain ⟨f, hf⟩ : ∃ f, fuel = f + 1 := ⟨fuel - 1, by omega⟩
    subst hf
    have hstep := tokenizeLoop_step_dict B d f 0 [] [] h100 (by omega)
      (by simp only [List.length_nil]; omega) rfl
    simp only [List.nil_append, List.length_nil] at hstep
    rw [show flipFrame [BToken.newDict 0 0] ([] : List StackFrame) = []
      from rfl] at hstep
    have hmask0 : (StackFrame.new 0).token = 0 := rfl
    have hlookup : (([BToken.newDict 0 0] : List BToken).get?
        (StackFrame.new 0).token).map BToken.kind =
        Option.some TokType.dict := rfl
    have IHmem : ∀ lds key w, (lds, key, w) ∈ pairs → ConsumeProp B d w :=
      fun lds key w hw =>
        bvalConsume B d hblen (sizeOf w) w (le_refl _)
          (wfPairs_mem pairs hwfp lds key w hw)
    have hframes1 : ∀ g ∈ [StackFrame.new 0],
        g.token < ([BToken.newDict 0 0] : List BToken).length := by
      intro g hg
      rw [List.mem_singleton] at hg
      subst hg
      rw [hmask0]
      simp
    obtain ⟨T2, hlen2, hpre2, heq2⟩ := bvalConsumePairs B d pairs hwfp IHmem
      f (0 + 1) [BToken.newDict 0 0] (StackFrame.new 0) [] hbpairs hlookup rfl
      (by simp only [List.length_cons, List.length_nil]; omega)
      (by omega) (by simp) hframes1
    have hT1len : ([BToken.newDict 0 0] : List BToken).length = 1 := rfl
    obtain ⟨g, hg⟩ : ∃ g, f - tokCountPairs pairs = g + 1 :=
      ⟨f - tokCountPairs pairs - 1, by omega⟩
    have htcp := tokCountPairs_le_enc pairs
    have hval2 : ¬ ((T2.get? (StackFrame.new 0).token).map BToken.kind =
        Option.some TokType.dict ∧ (StackFrame.new 0).state = 1) := by
      rintro ⟨-, hs⟩
      exact absurd hs (by decide)
    have htk2 : (T2 ++ [BToken.newEnd (0 + 1 + (encPairs pairs).length)]).get?
        (StackFrame.new 0).token = Option.some (BToken.newDict 0 0) := by
      rw [hmask0, List.get?_append (by omega : 0 < T2.length),
        hpre2 0 (by simp)]
      rfl
    have hmax2 : ¬ T2.length + 1 - (StackFrame.new 0).token > MAX_NEXT_ITEM := by
      rw [hmask0]
      unfold MAX_NEXT_ITEM
      unfold BUFFER_MAX_OFFSET at hblen
      omega
    have hpop := tokenizeLoop_pop B d g (0 + 1 + (encPairs pairs).length)
      T2 (StackFrame.new 0) [] (BToken.newDict 0 0) h101 (by omega)
      (by simp only [List.length_cons, List.length_nil]; omega)
      hval2 htk2 hmax2
    rw [if_pos rfl] at hpop
    exact ⟨_, by rw [hstep, heq2, hg, hpop]⟩

/-- C4 (amended): for EVERY well-formed bencoded value `v` (over the value
grammar `BVal`, whose `wf` captures the tokenizer's syntactic requirements
and whose `enc` is its byte encoding) and every depth limit `d ≥ 1`: if the
container nesting depth of `v` is below `d` (equivalently, at most `d - 1`)
then `tokenize` accepts `v.enc`, and if the depth reaches `d` then
`tokenize` fails with `DepthExceeded d` — the check fires while the `d`-th
container is still open. -/
theorem c4_amended_depth_boundary (v : BVal) (d : Nat) (tl : Int)
    (hwf : v.wf = true) (hd : 1 ≤ d)
    (hblen : v.enc.length ≤ BUFFER_MAX_OFFSET)
    (htl : v.tokCount ≤ tl.toNat) :
    (v.depth < d →
      ∃ out, tokenize v.enc (Option.some d) (Option.some tl) = .ok out) ∧
    (d ≤ v.depth →
      tokenize v.enc (Option.some d) (Option.some tl) =
        .error (.depthExceeded d)) := by
  have hne : v.enc ≠ [] := enc_ne_nil v
  have hb0 : bytesAt v.enc 0 v.enc := by
    intro j hj
    rw [Nat.zero_add]
  constructor
  · intro hdep
    obtain ⟨⟨tokens', pos⟩, hloop⟩ := bvalTokenizeRoot v.enc d hblen v hwf hb0
      hdep hd tl.toNat htl
    simp only [tokenize, Option.getD_some]
    rw [if_neg (by omega),
      if_neg (by
        intro hc
        exact hne (List.length_eq_zero.mp hc)),
      hloop]
    exact ⟨_, rfl⟩
  · intro hdep
    have hfail := bvalConsumeFail v.enc d hblen (sizeOf v) v (le_refl _) hwf
      tl.toNat 0 [] [] hb0 rfl (by simpa using hdep) htl (by simp) (by simp)
    simp only [tokenize, Option.getD_some]
    rw [if_neg (by omega),
      if_neg (by
        intro hc
        exact hne (List.length_eq_zero.mp hc)),
      hfail]

/-- Witness for C4: the doubly nested list `ll ee` (depth 2) parses with
depth limit 3 and fails with `DepthExceeded 2` at depth limit 2. -/
theorem c4_amended_depth_boundary_witness :
    (∃ out, tokenize (BVal.vlist [BVal.vlist []]).enc (Option.some 3)
      (Option.some 10) = .ok out) ∧
    tokenize (BVal.vlist [BVal.vlist []]).enc (Option.some 2)
      (Option.some 10) = .error (.depthExceeded 2) :=
  ⟨(c4_amended_depth_boundary (BVal.vlist [BVal.vlist []]) 3 10 (by decide)
      (by decide) (by decide) (by decide)).1 (by decide),
   (c4_amended_depth_boundary (BVal.vlist [BVal.vlist []]) 2 10 (by decide)
      (by decide) (by decide) (by decide)).2 (by decide)⟩

end Bdec
